import Mathlib

/-!
The serializer `fast_dump`: a zero-recursion JSON writer.

A shallow embedding of `extensions/xtp/src/cpp/fast_dump.hpp` together with
theorems about it.

Conventions of the embedding.

* A `char` / `unsigned char` is a `Byte = Fin 256`; a `std::string` is a `List Byte`.
* `nlohmann::json` is the inductive type `json`, one constructor per `value_t`.
  An object is the list of its entries in iteration order and an object
  iterator is the list of the entries not yet visited (`obj_end` is `[]`).
* `int` values (`pretty`, `indent_level`) live in `Int`; the product
  `pretty * level` is taken in `Int` and the cast to `size_t` is `Int.toNat`
  (levels are never negative). `size_t` cursors live in `Nat`. The source
  multiplies two 32-bit `int`s: the two products are the same number as long as
  it is below `2 ^ 31`, which `indent_products_fit` shows for every product of
  a run with `pretty * (height + 1) < 2 ^ 31`. The overflow beyond that bound
  is not modelled, so every statement that asserts a returned text at a
  positive width assumes the bound.
* The function-local `thread_local ordered_keys` is a component of the
  machine state; its content at the start of the call is an argument.
* The `while (!stack.empty())` loop is `loop`, driven by a fuel counter; a run
  ends as `done` (the returned text), `fault` (an out-of-bounds subscript or a
  `get_ref` on the wrong type) or `timeout` (fuel exhausted).
* `std::to_chars` / `std::snprintf` on `double` come from the C++ standard
  library, not from this repository; they are the fields of `StdLib`.
-/

/-- An `unsigned char`. -/
abbrev Byte := Fin 256

/-- The bytes of an ASCII string literal. -/
def bytes (s : String) : List Byte := s.toList.map (fun ch => Fin.ofNat ch.toNat)

/-- A `double`, carried as an uninterpreted 64-bit pattern. -/
abbrev double := Nat

/-- The struct `FastDumpOptions`. -/
structure FastDumpOptions where
  pretty : Int := 0
  ensure_ascii : Bool := false
  sort_keys : Bool := false

/-- The type `nlohmann::json`: a tagged tree, one constructor per `value_t`. -/
inductive json where
  | null
  | boolean (b : Bool)
  | number_integer (v : Int)
  | number_unsigned (v : Nat)
  | number_float (v : double)
  | string (s : List Byte)
  | object (obj : List (List Byte × json))
  | array (arr : List json)
  | binary (payload : List Byte)
  | discarded

/-- An entry of `json::object_t`, that is what an object iterator points to
(`it->first`, `it->second`). -/
abbrev entry := List Byte × json

/-- The floating-point conversions of the C++ standard library used by
`append_double`: `to_chars_double v` is the text written by
`std::to_chars(buf, buf + 128, v, std::chars_format::general)`, or `none` when
it reports an error; `snprintf_17g v` is the text written by
`std::snprintf(buf, 128, "%.17g", v)`. -/
structure StdLib where
  to_chars_double : double → Option (List Byte)
  snprintf_17g : double → List Byte

/-- The digits of `std::to_chars` on an unsigned integer, most significant
first, prepended to `acc`; the first argument bounds the number of digits. -/
def to_chars_digits : Nat → Nat → List Byte → List Byte
  | 0, _, acc => acc
  | fuel + 1, v, acc =>
    if v < 10 then Fin.ofNat (48 + v) :: acc
    else to_chars_digits fuel (v / 10) (Fin.ofNat (48 + v % 10) :: acc)

/-- The text of `std::to_chars(buf, buf + 32, v)` for `uint64_t v`. -/
def to_chars_unsigned (v : Nat) : List Byte := to_chars_digits (v + 1) v []

/-- The text of `std::to_chars(buf, buf + 32, v)` for `int64_t v`. -/
def to_chars_signed (v : Int) : List Byte :=
  if v < 0 then 45 :: to_chars_unsigned (-v).toNat else to_chars_unsigned v.toNat

/-- The comparator handed to `std::sort`: `a->first < b->first` is false, in
the non-strict form an insertion sort expects. Keys compare as byte strings. -/
def key_le (a b : entry) : Prop := a.1 ≤ b.1

instance : DecidableRel key_le := fun a b => inferInstanceAs (Decidable (a.1 ≤ b.1))

/-- The call `std::sort(ordered_keys.begin(), ordered_keys.end(), cmp)`. The
keys of a `std::map` are pairwise distinct, so the sorted order is unique. -/
def std_sort (l : List entry) : List entry := List.insertionSort key_le l

namespace fastdump_detail

/-- `append_literal`. -/
def append_literal (out : List Byte) (s : List Byte) : List Byte := out ++ s

/-- `append_char`. -/
def append_char (out : List Byte) (c : Byte) : List Byte := out ++ [c]

/-- The table `HEX` of `append_escaped_string`. -/
def HEX : List Byte := bytes "0123456789ABCDEF"

/-- The lambda `flush_chunk` of `append_escaped_string`: append the bytes of
`s` at positions `start ≤ i < stop`. -/
def flush_chunk (out s : List Byte) (start stop : Nat) : List Byte :=
  out ++ (s.drop start).take (stop - start)

/-- The flag `need_escape` computed for the byte `c`. -/
def need_escape (c : Byte) (ensure_ascii : Bool) : Bool :=
  if c < 0x20 ∨ c = 0x22 ∨ c = 0x5C then true
  else if ensure_ascii = true ∧ c ≥ 0x80 then true
  else false

/-- The `switch (c)` of `append_escaped_string`. -/
def escape_switch (out : List Byte) (c : Byte) : List Byte :=
  if c = 0x22 then out ++ bytes "\\\""
  else if c = 0x5C then out ++ bytes "\\\\"
  else if c = 0x08 then out ++ bytes "\\b"
  else if c = 0x0C then out ++ bytes "\\f"
  else if c = 0x0A then out ++ bytes "\\n"
  else if c = 0x0D then out ++ bytes "\\r"
  else if c = 0x09 then out ++ bytes "\\t"
  else
    let out := out ++ bytes "\\u00"
    let out := out ++ [HEX.getD ((c.val >>> 4) &&& 0xF) 0]
    out ++ [HEX.getD (c.val &&& 0xF) 0]

/-- The `while (p < e)` loop of `append_escaped_string` followed by the final
flush. The first list is the unread part `[p, e)` of `s`; `p` and
`chunk_start` are offsets into `s`. -/
def escape_loop (s : List Byte) (ensure_ascii : Bool) :
    List Byte → Nat → Nat → List Byte → List Byte
  | [], p, chunk_start, out =>
    if chunk_start < p then flush_chunk out s chunk_start p else out
  | c :: rest, p, chunk_start, out =>
    if need_escape c ensure_ascii = false then
      escape_loop s ensure_ascii rest (p + 1) chunk_start out
    else
      let out := if chunk_start < p then flush_chunk out s chunk_start p else out
      let out := escape_switch out c
      escape_loop s ensure_ascii rest (p + 1) (p + 1) out

/-- `append_escaped_string`. -/
def append_escaped_string (out s : List Byte) (ensure_ascii : Bool) : List Byte :=
  let out := out ++ [0x22]
  let out := escape_loop s ensure_ascii s 0 0 out
  out ++ [0x22]

/-- `append_integer`. -/
def append_integer (out : List Byte) (v : Int) : List Byte := out ++ to_chars_signed v

/-- `append_uinteger`. -/
def append_uinteger (out : List Byte) (v : Nat) : List Byte := out ++ to_chars_unsigned v

/-- `append_double`. -/
def append_double (lib : StdLib) (out : List Byte) (v : double) : List Byte :=
  match lib.to_chars_double v with
  | some t => out ++ t
  | none =>
    let t := lib.snprintf_17g v
    if t.length > 0 then out ++ t else out

/-- `indent_if_needed`. The product `pretty * level`, a product of two 32-bit
`int`s in the source, is taken in `Int`: the same number whenever it is below
`2 ^ 31`, and not a model of the overflow beyond. -/
def indent_if_needed (out : List Byte) (pretty level : Int) : List Byte :=
  if pretty > 0 then (out ++ [0x0A]) ++ List.replicate (pretty * level).toNat 0x20
  else out

/-- `Frame::Kind`. -/
inductive Kind where
  | VALUE
  | OBJECT
  | ARRAY
deriving DecidableEq

/-- The struct `Frame`. The pair `obj_it`, `obj_end` is the list of entries from
`obj_it` up to the end of the object. -/
structure Frame where
  kind : Kind
  node : json
  obj_it : List entry
  use_ordered : Bool
  ord_idx : Nat
  ord_size : Nat
  idx : Nat
  size : Nat
  first : Bool
  indent_level : Int

end fastdump_detail

open fastdump_detail

/-- The mutable state of one call of `fast_dump`: the text `out`, the frame
`stack` (its head is `stack.back()`) and the `thread_local ordered_keys`. -/
structure State where
  out : List Byte
  stack : List Frame
  ordered_keys : List entry

/-- How a run of `fast_dump` ends. -/
inductive Outcome where
  | done (out : List Byte)
  | fault
  | timeout
deriving DecidableEq

/-- The lambda `push_value`. -/
def push_value (st : State) (node : json) (level : Int) : State :=
  { st with stack :=
      { kind := Kind.VALUE, node := node, obj_it := [], use_ordered := false,
        ord_idx := 0, ord_size := 0, idx := 0, size := 0, first := true,
        indent_level := level } :: st.stack }

/-- The lambda `push_object`; `none` when `get_ref<const object_t&>` throws. -/
def push_object (opt : FastDumpOptions) (st : State) (node : json) (level : Int) :
    Option State :=
  match node with
  | json.object obj =>
    if obj.isEmpty then some { st with out := append_literal st.out (bytes "\x7b\x7d") }
    else
      let out := append_char st.out 0x7B
      let out := if opt.pretty ≠ 0 then indent_if_needed out opt.pretty (level + 1) else out
      if opt.sort_keys then
        let ordered_keys := std_sort obj
        some { out := out,
               stack :=
                { kind := Kind.OBJECT, node := node, obj_it := [], use_ordered := true,
                  ord_idx := 0, ord_size := ordered_keys.length, idx := 0, size := 0,
                  first := true, indent_level := level } :: st.stack,
               ordered_keys := ordered_keys }
      else
        some { out := out,
               stack :=
                { kind := Kind.OBJECT, node := node, obj_it := obj, use_ordered := false,
                  ord_idx := 0, ord_size := 0, idx := 0, size := 0,
                  first := true, indent_level := level } :: st.stack,
               ordered_keys := st.ordered_keys }
  | _ => none

/-- The lambda `push_array`; `none` when `get_ref<const array_t&>` throws. -/
def push_array (opt : FastDumpOptions) (st : State) (node : json) (level : Int) :
    Option State :=
  match node with
  | json.array arr =>
    if arr.length = 0 then some { st with out := append_literal st.out (bytes "[]") }
    else
      let out := append_char st.out 0x5B
      let out := if opt.pretty ≠ 0 then indent_if_needed out opt.pretty (level + 1) else out
      some { st with
             out := out,
             stack :=
              { kind := Kind.ARRAY, node := node, obj_it := [], use_ordered := false,
                ord_idx := 0, ord_size := 0, idx := 0, size := arr.length,
                first := true, indent_level := level } :: st.stack }
  | _ => none

/-- The `case Frame::VALUE` of the loop body. -/
def visit_value (lib : StdLib) (opt : FastDumpOptions) (f : Frame) (st : State) :
    Option State :=
  match f.node with
  | json.null => some { st with out := append_literal st.out (bytes "null") }
  | json.boolean b =>
    some { st with out := append_literal st.out (if b then bytes "true" else bytes "false") }
  | json.number_integer v => some { st with out := append_integer st.out v }
  | json.number_unsigned v => some { st with out := append_uinteger st.out v }
  | json.number_float v => some { st with out := append_double lib st.out v }
  | json.string s => some { st with out := append_escaped_string st.out s opt.ensure_ascii }
  | json.object _ => push_object opt st f.node f.indent_level
  | json.array _ => push_array opt st f.node f.indent_level
  | json.binary _ =>
    some { st with out := append_escaped_string st.out (bytes "<binary>") false }
  | json.discarded =>
    some { st with out := append_escaped_string st.out (bytes "<discarded>") false }

/-- The selection of the next record in `case Frame::OBJECT`: `none` is an
out-of-bounds `ordered_keys[f.ord_idx]`, `some none` is `done = true`, and
`some (some (key, val, f))` carries the advanced frame. -/
def next_record (f : Frame) (st : State) : Option (Option (List Byte × json × Frame)) :=
  if f.use_ordered then
    if f.ord_idx ≥ f.ord_size then some none
    else
      match st.ordered_keys[f.ord_idx]? with
      | none => none
      | some it => some (some (it.1, it.2, { f with ord_idx := f.ord_idx + 1 }))
  else
    match f.obj_it with
    | [] => some none
    | it :: tl => some (some (it.1, it.2, { f with obj_it := tl }))

/-- The `case Frame::OBJECT` of the loop body. -/
def visit_object (opt : FastDumpOptions) (f : Frame) (st : State) : Option State :=
  match next_record f st with
  | none => none
  | some none =>
    let out := if opt.pretty ≠ 0 then indent_if_needed st.out opt.pretty f.indent_level
               else st.out
    some { st with out := append_char out 0x7D }
  | some (some (key, val, f)) =>
    let out :=
      if f.first = false then
        let out := append_char st.out 0x2C
        if opt.pretty ≠ 0 then indent_if_needed out opt.pretty (f.indent_level + 1) else out
      else st.out
    let f := { f with first := false }
    let out := append_escaped_string out key opt.ensure_ascii
    let out := append_char out 0x3A
    let out := if opt.pretty ≠ 0 then append_char out 0x20 else out
    some (push_value { st with out := out, stack := f :: st.stack } val (f.indent_level + 1))

/-- The `case Frame::ARRAY` of the loop body. -/
def visit_array (opt : FastDumpOptions) (f : Frame) (st : State) : Option State :=
  match f.node with
  | json.array arr =>
    if f.idx = f.size then
      let out := if opt.pretty ≠ 0 then indent_if_needed st.out opt.pretty f.indent_level
                 else st.out
      some { st with out := append_char out 0x5D }
    else
      let out :=
        if f.first = false then
          let out := append_char st.out 0x2C
          if opt.pretty ≠ 0 then indent_if_needed out opt.pretty (f.indent_level + 1) else out
        else st.out
      let f := { f with first := false }
      match arr[f.idx]? with
      | none => none
      | some elem =>
        let f := { f with idx := f.idx + 1 }
        some (push_value { st with out := out, stack := f :: st.stack } elem
                (f.indent_level + 1))
  | _ => none

/-- One pass through the body of `while (!stack.empty())`: `f` is the frame
just popped and `st.stack` what remains. -/
def iteration (lib : StdLib) (opt : FastDumpOptions) (f : Frame) (st : State) :
    Option State :=
  match f.kind with
  | Kind.VALUE => visit_value lib opt f st
  | Kind.OBJECT => visit_object opt f st
  | Kind.ARRAY => visit_array opt f st

/-- The loop `while (!stack.empty())`, at most `fuel` passes. -/
def loop (lib : StdLib) (opt : FastDumpOptions) : Nat → State → Outcome
  | fuel, st =>
    match st.stack with
    | [] => Outcome.done st.out
    | f :: rest =>
      match fuel with
      | 0 => Outcome.timeout
      | fuel + 1 =>
        match iteration lib opt f { st with stack := rest } with
        | none => Outcome.fault
        | some st => loop lib opt fuel st

mutual
/-- Nesting height of a value: 0 for a scalar, 1 + the largest member height
for an object or array. -/
def json.height : json → Nat
  | json.object obj => 1 + entries_height obj
  | json.array arr => 1 + elems_height arr
  | _ => 0
/-- Largest height among the values of a list of entries. -/
def entries_height : List entry → Nat
  | [] => 0
  | it :: tl => max it.2.height (entries_height tl)
/-- Largest height among a list of values. -/
def elems_height : List json → Nat
  | [] => 0
  | v :: tl => max v.height (elems_height tl)
end

mutual
/-- Largest number of members of any object or array inside a value. -/
def json.width : json → Nat
  | json.object obj => max obj.length (entries_width obj)
  | json.array arr => max arr.length (elems_width arr)
  | _ => 0
/-- Largest `width` among the values of a list of entries. -/
def entries_width : List entry → Nat
  | [] => 0
  | it :: tl => max it.2.width (entries_width tl)
/-- Largest `width` among a list of values. -/
def elems_width : List json → Nat
  | [] => 0
  | v :: tl => max v.width (elems_width tl)
end

/-- A bound on the number of loop passes spent on a value of height `h` all of
whose composites have at most `n` members. -/
def pass_bound (n : Nat) : Nat → Nat
  | 0 => 1
  | h + 1 => 2 + n * (1 + pass_bound n h)

/-- The state on entry to the loop: `push_value(&j, 0)` on an empty stack. -/
def initial (j : json) (ordered_keys : List entry) : State :=
  push_value { out := [], stack := [], ordered_keys := ordered_keys } j 0

/-- The function `fast_dump`. `ordered_keys` is what the thread-local scratch
vector holds when the call starts. The loop is given `pass_bound` passes, which
`fast_dump_not_timeout` shows to be enough for every input. -/
def fast_dump (lib : StdLib) (j : json) (opt : FastDumpOptions)
    (ordered_keys : List entry) : Outcome :=
  loop lib opt (pass_bound j.width j.height) (initial j ordered_keys)

/-- A sample floating-point library: every double prints as `0`. -/
def lib0 : StdLib := { to_chars_double := fun _ => some [48], snprintf_17g := fun _ => [48] }


/-- The value of a hexadecimal digit, either case. -/
def hex_value (c : Byte) : Option Nat :=
  if 0x30 ≤ c ∧ c ≤ 0x39 then some (c.val - 0x30)
  else if 0x41 ≤ c ∧ c ≤ 0x46 then some (c.val - 0x41 + 10)
  else if 0x61 ≤ c ∧ c ≤ 0x66 then some (c.val - 0x61 + 10)
  else none

/-- The byte denoted by a two-character JSON escape `\c`. -/
def simple_escape (c : Byte) : Option Byte :=
  if c = 0x22 then some 0x22
  else if c = 0x5C then some 0x5C
  else if c = 0x2F then some 0x2F
  else if c = 0x62 then some 0x08
  else if c = 0x66 then some 0x0C
  else if c = 0x6E then some 0x0A
  else if c = 0x72 then some 0x0D
  else if c = 0x74 then some 0x09
  else none

/-- The standard JSON string unescape, applied after the opening quote: the
decoded bytes up to the closing quote and the text that follows it. Two
character escapes denote their byte, `\u00XX` denotes the single byte `XX`;
any other escape, and a missing closing quote, is rejected. -/
def unescape_body : List Byte → Option (List Byte × List Byte)
  | [] => none
  | c :: rest =>
    if c = 0x22 then some ([], rest)
    else if c = 0x5C then
      match rest with
      | [] => none
      | e :: rest1 =>
        if e = 0x75 then
          match rest1 with
          | h1 :: h2 :: h3 :: h4 :: rest2 =>
            if h1 = 0x30 ∧ h2 = 0x30 then
              match hex_value h3, hex_value h4, unescape_body rest2 with
              | some a, some b, some (s, tail) => some (Fin.ofNat (16 * a + b) :: s, tail)
              | _, _, _ => none
            else none
          | _ => none
        else
          match simple_escape e, unescape_body rest1 with
          | some b, some (s, tail) => some (b :: s, tail)
          | _, _ => none
    else
      match unescape_body rest with
      | some (s, tail) => some (c :: s, tail)
      | none => none

/-- The standard JSON unescape of a whole string token: opening quote, body,
closing quote, nothing after. -/
def json_unescape (token : List Byte) : Option (List Byte) :=
  match token with
  | [] => none
  | q :: body =>
    if q = 0x22 then
      match unescape_body body with
      | some (s, []) => some s
      | _ => none
    else none

/-- The byte-at-a-time escape of one byte: its escape sequence when
`need_escape` holds, the byte itself otherwise. -/
def escape_one (ensure_ascii : Bool) (c : Byte) : List Byte :=
  if need_escape c ensure_ascii = true then escape_switch [] c else [c]

/-- A bound on the loop passes still owed to one frame, given that every
composite has at most `n` members: a `VALUE` frame owes the passes of its
value, an `OBJECT` or `ARRAY` frame owes one closing pass plus, for each member
not yet visited, one pass of its own and the passes of a member value. -/
def frame_bound (n : Nat) (f : Frame) : Nat :=
  match f.kind with
  | Kind.VALUE => pass_bound n f.node.height
  | Kind.OBJECT =>
    1 + (if f.use_ordered then f.ord_size - f.ord_idx else f.obj_it.length)
          * (1 + pass_bound n (f.node.height - 1))
  | Kind.ARRAY => 1 + (f.size - f.idx) * (1 + pass_bound n (f.node.height - 1))

/-- The termination measure of the loop: the sum of `frame_bound` over the stack. -/
def stack_bound (n : Nat) (stack : List Frame) : Nat := (stack.map (frame_bound n)).sum

/-- What the loop maintains about one frame: its node has no composite wider
than `n`; an array cursor does not pass the size; the entries an object frame
can still read (its own iterator range, or the shared `ordered_keys`) are lower
than the frame's node and no wider than `n`. -/
def frame_ok (n : Nat) (ordered_keys : List entry) (f : Frame) : Prop :=
  f.node.width ≤ n ∧
  (f.kind = Kind.ARRAY → f.idx ≤ f.size) ∧
  (f.kind = Kind.OBJECT → f.use_ordered = false →
    ∀ e ∈ f.obj_it, e.2.height < f.node.height ∧ e.2.width ≤ n) ∧
  (f.kind = Kind.OBJECT → f.use_ordered = true →
    ∀ e ∈ ordered_keys, e.2.height < f.node.height ∧ e.2.width ≤ n)

/-- The loop invariant used for termination: every frame is `frame_ok` and
node heights do not decrease from the top of the stack to the bottom. -/
def stack_ok (n : Nat) (stack : List Frame) (ordered_keys : List entry) : Prop :=
  (∀ f ∈ stack, frame_ok n ordered_keys f) ∧
  stack.Pairwise (fun a b => a.node.height ≤ b.node.height)

/-- The text added by `if (opt.pretty) indent_if_needed(out, opt.pretty, level)`. -/
def line_break (opt : FastDumpOptions) (level : Int) : List Byte :=
  if opt.pretty ≠ 0 then indent_if_needed [] opt.pretty level else []

/-- The text added by `if (opt.pretty) append_char(out, ' ')` after a key's colon. -/
def key_gap (opt : FastDumpOptions) : List Byte :=
  if opt.pretty ≠ 0 then [0x20] else []

/-- The text added by the block `if (!f.first) ...` in front of a member at
indentation `level`: nothing for the first member, a comma and a line break
for the others. -/
def separator (opt : FastDumpOptions) (first : Bool) (level : Int) : List Byte :=
  if first = false then 0x2C :: line_break opt level else []

/-- The frame built by `push_value`. -/
def value_frame (node : json) (level : Int) : Frame :=
  { kind := Kind.VALUE, node := node, obj_it := [], use_ordered := false,
    ord_idx := 0, ord_size := 0, idx := 0, size := 0, first := true, indent_level := level }

/-- The frame built by `push_object`, either branch of `if (opt.sort_keys)`. -/
def object_frame (opt : FastDumpOptions) (obj : List entry) (level : Int) : Frame :=
  if opt.sort_keys then
    { kind := Kind.OBJECT, node := json.object obj, obj_it := [], use_ordered := true,
      ord_idx := 0, ord_size := (std_sort obj).length, idx := 0, size := 0,
      first := true, indent_level := level }
  else
    { kind := Kind.OBJECT, node := json.object obj, obj_it := obj, use_ordered := false,
      ord_idx := 0, ord_size := 0, idx := 0, size := 0, first := true, indent_level := level }

/-- The frame built by `push_array`. -/
def array_frame (arr : List json) (level : Int) : Frame :=
  { kind := Kind.ARRAY, node := json.array arr, obj_it := [], use_ordered := false,
    ord_idx := 0, ord_size := 0, idx := 0, size := arr.length, first := true,
    indent_level := level }

mutual
/-- The text of a value at indentation `level`, by recursion on the tree: the
same pieces the loop appends, in the order a recursive descent meets them. -/
def dump_value (lib : StdLib) (opt : FastDumpOptions) : Int → json → List Byte
  | _, json.null => bytes "null"
  | _, json.boolean b => if b then bytes "true" else bytes "false"
  | _, json.number_integer v => to_chars_signed v
  | _, json.number_unsigned v => to_chars_unsigned v
  | _, json.number_float v => append_double lib [] v
  | _, json.string s => append_escaped_string [] s opt.ensure_ascii
  | _, json.binary _ => append_escaped_string [] (bytes "<binary>") false
  | _, json.discarded => append_escaped_string [] (bytes "<discarded>") false
  | level, json.object obj =>
    match obj with
    | [] => bytes "\x7b\x7d"
    | _ :: _ =>
      [0x7B] ++ line_break opt (level + 1) ++ dump_members lib opt level true obj
        ++ line_break opt level ++ [0x7D]
  | level, json.array arr =>
    match arr with
    | [] => bytes "[]"
    | _ :: _ =>
      [0x5B] ++ line_break opt (level + 1) ++ dump_elems lib opt level true arr
        ++ line_break opt level ++ [0x5D]
/-- The text of the entries an object frame at `level` still has to visit. -/
def dump_members (lib : StdLib) (opt : FastDumpOptions) : Int → Bool → List entry → List Byte
  | _, _, [] => []
  | level, first, it :: tl =>
    separator opt first (level + 1) ++ append_escaped_string [] it.1 opt.ensure_ascii
      ++ [0x3A] ++ key_gap opt ++ dump_value lib opt (level + 1) it.2
      ++ dump_members lib opt level false tl
/-- The text of the elements an array frame at `level` still has to visit. -/
def dump_elems (lib : StdLib) (opt : FastDumpOptions) : Int → Bool → List json → List Byte
  | _, _, [] => []
  | level, first, v :: tl =>
    separator opt first (level + 1) ++ dump_value lib opt (level + 1) v
      ++ dump_elems lib opt level false tl
end

/-- The whitespace the straightforward serializer inserts after an opener,
after a comma and before a closer: a newline and `w * level` spaces when the
indent width `w` is positive, nothing in compact mode. -/
def newline_indent (w level : Nat) : List Byte :=
  if w > 0 then 0x0A :: List.replicate (w * level) 0x20 else []

mutual
/-- The straightforward recursive serializer the specification compares with:
a scalar gives its token; an empty composite gives `{}` or `[]`; a non-empty
composite gives its opener, its members in iteration order separated by `,`,
and its closer, with `newline_indent` after the opener, after each `,` and
before the closer, and `: ` in place of `:` after a key when `w > 0`. -/
def recursive_dump (lib : StdLib) (ensure_ascii : Bool) (w : Nat) : Nat → json → List Byte
  | _, json.null => bytes "null"
  | _, json.boolean b => if b then bytes "true" else bytes "false"
  | _, json.number_integer v => to_chars_signed v
  | _, json.number_unsigned v => to_chars_unsigned v
  | _, json.number_float v => append_double lib [] v
  | _, json.string s => append_escaped_string [] s ensure_ascii
  | _, json.binary _ => append_escaped_string [] (bytes "<binary>") false
  | _, json.discarded => append_escaped_string [] (bytes "<discarded>") false
  | level, json.object obj =>
    match obj with
    | [] => bytes "\x7b\x7d"
    | _ :: _ =>
      [0x7B] ++ newline_indent w (level + 1)
        ++ List.intercalate (0x2C :: newline_indent w (level + 1))
            (recursive_members lib ensure_ascii w (level + 1) obj)
        ++ newline_indent w level ++ [0x7D]
  | level, json.array arr =>
    match arr with
    | [] => bytes "[]"
    | _ :: _ =>
      [0x5B] ++ newline_indent w (level + 1)
        ++ List.intercalate (0x2C :: newline_indent w (level + 1))
            (recursive_elems lib ensure_ascii w (level + 1) arr)
        ++ newline_indent w level ++ [0x5D]
/-- The texts of the members of an object, each `key`, colon, value. -/
def recursive_members (lib : StdLib) (ensure_ascii : Bool) (w : Nat) :
    Nat → List entry → List (List Byte)
  | _, [] => []
  | level, it :: tl =>
    (append_escaped_string [] it.1 ensure_ascii ++ (if w > 0 then [0x3A, 0x20] else [0x3A])
        ++ recursive_dump lib ensure_ascii w level it.2)
      :: recursive_members lib ensure_ascii w level tl
/-- The texts of the elements of an array. -/
def recursive_elems (lib : StdLib) (ensure_ascii : Bool) (w : Nat) :
    Nat → List json → List (List Byte)
  | _, [] => []
  | level, v :: tl =>
    recursive_dump lib ensure_ascii w level v :: recursive_elems lib ensure_ascii w level tl
end

/-- The loop run from `s1` continues as the loop run from `s2`: some number of
passes leads from the first state to the second, without a fault. -/
def reaches (lib : StdLib) (opt : FastDumpOptions) (s1 s2 : State) : Prop :=
  ∃ n, ∀ fuel, loop lib opt (fuel + n) s1 = loop lib opt fuel s2

mutual
/-- Every string value and every object key inside the value satisfies `S`. -/
def strings_ok (S : List Byte → Bool) : json → Bool
  | json.string s => S s
  | json.object obj => entries_strings_ok S obj
  | json.array arr => elems_strings_ok S arr
  | _ => true
/-- Every key of the entries satisfies `S` and every value is `strings_ok`. -/
def entries_strings_ok (S : List Byte → Bool) : List entry → Bool
  | [] => true
  | it :: tl => S it.1 && strings_ok S it.2 && entries_strings_ok S tl
/-- Every value of the list is `strings_ok`. -/
def elems_strings_ok (S : List Byte → Bool) : List json → Bool
  | [] => true
  | v :: tl => strings_ok S v && elems_strings_ok S tl
end

/-- The loop invariant behind the statements about which bytes can appear:
every key and string a frame can still reach satisfies `S`. An ordered object
frame reaches the entries of the shared `ordered_keys`, so these must be good
whenever such a frame is on the stack. -/
def strings_inv (S : List Byte → Bool) (stack : List Frame) (ordered_keys : List entry) :
    Prop :=
  (∀ f ∈ stack, strings_ok S f.node = true ∧
    (f.kind = Kind.OBJECT → f.use_ordered = false → entries_strings_ok S f.obj_it = true)) ∧
  ((∃ f ∈ stack, f.kind = Kind.OBJECT ∧ f.use_ordered = true) →
    entries_strings_ok S ordered_keys = true)

/-- A string without a space byte. -/
def no_space (s : List Byte) : Bool := !(s.contains 0x20)

/-- The state of the line scanner: between tokens, inside a string token, right
after a backslash inside a string token, or in the run of spaces that follows a
newline (`n` spaces read so far). -/
inductive ScanMode where
  | normal
  | in_string
  | in_escape
  | indent (n : Nat)

/-- An opening brace or bracket. -/
def is_opener (b : Byte) : Bool := b == 0x7B || b == 0x5B

/-- A closing brace or bracket. -/
def is_closer (b : Byte) : Bool := b == 0x7D || b == 0x5D

/-- The scanner reads one byte outside a string token: a quote opens a string,
an opener raises the depth, a closer lowers it, a newline starts a new line. -/
def scan_token_byte (b : Byte) (depth : Nat) : ScanMode × Nat :=
  if b = 0x22 then (ScanMode.in_string, depth)
  else if is_opener b then (ScanMode.normal, depth + 1)
  else if is_closer b then (ScanMode.normal, depth - 1)
  else if b = 0x0A then (ScanMode.indent 0, depth)
  else (ScanMode.normal, depth)

/-- The indentation check of a text for indent width `w`, from a scanner state:
every newline is followed by exactly `w * d` spaces and then a byte that is not
a space, where `d` is the number of composites open at that byte (one less when
the byte is a closer: a closer stands at the depth of the line that opened its
composite). No newline may occur inside a string token, and the text may end
neither inside a string nor in the spaces after a newline. -/
def indent_ok (w : Nat) : List Byte → ScanMode → Nat → Bool
  | [], mode, _ =>
    match mode with
    | ScanMode.normal => true
    | _ => false
  | b :: rest, ScanMode.normal, depth =>
    indent_ok w rest (scan_token_byte b depth).1 (scan_token_byte b depth).2
  | b :: rest, ScanMode.in_string, depth =>
    if b = 0x0A then false
    else if b = 0x5C then indent_ok w rest ScanMode.in_escape depth
    else if b = 0x22 then indent_ok w rest ScanMode.normal depth
    else indent_ok w rest ScanMode.in_string depth
  | b :: rest, ScanMode.in_escape, depth =>
    if b = 0x0A then false else indent_ok w rest ScanMode.in_string depth
  | b :: rest, ScanMode.indent n, depth =>
    if b = 0x20 then indent_ok w rest (ScanMode.indent (n + 1)) depth
    else
      decide (n = w * (if is_closer b then depth - 1 else depth))
        && indent_ok w rest (scan_token_byte b depth).1 (scan_token_byte b depth).2

/-- Every line of the text is indented by `w` spaces per open composite. -/
def lines_indented (w : Nat) (text : List Byte) : Bool :=
  indent_ok w text ScanMode.normal 0

/-- A byte that can stand in a number or literal token: above the space and
none of quote, brace or bracket. -/
def plain_byte (b : Byte) : Bool :=
  decide (0x20 < b) && !(b == 0x22) && !is_opener b && !is_closer b

/-- A byte the scanner passes over between tokens without changing its state. -/
def neutral (b : Byte) : Prop :=
  b ≠ 0x22 ∧ is_opener b = false ∧ is_closer b = false ∧ b ≠ 0x0A

mutual
/-- No non-empty object occurs in the value: walking it pushes no `OBJECT`
frame, so it leaves `ordered_keys` alone in either key order. -/
def no_open_object : json → Bool
  | json.object obj => obj.isEmpty
  | json.array arr => elems_no_open_object arr
  | _ => true
/-- No element of the list contains a non-empty object. -/
def elems_no_open_object : List json → Bool
  | [] => true
  | v :: tl => no_open_object v && elems_no_open_object tl
end

/-- The singly-nested array of depth `n + 1`: the empty array for `n = 0`, the
array whose only element is the array of depth `n` otherwise. -/
def nested_array : Nat → json
  | 0 => json.array []
  | n + 1 => json.array [nested_array n]

/-- The uppercase hexadecimal digit of a value below 16. -/
def hex_digit (n : Nat) : Byte := if n < 10 then Fin.ofNat (0x30 + n) else Fin.ofNat (0x37 + n)

/-- The byte-at-a-time reference escape of the specification: backslash-quote
for the quote, two backslashes for the backslash, `\b`, `\f`, `\n`, `\r`, `\t`
for the bytes 08, 0C, 0A, 0D, 09, the six characters backslash, `u`, `0`, `0`
and the two hex digits of the byte for every other byte below 0x20 and, only
when `ensure_ascii` is set, for every byte at or above 0x80, and the byte itself
otherwise. -/
def reference_escape (ensure_ascii : Bool) (c : Byte) : List Byte :=
  if c = 0x22 then [0x5C, 0x22]
  else if c = 0x5C then [0x5C, 0x5C]
  else if c = 0x08 then [0x5C, 0x62]
  else if c = 0x0C then [0x5C, 0x66]
  else if c = 0x0A then [0x5C, 0x6E]
  else if c = 0x0D then [0x5C, 0x72]
  else if c = 0x09 then [0x5C, 0x74]
  else if c < 0x20 ∨ (ensure_ascii = true ∧ 0x80 ≤ c) then
    [0x5C, 0x75, 0x30, 0x30, hex_digit (c.val / 16), hex_digit (c.val % 16)]
  else [c]

/-- A decimal digit `0` to `9`. -/
def is_digit (b : Byte) : Bool := decide (0x30 ≤ b.val ∧ b.val ≤ 0x39)

/-- A minimal unsigned decimal numeral: at least one digit, digits only, and
no leading zero except in the numeral `0` itself. -/
def minimal_digits (ds : List Byte) : Bool :=
  !ds.isEmpty && ds.all is_digit && (!(ds.head? == some 0x30) || ds.length == 1)

/-- The number a string of decimal digits denotes. -/
def decimal_value (ds : List Byte) : Nat :=
  ds.foldl (fun a b => 10 * a + (b.val - 0x30)) 0

/-- Parsing a decimal integer: an optional `-` followed by a minimal unsigned
numeral. -/
def parse_int (text : List Byte) : Option Int :=
  match text with
  | [] => none
  | b :: ds =>
    if b = 0x2D then
      if minimal_digits ds then some (-(decimal_value ds : Int)) else none
    else if minimal_digits (b :: ds) then some (decimal_value (b :: ds) : Int)
    else none

/-- The value is a scalar or an empty composite: visiting it pushes no frame. -/
def pushes_nothing (v : json) : Prop :=
  (∀ e tl, v ≠ json.object (e :: tl)) ∧ (∀ e tl, v ≠ json.array (e :: tl))

/-- The predicate `Q` passes from a composite to its members. -/
def hereditary (Q : json → Prop) : Prop :=
  (∀ obj e, Q (json.object obj) → e ∈ obj → Q e.2) ∧
  (∀ arr v, Q (json.array arr) → v ∈ arr → Q v)

/-- Every value the loop can still reach satisfies `Q`: the node of every
frame, the entries left in an iterator range, and the entries of the shared
`ordered_keys` as long as an ordered object frame is on the stack. -/
def node_inv (Q : json → Prop) (stack : List Frame) (ordered_keys : List entry) : Prop :=
  (∀ f ∈ stack, Q f.node ∧
    (f.kind = Kind.OBJECT → f.use_ordered = false → ∀ e ∈ f.obj_it, Q e.2)) ∧
  ((∃ f ∈ stack, f.kind = Kind.OBJECT ∧ f.use_ordered = true) →
    ∀ e ∈ ordered_keys, Q e.2)

/-- The frame at position `i` from the bottom of the stack has
`indent_level = i`. The head of the list is the top of the stack. -/
def levels_ok : List Frame → Prop
  | [] => True
  | f :: rest => f.indent_level = (rest.length : Int) ∧ levels_ok rest

/-- The node of the frame at position `i` from the bottom of the stack has
height at most `h - i`. -/
def depth_ok (h : Nat) : List Frame → Prop
  | [] => True
  | f :: rest => f.node.height + rest.length ≤ h ∧ depth_ok h rest

/-- The state at the start of the loop pass number `k` (counted from 0), when
the loop gets that far: `none` when it has ended or faulted before. -/
def run_passes (lib : StdLib) (opt : FastDumpOptions) : Nat → State → Option State
  | 0, st => some st
  | k + 1, st =>
    match st.stack with
    | [] => none
    | f :: rest =>
      match iteration lib opt f { st with stack := rest } with
      | none => none
      | some st => run_passes lib opt k st

/-- The two kinds of composite delimiters. -/
inductive Delim where
  | curly
  | square
deriving DecidableEq

/-- A JSON tokenizer reduced to structure: it reads the text from a mode and a
stack of open brackets and returns the mode and stack it ends in, or `none`
when the text is broken. Outside string tokens a quote opens a string, `{` and
`[` are pushed, `}` and `]` must match the most recent unclosed opener and pop
it, any other byte is passed over. Inside a string token a raw control byte is
an error, a backslash takes the next byte with it, and an unescaped quote
closes the token. -/
def json_scan : List Byte → ScanMode → List Delim → Option (ScanMode × List Delim)
  | [], mode, open_ => some (mode, open_)
  | b :: rest, ScanMode.normal, open_ =>
    if b = 0x22 then json_scan rest ScanMode.in_string open_
    else if b = 0x7B then json_scan rest ScanMode.normal (Delim.curly :: open_)
    else if b = 0x5B then json_scan rest ScanMode.normal (Delim.square :: open_)
    else if b = 0x7D then
      match open_ with
      | Delim.curly :: below => json_scan rest ScanMode.normal below
      | _ => none
    else if b = 0x5D then
      match open_ with
      | Delim.square :: below => json_scan rest ScanMode.normal below
      | _ => none
    else json_scan rest ScanMode.normal open_
  | b :: rest, ScanMode.in_string, open_ =>
    if b < 0x20 then none
    else if b = 0x5C then json_scan rest ScanMode.in_escape open_
    else if b = 0x22 then json_scan rest ScanMode.normal open_
    else json_scan rest ScanMode.in_string open_
  | b :: rest, ScanMode.in_escape, open_ =>
    if b < 0x20 then none else json_scan rest ScanMode.in_string open_
  | _ :: _, ScanMode.indent _, _ => none

/-- The text is structurally valid: the tokenizer reads all of it, every
string token is closed, and every bracket is closed by its own kind. -/
def structurally_valid (text : List Byte) : Bool :=
  match json_scan text ScanMode.normal [] with
  | some (ScanMode.normal, []) => true
  | _ => false

/-- The brackets the frames of the stack have opened and not yet closed, the
most recent first. -/
def open_brackets : List Frame → List Delim
  | [] => []
  | f :: rest =>
    match f.kind with
    | Kind.VALUE => open_brackets rest
    | Kind.OBJECT => Delim.curly :: open_brackets rest
    | Kind.ARRAY => Delim.square :: open_brackets rest

mutual
/-- No floating-point leaf occurs in the value. -/
def float_free : json → Bool
  | json.number_float _ => false
  | json.object obj => entries_float_free obj
  | json.array arr => elems_float_free arr
  | _ => true
/-- No floating-point leaf occurs in the values of the entries. -/
def entries_float_free : List entry → Bool
  | [] => true
  | it :: tl => float_free it.2 && entries_float_free tl
/-- No floating-point leaf occurs in the values of the list. -/
def elems_float_free : List json → Bool
  | [] => true
  | v :: tl => float_free v && elems_float_free tl
end

/-- A byte the tokenizer passes over outside a string token. -/
def inert (b : Byte) : Prop :=
  b ≠ 0x22 ∧ b ≠ 0x7B ∧ b ≠ 0x5B ∧ b ≠ 0x7D ∧ b ≠ 0x5D

mutual
/-- The second value differs from the first only in the order of the entries
of its objects: the same scalars, arrays with the same elements in the same
order up to this relation, objects with the same keys and, key by key, the same
values up to this relation, listed in any order. -/
inductive same_value : json → json → Prop
  | refl (v : json) : same_value v v
  | array (arr arr2 : List json) : same_elems arr arr2 →
      same_value (json.array arr) (json.array arr2)
  | object (obj mid obj2 : List entry) : same_entries obj mid → List.Perm mid obj2 →
      same_value (json.object obj) (json.object obj2)
/-- Element by element, the values of two lists are `same_value`. -/
inductive same_elems : List json → List json → Prop
  | nil : same_elems [] []
  | cons (v v2 : json) (tl tl2 : List json) : same_value v v2 → same_elems tl tl2 →
      same_elems (v :: tl) (v2 :: tl2)
/-- Entry by entry, two lists have the same keys and `same_value` values. -/
inductive same_entries : List entry → List entry → Prop
  | nil : same_entries [] []
  | cons (k : List Byte) (v v2 : json) (tl tl2 : List entry) : same_value v v2 →
      same_entries tl tl2 → same_entries ((k, v) :: tl) ((k, v2) :: tl2)
end

mutual
/-- Every object inside the value has pairwise distinct keys. -/
def unique_keys : json → Bool
  | json.object obj => decide ((obj.map Prod.fst).Nodup) && entries_unique_keys obj
  | json.array arr => elems_unique_keys arr
  | _ => true
/-- Every value of the entries has `unique_keys`. -/
def entries_unique_keys : List entry → Bool
  | [] => true
  | it :: tl => unique_keys it.2 && entries_unique_keys tl
/-- Every value of the list has `unique_keys`. -/
def elems_unique_keys : List json → Bool
  | [] => true
  | v :: tl => unique_keys v && elems_unique_keys tl
end

/-- The strict form of the comparator: `a->first < b->first`. -/
def key_lt (a b : entry) : Prop := a.1 < b.1

/-- Two frames agree in every cursor and flag and hold `same_value` nodes and
`same_entries` iterator ranges. -/
structure same_frame (f f2 : Frame) : Prop where
  kind : f.kind = f2.kind
  node : same_value f.node f2.node
  obj_it : same_entries f.obj_it f2.obj_it
  use_ordered : f.use_ordered = f2.use_ordered
  ord_idx : f.ord_idx = f2.ord_idx
  ord_size : f.ord_size = f2.ord_size
  idx : f.idx = f2.idx
  size : f.size = f2.size
  first : f.first = f2.first
  indent_level : f.indent_level = f2.indent_level

/-- Two states hold the same text and frame by frame `same_frame` stacks, and
`same_entries` scratch lists as long as an object frame is on the stack. -/
def same_state (s s2 : State) : Prop :=
  s.out = s2.out ∧ List.Forall₂ same_frame s.stack s2.stack ∧
    ((∃ f ∈ s.stack, f.kind = Kind.OBJECT) → same_entries s.ordered_keys s2.ordered_keys)

mutual
/-- No non-empty object occurs strictly below an object of the value, neither
as a member value nor inside an array below it. -/
def objects_flat : json → Bool
  | json.object obj => obj.all (fun e => no_open_object e.2)
  | json.array arr => elems_objects_flat arr
  | _ => true
/-- Every element of the list is `objects_flat`. -/
def elems_objects_flat : List json → Bool
  | [] => true
  | v :: tl => objects_flat v && elems_objects_flat tl
end

mutual
/-- The tree with the entries of every object sorted by ascending key bytes. -/
def sort_objects : json → json
  | json.object obj => json.object (std_sort (entries_sort_objects obj))
  | json.array arr => json.array (elems_sort_objects arr)
  | json.null => json.null
  | json.boolean b => json.boolean b
  | json.number_integer v => json.number_integer v
  | json.number_unsigned v => json.number_unsigned v
  | json.number_float v => json.number_float v
  | json.string s => json.string s
  | json.binary b => json.binary b
  | json.discarded => json.discarded
/-- The entries with `sort_objects` applied to every value. -/
def entries_sort_objects : List entry → List entry
  | [] => []
  | it :: tl => (it.1, sort_objects it.2) :: entries_sort_objects tl
/-- The list with `sort_objects` applied to every element. -/
def elems_sort_objects : List json → List json
  | [] => []
  | v :: tl => sort_objects v :: elems_sort_objects tl
end

/-- Where the reader of a text stands: outside any string token, inside one, or
right after a backslash inside one. -/
inductive TextMode where
  | outside
  | inside
  | escaped
deriving DecidableEq

/-- The text with one space put after every colon that stands outside a string
token; string tokens, with their escapes, are copied as they are. -/
def space_colons : TextMode → List Byte → List Byte
  | _, [] => []
  | TextMode.outside, b :: rest =>
    if b = 0x22 then b :: space_colons TextMode.inside rest
    else if b = 0x3A then b :: 0x20 :: space_colons TextMode.outside rest
    else b :: space_colons TextMode.outside rest
  | TextMode.inside, b :: rest =>
    if b = 0x5C then b :: space_colons TextMode.escaped rest
    else if b = 0x22 then b :: space_colons TextMode.outside rest
    else b :: space_colons TextMode.inside rest
  | TextMode.escaped, b :: rest => b :: space_colons TextMode.inside rest

/-- The outcome of a run with `space_colons` applied to the text it returns. -/
def space_key_colons : Outcome → Outcome
  | Outcome.done text => Outcome.done (space_colons TextMode.outside text)
  | Outcome.fault => Outcome.fault
  | Outcome.timeout => Outcome.timeout

/-- Read from mode `m`, the piece `p0` becomes `p` under `space_colons` and
leaves the reader in mode `m2`. -/
def gapped (m m2 : TextMode) (p0 p : List Byte) : Prop :=
  ∀ rest, space_colons m (p0 ++ rest) = p ++ space_colons m2 rest

/-- The two scratch lists agree whenever some frame on the stack reads
`ordered_keys`: an `OBJECT` frame with `use_ordered` set. -/
def scratch_agree (stack : List Frame) (ok ok2 : List entry) : Prop :=
  (∃ g ∈ stack, g.kind = Kind.OBJECT ∧ g.use_ordered = true) → ok = ok2

/-! ## Theorems -/

/-! ### The escaper -/

theorem escape_switch_append (out : List Byte) (c : Byte) :
    escape_switch out c = out ++ escape_switch [] c := by
  unfold escape_switch
  split_ifs <;> simp

theorem chunk_extend (s : List Byte) (cs p : Nat) (c : Byte) (rest : List Byte)
    (hcs : cs ≤ p) (hp : s.drop p = c :: rest) :
    (s.drop cs).take (p + 1 - cs) = (s.drop cs).take (p - cs) ++ [c] := by
  have h1 : p + 1 - cs = (p - cs) + 1 := by omega
  have h2 : (s.drop cs)[p - cs]? = some c := by
    rw [List.getElem?_drop]
    have h3 : cs + (p - cs) = p := by omega
    rw [h3, ← List.head?_drop, hp]
    rfl
  rw [h1, List.take_succ, h2]
  rfl

theorem escape_loop_eq (s : List Byte) (ea : Bool) :
    ∀ (rest : List Byte) (p cs : Nat) (out : List Byte), cs ≤ p → s.drop p = rest →
      escape_loop s ea rest p cs out =
        out ++ (s.drop cs).take (p - cs) ++ rest.flatMap (escape_one ea) := by
  intro rest
  induction rest with
  | nil =>
    intro p cs out _ _
    simp only [escape_loop, flush_chunk, List.flatMap_nil, List.append_nil]
    split_ifs with h
    · rfl
    · have : p - cs = 0 := by omega
      simp [this]
  | cons c rest ih =>
    intro p cs out hcs hp
    have hp1 : s.drop (p + 1) = rest := by
      have := congrArg List.tail hp
      simpa using this
    simp only [escape_loop, List.flatMap_cons]
    by_cases hne : need_escape c ea = false
    · rw [if_pos hne, ih (p + 1) cs out (by omega) hp1, chunk_extend s cs p c rest hcs hp]
      have : escape_one ea c = [c] := by simp [escape_one, hne]
      simp [this]
    · rw [if_neg hne]
      have hne1 : need_escape c ea = true := by simpa using hne
      have hout : (if cs < p then flush_chunk out s cs p else out)
          = out ++ (s.drop cs).take (p - cs) := by
        split_ifs with h
        · rfl
        · have : p - cs = 0 := by omega
          simp [this]
      rw [ih (p + 1) (p + 1) _ (le_refl _) hp1, hout, escape_switch_append]
      have : escape_one ea c = escape_switch [] c := by simp [escape_one, hne1]
      simp [this]

/-- The run-flushing loop appends the byte-at-a-time escape of `s`. -/
theorem append_escaped_string_eq (out s : List Byte) (ea : Bool) :
    append_escaped_string out s ea
      = out ++ [0x22] ++ s.flatMap (escape_one ea) ++ [0x22] := by
  unfold append_escaped_string
  simp only []
  rw [escape_loop_eq s ea s 0 0 _ (le_refl 0) rfl]
  simp

set_option maxRecDepth 1000000 in
theorem hex_digits_decode : ∀ c : Byte,
    hex_value (HEX.getD ((c.val >>> 4) &&& 0xF) 0) = some (c.val / 16) ∧
    hex_value (HEX.getD (c.val &&& 0xF) 0) = some (c.val % 16) := by
  decide

theorem byte_of_nibbles (c : Byte) : (Fin.ofNat (16 * (c.val / 16) + c.val % 16) : Byte) = c := by
  have h : 16 * (c.val / 16) + c.val % 16 = c.val := Nat.div_add_mod c.val 16
  rw [h]
  apply Fin.ext
  simp [Fin.ofNat, Nat.mod_eq_of_lt c.isLt]

theorem unescape_body_raw (c : Byte) (rest : List Byte) (h1 : c ≠ 0x22) (h2 : c ≠ 0x5C) :
    unescape_body (c :: rest) =
      match unescape_body rest with
      | some (s, t) => some (c :: s, t)
      | none => none := by
  rw [unescape_body.eq_def]
  simp [h1, h2]

theorem unescape_body_simple (e b : Byte) (rest : List Byte) (h1 : e ≠ 0x75)
    (h2 : simple_escape e = some b) :
    unescape_body (0x5C :: e :: rest) =
      match unescape_body rest with
      | some (s, t) => some (b :: s, t)
      | none => none := by
  rw [unescape_body.eq_def]
  simp [h1, h2]
  cases unescape_body rest <;> rfl

theorem unescape_body_hex (h3 h4 : Byte) (a b : Nat) (rest : List Byte)
    (ha : hex_value h3 = some a) (hb : hex_value h4 = some b) :
    unescape_body (0x5C :: 0x75 :: 0x30 :: 0x30 :: h3 :: h4 :: rest) =
      match unescape_body rest with
      | some (s, t) => some (Fin.ofNat (16 * a + b) :: s, t)
      | none => none := by
  rw [unescape_body.eq_def]
  simp [ha, hb]
  cases unescape_body rest <;> rfl

/-- Unescaping undoes the escape of one byte, whatever follows. -/
theorem unescape_body_escape_one (c : Byte) (tail : List Byte) :
    unescape_body (escape_one false c ++ tail) =
      match unescape_body tail with
      | some (s, t) => some (c :: s, t)
      | none => none := by
  by_cases hne : need_escape c false = true
  · have hsw : escape_one false c = escape_switch [] c := by simp [escape_one, hne]
    rw [hsw]
    unfold escape_switch
    split_ifs with h1 h2 h3 h4 h5 h6 h7
    · subst h1
      exact unescape_body_simple 0x22 0x22 tail (by decide) (by decide)
    · subst h2
      exact unescape_body_simple 0x5C 0x5C tail (by decide) (by decide)
    · subst h3
      exact unescape_body_simple 0x62 0x08 tail (by decide) (by decide)
    · subst h4
      exact unescape_body_simple 0x66 0x0C tail (by decide) (by decide)
    · subst h5
      exact unescape_body_simple 0x6E 0x0A tail (by decide) (by decide)
    · subst h6
      exact unescape_body_simple 0x72 0x0D tail (by decide) (by decide)
    · subst h7
      exact unescape_body_simple 0x74 0x09 tail (by decide) (by decide)
    · obtain ⟨ha, hb⟩ := hex_digits_decode c
      have h := unescape_body_hex _ _ _ _ tail ha hb
      rw [byte_of_nibbles] at h
      exact h
  · have hraw : escape_one false c = [c] := by simp [escape_one, hne]
    have hq : c ≠ 0x22 ∧ c ≠ 0x5C := by
      constructor <;> intro h <;> subst h <;> exact hne (by decide)
    rw [hraw]
    exact unescape_body_raw c tail hq.1 hq.2

theorem unescape_body_escaped (s tail : List Byte) :
    unescape_body (s.flatMap (escape_one false) ++ 0x22 :: tail) = some (s, tail) := by
  induction s with
  | nil =>
    rw [unescape_body.eq_def]
    simp
  | cons c s ih =>
    rw [List.flatMap_cons, List.append_assoc, unescape_body_escape_one, ih]

/-- C5: for every byte sequence `s`, the standard JSON string unescape applied
to the token written by `append_escaped_string` with `ensure_ascii = false`
gives back exactly `s`. -/
theorem escape_unescape_roundtrip (s : List Byte) :
    json_unescape (append_escaped_string [] s false) = some s := by
  rw [append_escaped_string_eq]
  simp only [json_unescape, List.nil_append, List.cons_append, List.append_assoc, if_true]
  rw [unescape_body_escaped]

/-- One loop pass on a string leaf: the token is appended and the run ends. -/
theorem fast_dump_string (lib : StdLib) (s : List Byte) (opt : FastDumpOptions)
    (ordered_keys : List entry) :
    fast_dump lib (json.string s) opt ordered_keys
      = Outcome.done (append_escaped_string [] s opt.ensure_ascii) := rfl

/-- C7, as the claim states it, fails: the text for the string `caf` + byte 0xE9
under `ensure_ascii = true` is not the one with lowercase hex digits. -/
theorem cafe_lowercase_hex_refuted :
    fast_dump lib0 (json.string [0x63, 0x61, 0x66, 0xE9]) { ensure_ascii := true } []
      ≠ Outcome.done (bytes "\"caf\\u00e9\"") := by
  decide

/-- C7, amended: serializing the string `caf` + byte 0xE9 with
`ensure_ascii = true` yields exactly the 11 bytes quote, c, a, f, backslash, u,
0, 0, E, 9, quote; the hex digits come from the table `HEX` and are uppercase. -/
theorem cafe_uppercase_hex (lib : StdLib) (pretty : Int) (sort_keys : Bool)
    (ordered_keys : List entry) :
    fast_dump lib (json.string [0x63, 0x61, 0x66, 0xE9])
        { pretty := pretty, ensure_ascii := true, sort_keys := sort_keys } ordered_keys
      = Outcome.done (bytes "\"caf\\u00E9\"") ∧
    (bytes "\"caf\\u00E9\"").length = 11 := by
  constructor
  · rw [fast_dump_string]
    show Outcome.done (append_escaped_string [] [0x63, 0x61, 0x66, 0xE9] true) = _
    decide
  · decide

theorem escape_one_raw (c : Byte) (h : 0x20 ≤ c ∧ c ≠ 0x22 ∧ c ≠ 0x5C) :
    escape_one false c = [c] := by
  have hne : need_escape c false = false := by
    unfold need_escape
    have h1 : ¬ (c < 0x20 ∨ c = 0x22 ∨ c = 0x5C) := by
      rintro (h1 | h1 | h1)
      · exact absurd h.1 (not_le.mpr h1)
      · exact h.2.1 h1
      · exact h.2.2 h1
    simp [h1]
  simp [escape_one, hne]

theorem flatMap_escape_one_raw (s : List Byte)
    (h : ∀ c ∈ s, 0x20 ≤ c ∧ c ≠ 0x22 ∧ c ≠ 0x5C) :
    s.flatMap (escape_one false) = s := by
  induction s with
  | nil => rfl
  | cons c s ih =>
    rw [List.flatMap_cons, escape_one_raw c (h c (List.mem_cons_self c s)),
      ih (fun d hd => h d (List.mem_cons_of_mem c hd))]
    rfl

/-- C8: with `ensure_ascii = false`, for every byte sequence `s` without control
byte, quote or backslash the escaper appends exactly quote + `s` + quote, so
every byte of `s`, those at or above 0x80 included, is copied unchanged; and
`fast_dump` on the string value `s` returns that token. -/
theorem raw_bytes_verbatim (s : List Byte)
    (h : ∀ c ∈ s, 0x20 ≤ c ∧ c ≠ 0x22 ∧ c ≠ 0x5C) :
    (∀ out : List Byte, append_escaped_string out s false = out ++ [0x22] ++ s ++ [0x22]) ∧
    (∀ (lib : StdLib) (pretty : Int) (sort_keys : Bool) (ordered_keys : List entry),
      fast_dump lib (json.string s)
          { pretty := pretty, ensure_ascii := false, sort_keys := sort_keys } ordered_keys
        = Outcome.done ([0x22] ++ s ++ [0x22])) := by
  constructor
  · intro out
    rw [append_escaped_string_eq, flatMap_escape_one_raw s h]
  · intro lib pretty sort_keys ordered_keys
    rw [fast_dump_string, append_escaped_string_eq, flatMap_escape_one_raw s h]
    rfl

set_option maxRecDepth 100000 in
/-- C8 at the string `caf` + byte 0xE9: the six bytes quote, c, a, f, 0xE9, quote. -/
theorem raw_bytes_verbatim_witness :
    (∀ c ∈ ([0x63, 0x61, 0x66, 0xE9] : List Byte), 0x20 ≤ c ∧ c ≠ 0x22 ∧ c ≠ 0x5C) ∧
    fast_dump lib0 (json.string [0x63, 0x61, 0x66, 0xE9])
        { pretty := 0, ensure_ascii := false, sort_keys := false } []
      = Outcome.done ([0x22] ++ [0x63, 0x61, 0x66, 0xE9] ++ [0x22]) :=
  ⟨by decide, (raw_bytes_verbatim [0x63, 0x61, 0x66, 0xE9] (by decide)).2 lib0 0 false []⟩

/-- C2 fails on the code: with `sort_keys = true` the object
`{"a": {"x": 1, "y": 2}, "b": 3}` is written as `{"a":{"x":1,"y":2},"y":2}`. The
nested object refills the shared `ordered_keys`, and the outer frame resumes at
index 1 of the inner object's list: entry `b` is lost and `y` is written twice. -/
theorem sorted_nested_object_wrong :
    fast_dump lib0
        (json.object
          [(bytes "a", json.object [(bytes "x", json.number_integer 1),
                                    (bytes "y", json.number_integer 2)]),
           (bytes "b", json.number_integer 3)])
        { sort_keys := true } []
      = Outcome.done (bytes "\x7b\"a\":\x7b\"x\":1,\"y\":2\x7d,\"y\":2\x7d") ∧
    fast_dump lib0
        (json.object
          [(bytes "a", json.object [(bytes "x", json.number_integer 1),
                                    (bytes "y", json.number_integer 2)]),
           (bytes "b", json.number_integer 3)])
        { sort_keys := true } []
      ≠ Outcome.done (bytes "\x7b\"a\":\x7b\"x\":1,\"y\":2\x7d,\"b\":3\x7d") := by
  decide

/-- C3 fails on the code: with `sort_keys = true` the object
`{"a": {"x": 1}, "b": 3}` drives the outer frame to `ordered_keys[1]` while the
list, refilled by the inner object, has a single element. -/
theorem sorted_nested_object_out_of_bounds :
    fast_dump lib0
        (json.object
          [(bytes "a", json.object [(bytes "x", json.number_integer 1)]),
           (bytes "b", json.number_integer 3)])
        { sort_keys := true } []
      = Outcome.fault := by
  decide

/-! ### The loop body, case by case -/

theorem indent_cond (opt : FastDumpOptions) (out : List Byte) (level : Int) :
    (if opt.pretty ≠ 0 then indent_if_needed out opt.pretty level else out)
      = out ++ line_break opt level := by
  unfold line_break indent_if_needed
  split_ifs <;> simp

theorem append_escaped_string_append (out s : List Byte) (ea : Bool) :
    append_escaped_string out s ea = out ++ append_escaped_string [] s ea := by
  rw [append_escaped_string_eq, append_escaped_string_eq]
  simp

theorem push_value_eq (st : State) (node : json) (level : Int) :
    push_value st node level
      = { st with stack := value_frame node level :: st.stack } := rfl

theorem push_object_empty (opt : FastDumpOptions) (st : State) (level : Int) :
    push_object opt st (json.object []) level
      = some { st with out := st.out ++ bytes "\x7b\x7d" } := rfl

theorem push_object_cons (opt : FastDumpOptions) (st : State) (e : entry)
    (tl : List entry) (level : Int) :
    push_object opt st (json.object (e :: tl)) level
      = some { out := st.out ++ [0x7B] ++ line_break opt (level + 1),
               stack := object_frame opt (e :: tl) level :: st.stack,
               ordered_keys := if opt.sort_keys then std_sort (e :: tl) else st.ordered_keys } := by
  simp only [push_object, List.isEmpty_cons, indent_cond, append_char, object_frame]
  cases opt.sort_keys <;> simp

theorem push_array_empty (opt : FastDumpOptions) (st : State) (level : Int) :
    push_array opt st (json.array []) level
      = some { st with out := st.out ++ bytes "[]" } := rfl

theorem push_array_cons (opt : FastDumpOptions) (st : State) (v : json)
    (tl : List json) (level : Int) :
    push_array opt st (json.array (v :: tl)) level
      = some { st with out := st.out ++ [0x5B] ++ line_break opt (level + 1),
                       stack := array_frame (v :: tl) level :: st.stack } := by
  simp only [push_array, indent_cond, append_char, array_frame]
  simp

theorem visit_object_done (opt : FastDumpOptions) (f : Frame) (st : State)
    (h : next_record f st = some none) :
    visit_object opt f st
      = some { st with out := st.out ++ line_break opt f.indent_level ++ [0x7D] } := by
  simp only [visit_object, h, indent_cond, append_char]

theorem visit_object_fault (opt : FastDumpOptions) (f : Frame) (st : State)
    (h : next_record f st = none) : visit_object opt f st = none := by
  simp [visit_object, h]

theorem visit_object_next (opt : FastDumpOptions) (f g : Frame) (st : State)
    (key : List Byte) (val : json) (h : next_record f st = some (some (key, val, g))) :
    visit_object opt f st
      = some { st with
          out := st.out ++ separator opt g.first (g.indent_level + 1)
                  ++ append_escaped_string [] key opt.ensure_ascii ++ [0x3A] ++ key_gap opt,
          stack := value_frame val (g.indent_level + 1)
                    :: { g with first := false } :: st.stack } := by
  simp only [visit_object, h, indent_cond, append_char, push_value_eq, separator, key_gap]
  rw [append_escaped_string_append]
  cases g.first <;> simp <;> split_ifs <;> simp

theorem visit_array_done (opt : FastDumpOptions) (f : Frame) (st : State)
    (arr : List json) (hn : f.node = json.array arr) (h : f.idx = f.size) :
    visit_array opt f st
      = some { st with out := st.out ++ line_break opt f.indent_level ++ [0x5D] } := by
  simp only [visit_array, hn, h, indent_cond, append_char]
  simp

theorem visit_array_next (opt : FastDumpOptions) (f : Frame) (st : State)
    (arr : List json) (elem : json) (hn : f.node = json.array arr) (h : f.idx ≠ f.size)
    (he : arr[f.idx]? = some elem) :
    visit_array opt f st
      = some { st with
          out := st.out ++ separator opt f.first (f.indent_level + 1),
          stack := value_frame elem (f.indent_level + 1)
                    :: { f with first := false, idx := f.idx + 1 } :: st.stack } := by
  simp only [visit_array, hn, h, indent_cond, append_char, push_value_eq, separator, he]
  cases f.first <;> simp

theorem visit_array_fault (opt : FastDumpOptions) (f : Frame) (st : State)
    (arr : List json) (hn : f.node = json.array arr) (h : f.idx ≠ f.size)
    (he : arr[f.idx]? = none) : visit_array opt f st = none := by
  simp [visit_array, hn, h, he]

/-! ### Termination of the loop -/

theorem entries_height_mem (obj : List entry) (e : entry) (h : e ∈ obj) :
    e.2.height ≤ entries_height obj := by
  induction obj with
  | nil => cases h
  | cons a tl ih =>
    simp only [entries_height]
    rcases List.mem_cons.mp h with h1 | h1
    · subst h1; exact le_max_left _ _
    · exact le_trans (ih h1) (le_max_right _ _)

theorem elems_height_mem (arr : List json) (v : json) (h : v ∈ arr) :
    v.height ≤ elems_height arr := by
  induction arr with
  | nil => cases h
  | cons a tl ih =>
    simp only [elems_height]
    rcases List.mem_cons.mp h with h1 | h1
    · subst h1; exact le_max_left _ _
    · exact le_trans (ih h1) (le_max_right _ _)

theorem entries_width_mem (obj : List entry) (e : entry) (h : e ∈ obj) :
    e.2.width ≤ entries_width obj := by
  induction obj with
  | nil => cases h
  | cons a tl ih =>
    simp only [entries_width]
    rcases List.mem_cons.mp h with h1 | h1
    · subst h1; exact le_max_left _ _
    · exact le_trans (ih h1) (le_max_right _ _)

theorem elems_width_mem (arr : List json) (v : json) (h : v ∈ arr) :
    v.width ≤ elems_width arr := by
  induction arr with
  | nil => cases h
  | cons a tl ih =>
    simp only [elems_width]
    rcases List.mem_cons.mp h with h1 | h1
    · subst h1; exact le_max_left _ _
    · exact le_trans (ih h1) (le_max_right _ _)

theorem object_member (obj : List entry) (e : entry) (h : e ∈ obj) :
    e.2.height < (json.object obj).height ∧ e.2.width ≤ (json.object obj).width ∧
      obj.length ≤ (json.object obj).width := by
  have h1 := entries_height_mem obj e h
  have h2 := entries_width_mem obj e h
  simp only [json.height, json.width]
  refine ⟨by omega, le_trans h2 (le_max_right _ _), le_max_left _ _⟩

theorem array_member (arr : List json) (v : json) (h : v ∈ arr) :
    v.height < (json.array arr).height ∧ v.width ≤ (json.array arr).width ∧
      arr.length ≤ (json.array arr).width := by
  have h1 := elems_height_mem arr v h
  have h2 := elems_width_mem arr v h
  simp only [json.height, json.width]
  refine ⟨by omega, le_trans h2 (le_max_right _ _), le_max_left _ _⟩

theorem pass_bound_pos (n h : Nat) : 1 ≤ pass_bound n h := by
  cases h <;> simp [pass_bound] <;> omega

theorem pass_bound_succ (n h : Nat) : pass_bound n h ≤ pass_bound n (h + 1) := by
  induction h with
  | zero => simp [pass_bound]; omega
  | succ k ih =>
    simp only [pass_bound] at ih ⊢
    have := Nat.mul_le_mul_left n ih
    nlinarith

theorem pass_bound_mono (n : Nat) {h k : Nat} (hk : h ≤ k) :
    pass_bound n h ≤ pass_bound n k := by
  induction hk with
  | refl => exact le_refl _
  | step _ ih => exact le_trans ih (pass_bound_succ n _)

theorem frame_bound_pos (n : Nat) (f : Frame) : 1 ≤ frame_bound n f := by
  unfold frame_bound
  split
  · exact pass_bound_pos n _
  · omega
  · omega

theorem stack_bound_cons (n : Nat) (f : Frame) (rest : List Frame) :
    stack_bound n (f :: rest) = frame_bound n f + stack_bound n rest := by
  simp [stack_bound]

theorem std_sort_mem (obj : List entry) (e : entry) : e ∈ std_sort obj ↔ e ∈ obj :=
  (List.perm_insertionSort key_le obj).mem_iff

theorem std_sort_length (obj : List entry) : (std_sort obj).length = obj.length :=
  List.length_insertionSort key_le obj

/-- Dropping the top frame keeps the invariant and lowers the measure. -/
theorem pop_decreases (n : Nat) (f : Frame) (rest : List Frame) (ok : List entry)
    (hinv : stack_ok n (f :: rest) ok) :
    stack_ok n rest ok ∧ stack_bound n rest < stack_bound n (f :: rest) := by
  refine ⟨⟨fun g hg => hinv.1 g (List.mem_cons_of_mem f hg),
    (List.pairwise_cons.mp hinv.2).2⟩, ?_⟩
  rw [stack_bound_cons]
  have := frame_bound_pos n f
  omega

/-- Replacing the top frame by an advanced copy of itself and a `VALUE` frame
for a lower member keeps the invariant and lowers the measure. -/
theorem member_decreases (n : Nat) (f g : Frame) (rest : List Frame) (ok : List entry)
    (v : json) (level : Int) (hinv : stack_ok n (f :: rest) ok)
    (hnode : g.node = f.node) (hg : frame_ok n ok g)
    (hv : v.height < f.node.height) (hw : v.width ≤ n)
    (hb : frame_bound n g + (1 + pass_bound n (f.node.height - 1)) ≤ frame_bound n f) :
    stack_ok n (value_frame v level :: g :: rest) ok ∧
      stack_bound n (value_frame v level :: g :: rest) < stack_bound n (f :: rest) := by
  have hpw := List.pairwise_cons.mp hinv.2
  refine ⟨⟨?_, ?_⟩, ?_⟩
  · intro x hx
    rcases List.mem_cons.mp hx with h1 | h1
    · subst h1
      refine ⟨hw, ?_⟩
      refine ⟨?_, ?_, ?_⟩ <;> (intro h; cases h)
    · rcases List.mem_cons.mp h1 with h2 | h2
      · subst h2; exact hg
      · exact hinv.1 x (List.mem_cons_of_mem f h2)
  · refine List.pairwise_cons.mpr ⟨?_, List.pairwise_cons.mpr ⟨?_, hpw.2⟩⟩
    · intro x hx
      show v.height ≤ x.node.height
      rcases List.mem_cons.mp hx with h1 | h1
      · subst h1; rw [hnode]; exact le_of_lt hv
      · exact le_trans (le_of_lt hv) (hpw.1 x h1)
    · intro x hx
      rw [hnode]
      exact hpw.1 x hx
  · rw [stack_bound_cons, stack_bound_cons, stack_bound_cons]
    have h1 : frame_bound n (value_frame v level) = pass_bound n v.height := rfl
    have h2 : pass_bound n v.height ≤ pass_bound n (f.node.height - 1) :=
      pass_bound_mono n (by omega)
    omega

/-- Replacing the `VALUE` frame of a composite by the frame that walks it keeps
the invariant and lowers the measure. -/
theorem open_decreases (n : Nat) (f g : Frame) (rest : List Frame) (ok ok2 : List entry)
    (hinv : stack_ok n (f :: rest) ok)
    (hnode : g.node = f.node) (hg : frame_ok n ok2 g)
    (hkeys : ok2 = ok ∨ ∀ e ∈ ok2, e.2.height < f.node.height ∧ e.2.width ≤ n)
    (hb : frame_bound n g < frame_bound n f) :
    stack_ok n (g :: rest) ok2 ∧ stack_bound n (g :: rest) < stack_bound n (f :: rest) := by
  have hpw := List.pairwise_cons.mp hinv.2
  refine ⟨⟨?_, ?_⟩, ?_⟩
  · intro x hx
    rcases List.mem_cons.mp hx with h1 | h1
    · subst h1; exact hg
    · have hx2 := hinv.1 x (List.mem_cons_of_mem f h1)
      rcases hkeys with h2 | h2
      · rw [h2]; exact hx2
      · refine ⟨hx2.1, ?_⟩
        refine ⟨hx2.2.1, hx2.2.2.1, ?_⟩
        intro _ _ e he
        exact ⟨lt_of_lt_of_le (h2 e he).1 (hpw.1 x h1), (h2 e he).2⟩
  · refine List.pairwise_cons.mpr ⟨?_, hpw.2⟩
    intro x hx
    rw [hnode]
    exact hpw.1 x hx
  · rw [stack_bound_cons, stack_bound_cons]
    omega

theorem value_bound_composite (n : Nat) (f : Frame) (k : Nat) (hk : f.kind = Kind.VALUE)
    (hh : 1 ≤ f.node.height) (hkn : k ≤ n) :
    1 + k * (1 + pass_bound n (f.node.height - 1)) < frame_bound n f := by
  have h1 : frame_bound n f = pass_bound n f.node.height := by
    simp [frame_bound, hk]
  obtain ⟨m, hm⟩ : ∃ m, f.node.height = m + 1 := ⟨f.node.height - 1, by omega⟩
  rw [h1, hm]
  simp only [pass_bound, Nat.add_sub_cancel]
  have := Nat.mul_le_mul_right (1 + pass_bound n m) hkn
  omega

theorem next_record_spec (f g : Frame) (st : State) (key : List Byte) (val : json)
    (h : next_record f st = some (some (key, val, g))) :
    (f.use_ordered = true ∧ f.ord_idx < f.ord_size ∧
        st.ordered_keys[f.ord_idx]? = some (key, val) ∧
        g = { f with ord_idx := f.ord_idx + 1 }) ∨
    (f.use_ordered = false ∧ ∃ tl, f.obj_it = (key, val) :: tl ∧ g = { f with obj_it := tl }) := by
  unfold next_record at h
  cases huo : f.use_ordered with
  | true =>
    left
    simp only [huo, if_true] at h
    by_cases h1 : f.ord_idx ≥ f.ord_size
    · simp [h1] at h
    · rw [if_neg h1] at h
      cases hget : st.ordered_keys[f.ord_idx]? with
      | none => simp [hget] at h
      | some it =>
        rw [hget] at h
        simp only [Option.some.injEq, Prod.mk.injEq] at h
        obtain ⟨h2, h3, h4⟩ := h
        subst h2 h3 h4
        exact ⟨rfl, by omega, rfl, by simp [huo]⟩
  | false =>
    right
    simp only [huo] at h
    cases hit : f.obj_it with
    | nil => simp [hit] at h
    | cons it tl =>
      rw [hit] at h
      simp only [Bool.false_eq_true, if_false, Option.some.injEq, Prod.mk.injEq] at h
      obtain ⟨h2, h3, h4⟩ := h
      subst h2 h3 h4
      exact ⟨rfl, tl, rfl, rfl⟩

/-- One pass of the loop body keeps the invariant and lowers the measure. -/
theorem iteration_decreases (lib : StdLib) (opt : FastDumpOptions) (n : Nat) (f : Frame)
    (out : List Byte) (rest : List Frame) (ok : List entry) (st : State)
    (hinv : stack_ok n (f :: rest) ok)
    (hstep : iteration lib opt f ⟨out, rest, ok⟩ = some st) :
    stack_ok n st.stack st.ordered_keys ∧
      stack_bound n st.stack < stack_bound n (f :: rest) := by
  have hf := hinv.1 f (List.mem_cons_self f rest)
  have hpop := pop_decreases n f rest ok hinv
  cases hk : f.kind with
  | VALUE =>
    simp only [iteration, hk] at hstep
    cases hnode : f.node with
    | object obj =>
      simp only [visit_value, hnode] at hstep
      cases obj with
      | nil =>
        rw [push_object_empty] at hstep
        cases hstep
        exact hpop
      | cons e tl =>
        rw [push_object_cons] at hstep
        cases hstep
        have hw : (json.object (e :: tl)).width ≤ n := by rw [← hnode]; exact hf.1
        have hmem : ∀ x ∈ e :: tl, x.2.height < f.node.height ∧ x.2.width ≤ n := by
          intro x hx
          have h3 := object_member (e :: tl) x hx
          rw [hnode]
          exact ⟨h3.1, le_trans h3.2.1 hw⟩
        have hlen : (e :: tl).length ≤ n :=
          le_trans (object_member (e :: tl) e (List.mem_cons_self e tl)).2.2 hw
        have hh : 1 ≤ f.node.height := by
          have := (hmem e (List.mem_cons_self e tl)).1
          omega
        have hb := value_bound_composite n f (e :: tl).length hk hh hlen
        cases hs : opt.sort_keys with
        | true =>
          simp only [object_frame, hs, if_true]
          refine open_decreases n f _ rest ok _ hinv hnode.symm ?_ ?_ ?_
          · refine ⟨hw, ?_⟩
            refine ⟨fun h => (by cases h), fun _ h => (by cases h), ?_⟩
            intro _ _ x hx
            have := hmem x ((std_sort_mem _ x).mp hx)
            rw [hnode] at this
            exact this
          · right
            intro x hx
            exact hmem x ((std_sort_mem _ x).mp hx)
          · have : frame_bound n
                { kind := Kind.OBJECT, node := json.object (e :: tl), obj_it := [],
                  use_ordered := true, ord_idx := 0, ord_size := (std_sort (e :: tl)).length,
                  idx := 0, size := 0, first := true, indent_level := f.indent_level }
                = 1 + (e :: tl).length * (1 + pass_bound n (f.node.height - 1)) := by
              simp [frame_bound, std_sort_length, hnode]
            rw [this]
            exact hb
        | false =>
          simp only [object_frame, hs, Bool.false_eq_true, if_false]
          refine open_decreases n f _ rest ok _ hinv hnode.symm ?_ (Or.inl rfl) ?_
          · refine ⟨hw, ?_⟩
            refine ⟨fun h => (by cases h), ?_, fun _ h => (by cases h)⟩
            intro _ _ x hx
            have := hmem x hx
            rw [hnode] at this
            exact this
          · have : frame_bound n
                { kind := Kind.OBJECT, node := json.object (e :: tl), obj_it := e :: tl,
                  use_ordered := false, ord_idx := 0, ord_size := 0,
                  idx := 0, size := 0, first := true, indent_level := f.indent_level }
                = 1 + (e :: tl).length * (1 + pass_bound n (f.node.height - 1)) := by
              simp [frame_bound, hnode]
            rw [this]
            exact hb
    | array arr =>
      simp only [visit_value, hnode] at hstep
      cases arr with
      | nil =>
        rw [push_array_empty] at hstep
        cases hstep
        exact hpop
      | cons e tl =>
        rw [push_array_cons] at hstep
        cases hstep
        have hw : (json.array (e :: tl)).width ≤ n := by rw [← hnode]; exact hf.1
        have hlen : (e :: tl).length ≤ n :=
          le_trans (array_member (e :: tl) e (List.mem_cons_self e tl)).2.2 hw
        have hh : 1 ≤ f.node.height := by
          have := (array_member (e :: tl) e (List.mem_cons_self e tl)).1
          rw [← hnode] at this
          omega
        have hb := value_bound_composite n f (e :: tl).length hk hh hlen
        refine open_decreases n f _ rest ok _ hinv hnode.symm ?_ (Or.inl rfl) ?_
        · refine ⟨hw, ?_⟩
          refine ⟨fun _ => Nat.zero_le _, fun h => (by cases h), fun h => (by cases h)⟩
        · have : frame_bound n (array_frame (e :: tl) f.indent_level)
              = 1 + (e :: tl).length * (1 + pass_bound n (f.node.height - 1)) := by
            simp [frame_bound, array_frame, hnode]
          rw [this]
          exact hb
    | _ =>
      simp only [visit_value, hnode] at hstep
      cases hstep
      exact hpop
  | OBJECT =>
    simp only [iteration, hk] at hstep
    cases hnr : next_record f ⟨out, rest, ok⟩ with
    | none =>
      rw [visit_object_fault _ _ _ hnr] at hstep
      cases hstep
    | some r =>
      cases r with
      | none =>
        rw [visit_object_done _ _ _ hnr] at hstep
        cases hstep
        exact hpop
      | some t =>
        obtain ⟨key, val, g⟩ := t
        rw [visit_object_next _ _ _ _ _ _ hnr] at hstep
        cases hstep
        rcases next_record_spec f g _ key val hnr with ⟨huo, hlt, hget, hg⟩ | ⟨huo, tl, hit, hg⟩
        · have hin : (key, val) ∈ ok := List.getElem?_mem hget
          have hv := hf.2.2.2 hk huo (key, val) hin
          subst hg
          refine member_decreases n f _ rest ok val _ hinv rfl ?_ hv.1 hv.2 ?_
          · refine ⟨hf.1, ?_⟩
            refine ⟨fun h => (by rw [hk] at h; cases h), hf.2.2.1, hf.2.2.2⟩
          · simp only [frame_bound, hk, huo, if_true]
            have : f.ord_size - f.ord_idx = (f.ord_size - (f.ord_idx + 1)) + 1 := by omega
            rw [this]
            ring_nf
            omega
        · have hin : (key, val) ∈ f.obj_it := by rw [hit]; exact List.mem_cons_self _ _
          have hv := hf.2.2.1 hk huo (key, val) hin
          subst hg
          refine member_decreases n f _ rest ok val _ hinv rfl ?_ hv.1 hv.2 ?_
          · refine ⟨hf.1, ?_⟩
            refine ⟨fun h => (by rw [hk] at h; cases h), ?_, fun _ h => (by rw [huo] at h; cases h)⟩
            intro _ _ x hx
            exact hf.2.2.1 hk huo x (by rw [hit]; exact List.mem_cons_of_mem _ hx)
          · simp only [frame_bound, hk, huo, hit, List.length_cons]
            simp
            ring_nf
            omega
  | ARRAY =>
    simp only [iteration, hk] at hstep
    cases hnode : f.node with
    | array arr =>
      by_cases hend : f.idx = f.size
      · rw [visit_array_done opt f _ arr hnode hend] at hstep
        cases hstep
        exact hpop
      · cases he : arr[f.idx]? with
        | none =>
          rw [visit_array_fault opt f _ arr hnode hend he] at hstep
          cases hstep
        | some elem =>
          rw [visit_array_next opt f _ arr elem hnode hend he] at hstep
          cases hstep
          have hin : elem ∈ arr := List.getElem?_mem he
          have hm := array_member arr elem hin
          have hw : (json.array arr).width ≤ n := by rw [← hnode]; exact hf.1
          have hle := hf.2.1 hk
          refine member_decreases n f _ rest ok elem _ hinv rfl ?_
            (by rw [hnode]; exact hm.1) (le_trans hm.2.1 hw) ?_
          · refine ⟨hf.1, ?_⟩
            refine ⟨fun _ => ?_, fun h => (by rw [hk] at h; cases h),
              fun h => (by rw [hk] at h; cases h)⟩
            show f.idx + 1 ≤ f.size
            omega
          · simp only [frame_bound, hk]
            have : f.size - f.idx = (f.size - (f.idx + 1)) + 1 := by omega
            rw [this]
            ring_nf
            omega
    | _ =>
      simp [visit_array, hnode] at hstep

theorem loop_nil (lib : StdLib) (opt : FastDumpOptions) (fuel : Nat) (out : List Byte)
    (ok : List entry) : loop lib opt fuel ⟨out, [], ok⟩ = Outcome.done out := by
  cases fuel <;> rfl

theorem loop_zero (lib : StdLib) (opt : FastDumpOptions) (out : List Byte) (f : Frame)
    (rest : List Frame) (ok : List entry) :
    loop lib opt 0 ⟨out, f :: rest, ok⟩ = Outcome.timeout := rfl

theorem loop_succ (lib : StdLib) (opt : FastDumpOptions) (fuel : Nat) (out : List Byte)
    (f : Frame) (rest : List Frame) (ok : List entry) :
    loop lib opt (fuel + 1) ⟨out, f :: rest, ok⟩ =
      match iteration lib opt f ⟨out, rest, ok⟩ with
      | none => Outcome.fault
      | some st => loop lib opt fuel st := rfl

/-- A run that starts with at least `stack_bound` passes of fuel ends by
itself, as `done` or as `fault`. -/
theorem loop_ends (lib : StdLib) (opt : FastDumpOptions) (n : Nat) :
    ∀ (fuel : Nat) (st : State), stack_ok n st.stack st.ordered_keys →
      stack_bound n st.stack ≤ fuel → loop lib opt fuel st ≠ Outcome.timeout := by
  intro fuel
  induction fuel with
  | zero =>
    intro st _ hb
    obtain ⟨out, stack, ok⟩ := st
    cases stack with
    | nil => rw [loop_nil]; exact fun h => by cases h
    | cons f rest =>
      exfalso
      have := frame_bound_pos n f
      simp only [stack_bound_cons] at hb
      omega
  | succ fuel ih =>
    intro st hinv hb
    obtain ⟨out, stack, ok⟩ := st
    cases stack with
    | nil => rw [loop_nil]; exact fun h => by cases h
    | cons f rest =>
      rw [loop_succ]
      cases hstep : iteration lib opt f ⟨out, rest, ok⟩ with
      | none => exact fun h => by cases h
      | some st2 =>
        have h := iteration_decreases lib opt n f out rest ok st2 hinv hstep
        exact ih st2 h.1 (by simp only [] at hb; omega)

/-- Fuel beyond what a run needs does not change its outcome. -/
theorem loop_more_fuel (lib : StdLib) (opt : FastDumpOptions) (k : Nat) :
    ∀ (fuel : Nat) (st : State), loop lib opt fuel st ≠ Outcome.timeout →
      loop lib opt (fuel + k) st = loop lib opt fuel st := by
  intro fuel
  induction fuel with
  | zero =>
    intro st h
    obtain ⟨out, stack, ok⟩ := st
    cases stack with
    | nil => rw [loop_nil, loop_nil]
    | cons f rest => exact absurd (loop_zero lib opt out f rest ok) h
  | succ fuel ih =>
    intro st h
    obtain ⟨out, stack, ok⟩ := st
    cases stack with
    | nil => rw [loop_nil, loop_nil]
    | cons f rest =>
      have e : fuel + 1 + k = (fuel + k) + 1 := by omega
      rw [e, loop_succ, loop_succ]
      rw [loop_succ] at h
      cases hstep : iteration lib opt f ⟨out, rest, ok⟩ with
      | none => rfl
      | some st2 =>
        rw [hstep] at h
        exact ih st2 h

theorem initial_ok (j : json) (ok : List entry) :
    stack_ok j.width (initial j ok).stack (initial j ok).ordered_keys ∧
      stack_bound j.width (initial j ok).stack = pass_bound j.width j.height := by
  refine ⟨⟨?_, ?_⟩, ?_⟩
  · intro f hf
    have : f = value_frame j 0 := by
      simpa [initial, push_value_eq] using hf
    subst this
    refine ⟨le_refl _, ?_⟩
    refine ⟨?_, ?_, ?_⟩ <;> (intro h; cases h)
  · simp [initial, push_value_eq]
  · simp [initial, push_value_eq, stack_bound, frame_bound, value_frame]

theorem fast_dump_not_timeout (lib : StdLib) (j : json) (opt : FastDumpOptions)
    (ok : List entry) : fast_dump lib j opt ok ≠ Outcome.timeout := by
  have h := initial_ok j ok
  exact loop_ends lib opt j.width _ _ h.1 (le_of_eq h.2)

/-- C4: for every value tree, all options and any content of the scratch list,
the work-stack loop terminates. The measure `stack_bound` of the frame stack
(for each open frame, its unvisited members weighted by the passes a member
subtree can take, plus the passes of the value frames still to be visited)
drops at every pass, so the `pass_bound` passes `fast_dump` allows are never
used up: the run ends by itself, as a returned text or as a fault, and any
larger number of passes gives the same outcome. -/
theorem loop_total (lib : StdLib) (j : json) (opt : FastDumpOptions) (ok : List entry) :
    (∀ k : Nat, loop lib opt (pass_bound j.width j.height + k) (initial j ok)
        = fast_dump lib j opt ok) ∧
    ((∃ out, fast_dump lib j opt ok = Outcome.done out) ∨
      fast_dump lib j opt ok = Outcome.fault) := by
  have hnt := fast_dump_not_timeout lib j opt ok
  constructor
  · intro k
    exact loop_more_fuel lib opt k _ _ hnt
  · cases hr : fast_dump lib j opt ok with
    | done out => exact Or.inl ⟨out, rfl⟩
    | fault => exact Or.inr rfl
    | timeout => exact absurd hr hnt

/-! ### The loop against the recursive description (insertion order) -/

theorem reaches_refl (lib : StdLib) (opt : FastDumpOptions) (s : State) :
    reaches lib opt s s := ⟨0, fun _ => rfl⟩

theorem reaches_trans (lib : StdLib) (opt : FastDumpOptions) {s1 s2 s3 : State}
    (h1 : reaches lib opt s1 s2) (h2 : reaches lib opt s2 s3) : reaches lib opt s1 s3 := by
  obtain ⟨n1, h1⟩ := h1
  obtain ⟨n2, h2⟩ := h2
  refine ⟨n2 + n1, fun fuel => ?_⟩
  rw [← Nat.add_assoc, h1, h2]

theorem reaches_step (lib : StdLib) (opt : FastDumpOptions) (f : Frame) (out : List Byte)
    (rest : List Frame) (ok : List entry) (st : State)
    (h : iteration lib opt f ⟨out, rest, ok⟩ = some st) :
    reaches lib opt ⟨out, f :: rest, ok⟩ st := by
  refine ⟨1, fun fuel => ?_⟩
  rw [loop_succ, h]

theorem reaches_done (lib : StdLib) (opt : FastDumpOptions) (s : State) (out : List Byte)
    (ok : List entry) (h : reaches lib opt s ⟨out, [], ok⟩) :
    ∃ n, ∀ fuel, loop lib opt (fuel + n) s = Outcome.done out := by
  obtain ⟨n, hn⟩ := h
  exact ⟨n, fun fuel => by rw [hn, loop_nil]⟩

theorem append_double_append (lib : StdLib) (out : List Byte) (v : double) :
    append_double lib out v = out ++ append_double lib [] v := by
  unfold append_double
  cases lib.to_chars_double v with
  | some t => simp
  | none => simp only []; split_ifs <;> simp

theorem iteration_object (lib : StdLib) (opt : FastDumpOptions) (f : Frame) (st : State)
    (hk : f.kind = Kind.OBJECT) : iteration lib opt f st = visit_object opt f st := by
  simp [iteration, hk]

theorem iteration_array (lib : StdLib) (opt : FastDumpOptions) (f : Frame) (st : State)
    (hk : f.kind = Kind.ARRAY) : iteration lib opt f st = visit_array opt f st := by
  simp [iteration, hk]

/-- An unordered `OBJECT` frame writes its remaining entries and the closer,
provided each member value is written as `dump_value` says. -/
theorem run_members (lib : StdLib) (opt : FastDumpOptions) :
    ∀ (es : List entry),
      (∀ e ∈ es, ∀ (lvl : Int) (out : List Byte) (stk : List Frame) (ok : List entry),
        reaches lib opt ⟨out, value_frame e.2 lvl :: stk, ok⟩
          ⟨out ++ dump_value lib opt lvl e.2, stk, ok⟩) →
      ∀ (f : Frame), f.kind = Kind.OBJECT → f.use_ordered = false → f.obj_it = es →
        ∀ (out : List Byte) (stk : List Frame) (ok : List entry),
          reaches lib opt ⟨out, f :: stk, ok⟩
            ⟨out ++ dump_members lib opt f.indent_level f.first es
                ++ line_break opt f.indent_level ++ [0x7D], stk, ok⟩ := by
  intro es
  induction es with
  | nil =>
    intro _ f hk huo hit out stk ok
    have hnr : next_record f ⟨out, stk, ok⟩ = some none := by
      simp [next_record, huo, hit]
    have hstep := visit_object_done opt f ⟨out, stk, ok⟩ hnr
    rw [← iteration_object lib opt f _ hk] at hstep
    have := reaches_step lib opt f out stk ok _ hstep
    simpa [dump_members] using this
  | cons e tl ih =>
    intro hval f hk huo hit out stk ok
    have hnr : next_record f ⟨out, stk, ok⟩
        = some (some (e.1, e.2, { f with obj_it := tl })) := by
      simp [next_record, huo, hit]
    have hstep := visit_object_next opt f _ ⟨out, stk, ok⟩ e.1 e.2 hnr
    rw [← iteration_object lib opt f _ hk] at hstep
    have h1 := reaches_step lib opt f out stk ok _ hstep
    have h2 := hval e (List.mem_cons_self e tl) (f.indent_level + 1)
      (out ++ separator opt f.first (f.indent_level + 1)
        ++ append_escaped_string [] e.1 opt.ensure_ascii ++ [0x3A] ++ key_gap opt)
      ({ f with obj_it := tl, first := false } :: stk) ok
    have h3 := ih (fun x hx => hval x (List.mem_cons_of_mem e hx))
      { f with obj_it := tl, first := false } hk huo rfl
      (out ++ separator opt f.first (f.indent_level + 1)
        ++ append_escaped_string [] e.1 opt.ensure_ascii ++ [0x3A] ++ key_gap opt
        ++ dump_value lib opt (f.indent_level + 1) e.2) stk ok
    have h := reaches_trans lib opt (reaches_trans lib opt h1 h2) h3
    simpa [dump_members, List.append_assoc] using h

/-- An `ARRAY` frame writes its remaining elements and the closer, provided
each element is written as `dump_value` says. -/
theorem run_elems (lib : StdLib) (opt : FastDumpOptions) (arr : List json)
    (hval : ∀ v ∈ arr, ∀ (lvl : Int) (out : List Byte) (stk : List Frame) (ok : List entry),
        reaches lib opt ⟨out, value_frame v lvl :: stk, ok⟩
          ⟨out ++ dump_value lib opt lvl v, stk, ok⟩) :
    ∀ (vs : List json) (f : Frame), f.kind = Kind.ARRAY → f.node = json.array arr →
      f.size = arr.length → arr.drop f.idx = vs → f.idx ≤ f.size →
        ∀ (out : List Byte) (stk : List Frame) (ok : List entry),
          reaches lib opt ⟨out, f :: stk, ok⟩
            ⟨out ++ dump_elems lib opt f.indent_level f.first vs
                ++ line_break opt f.indent_level ++ [0x5D], stk, ok⟩ := by
  intro vs
  induction vs with
  | nil =>
    intro f hk hnode hsize hdrop hle out stk ok
    have hend : f.idx = f.size := by
      have := List.drop_eq_nil_iff.mp hdrop
      omega
    have hstep := visit_array_done opt f ⟨out, stk, ok⟩ arr hnode hend
    rw [← iteration_array lib opt f _ hk] at hstep
    have := reaches_step lib opt f out stk ok _ hstep
    simpa [dump_elems] using this
  | cons v tl ih =>
    intro f hk hnode hsize hdrop hle out stk ok
    have hget : arr[f.idx]? = some v := by
      rw [← List.head?_drop, hdrop]
      rfl
    have hlt : f.idx < arr.length := by
      by_contra hcon
      have : arr.drop f.idx = [] := List.drop_eq_nil_iff.mpr (by omega)
      rw [this] at hdrop
      cases hdrop
    have hend : f.idx ≠ f.size := by omega
    have hin : v ∈ arr := List.getElem?_mem hget
    have hdrop2 : arr.drop (f.idx + 1) = tl := by
      have := congrArg List.tail hdrop
      simpa using this
    have hstep := visit_array_next opt f ⟨out, stk, ok⟩ arr v hnode hend hget
    rw [← iteration_array lib opt f _ hk] at hstep
    have h1 := reaches_step lib opt f out stk ok _ hstep
    have h2 := hval v hin (f.indent_level + 1)
      (out ++ separator opt f.first (f.indent_level + 1))
      ({ f with first := false, idx := f.idx + 1 } :: stk) ok
    have h3 := ih { f with first := false, idx := f.idx + 1 } hk hnode hsize hdrop2
      (by show f.idx + 1 ≤ f.size; omega)
      (out ++ separator opt f.first (f.indent_level + 1)
        ++ dump_value lib opt (f.indent_level + 1) v) stk ok
    have h := reaches_trans lib opt (reaches_trans lib opt h1 h2) h3
    simpa [dump_elems, List.append_assoc] using h

/-- In insertion-order mode a `VALUE` frame writes `dump_value` of its node and
leaves the rest of the stack and the scratch list as they were. -/
theorem run_value (lib : StdLib) (opt : FastDumpOptions) (hs : opt.sort_keys = false) :
    ∀ (h : Nat) (v : json), v.height ≤ h →
      ∀ (lvl : Int) (out : List Byte) (stk : List Frame) (ok : List entry),
        reaches lib opt ⟨out, value_frame v lvl :: stk, ok⟩
          ⟨out ++ dump_value lib opt lvl v, stk, ok⟩ := by
  intro h
  induction h with
  | zero =>
    intro v hv lvl out stk ok
    cases v with
    | object obj => simp [json.height] at hv
    | array arr => simp [json.height] at hv
    | _ =>
      refine reaches_step lib opt _ out stk ok _ ?_
      simp [iteration, value_frame, visit_value, dump_value, append_literal, append_integer,
        append_uinteger, append_double_append lib out, append_escaped_string_append out]
  | succ h ih =>
    intro v hv lvl out stk ok
    cases v with
    | object obj =>
      cases obj with
      | nil =>
        refine reaches_step lib opt _ out stk ok _ ?_
        simp only [iteration, value_frame, visit_value]
        rw [push_object_empty]
        simp [dump_value]
      | cons e tl =>
        have hstep := push_object_cons opt ⟨out, stk, ok⟩ e tl lvl
        have hit : iteration lib opt (value_frame (json.object (e :: tl)) lvl) ⟨out, stk, ok⟩
            = push_object opt ⟨out, stk, ok⟩ (json.object (e :: tl)) lvl := rfl
        rw [← hit] at hstep
        have h1 := reaches_step lib opt _ out stk ok _ hstep
        have hval : ∀ x ∈ e :: tl, ∀ (lvl : Int) (out : List Byte) (stk : List Frame)
            (ok : List entry), reaches lib opt ⟨out, value_frame x.2 lvl :: stk, ok⟩
              ⟨out ++ dump_value lib opt lvl x.2, stk, ok⟩ := by
          intro x hx
          have := (object_member (e :: tl) x hx).1
          exact ih x.2 (by omega)
        have hfr : object_frame opt (e :: tl) lvl
            = { kind := Kind.OBJECT, node := json.object (e :: tl), obj_it := e :: tl,
                use_ordered := false, ord_idx := 0, ord_size := 0, idx := 0, size := 0,
                first := true, indent_level := lvl } := by
          simp [object_frame, hs]
        have h2 := run_members lib opt (e :: tl) hval
          { kind := Kind.OBJECT, node := json.object (e :: tl), obj_it := e :: tl,
            use_ordered := false, ord_idx := 0, ord_size := 0, idx := 0, size := 0,
            first := true, indent_level := lvl } rfl rfl rfl
          (out ++ [0x7B] ++ line_break opt (lvl + 1)) stk ok
        rw [hfr] at h1
        simp only [hs] at h1
        have h := reaches_trans lib opt h1 h2
        simpa [dump_value, List.append_assoc] using h
    | array arr =>
      cases arr with
      | nil =>
        refine reaches_step lib opt _ out stk ok _ ?_
        simp only [iteration, value_frame, visit_value]
        rw [push_array_empty]
        simp [dump_value]
      | cons e tl =>
        have hstep := push_array_cons opt ⟨out, stk, ok⟩ e tl lvl
        have hit : iteration lib opt (value_frame (json.array (e :: tl)) lvl) ⟨out, stk, ok⟩
            = push_array opt ⟨out, stk, ok⟩ (json.array (e :: tl)) lvl := rfl
        rw [← hit] at hstep
        have h1 := reaches_step lib opt _ out stk ok _ hstep
        have hval : ∀ x ∈ e :: tl, ∀ (lvl : Int) (out : List Byte) (stk : List Frame)
            (ok : List entry), reaches lib opt ⟨out, value_frame x lvl :: stk, ok⟩
              ⟨out ++ dump_value lib opt lvl x, stk, ok⟩ := by
          intro x hx
          have := (array_member (e :: tl) x hx).1
          exact ih x (by omega)
        have h2 := run_elems lib opt (e :: tl) hval (e :: tl) (array_frame (e :: tl) lvl)
          rfl rfl rfl rfl (Nat.zero_le _)
          (out ++ [0x5B] ++ line_break opt (lvl + 1)) stk ok
        have h := reaches_trans lib opt h1 h2
        simpa [dump_value, array_frame, List.append_assoc] using h
    | _ =>
      refine reaches_step lib opt _ out stk ok _ ?_
      simp [iteration, value_frame, visit_value, dump_value, append_literal, append_integer,
        append_uinteger, append_double_append lib out, append_escaped_string_append out]

/-- In insertion-order mode `fast_dump` returns the text `dump_value`. -/
theorem fast_dump_unsorted (lib : StdLib) (j : json) (opt : FastDumpOptions)
    (ok : List entry) (hs : opt.sort_keys = false) :
    fast_dump lib j opt ok = Outcome.done (dump_value lib opt 0 j) := by
  have h := run_value lib opt hs j.height j (le_refl _) 0 [] [] ok
  obtain ⟨n, hn⟩ := reaches_done lib opt _ _ ok h
  have h1 : loop lib opt (pass_bound j.width j.height + n) (initial j ok)
      = fast_dump lib j opt ok :=
    loop_more_fuel lib opt n _ _ (fast_dump_not_timeout lib j opt ok)
  have h2 := hn (pass_bound j.width j.height)
  simp only [List.nil_append] at h2
  rw [← h1]
  exact h2

theorem line_break_nat (opt : FastDumpOptions) (w l : Nat) (hp : opt.pretty = (w : Int)) :
    line_break opt (l : Int) = newline_indent w l := by
  unfold line_break indent_if_needed newline_indent
  rw [hp]
  by_cases hw : w = 0
  · subst hw; simp
  · have h1 : (w : Int) ≠ 0 := by exact_mod_cast hw
    have h2 : (w : Int) > 0 := by omega
    have h3 : w > 0 := by omega
    have h4 : ((w : Int) * (l : Int)).toNat = w * l := by
      rw [← Int.natCast_mul]; exact Int.toNat_natCast _
    simp [h1, h2, h3, h4]

theorem line_break_succ (opt : FastDumpOptions) (w l : Nat) (hp : opt.pretty = (w : Int)) :
    line_break opt ((l : Int) + 1) = newline_indent w (l + 1) := by
  have := line_break_nat opt w (l + 1) hp
  simpa using this

theorem key_gap_nat (opt : FastDumpOptions) (w : Nat) (hp : opt.pretty = (w : Int)) :
    [0x3A] ++ key_gap opt = if w > 0 then [0x3A, 0x20] else [(0x3A : Byte)] := by
  unfold key_gap
  rw [hp]
  by_cases hw : w = 0
  · subst hw; simp
  · have h1 : (w : Int) ≠ 0 := by exact_mod_cast hw
    have h3 : w > 0 := by omega
    simp [h1, h3]

theorem intercalate_single (sep x : List Byte) : List.intercalate sep [x] = x := by
  simp [List.intercalate, List.intersperse]

theorem intercalate_cons_cons (sep x y : List Byte) (ys : List (List Byte)) :
    List.intercalate sep (x :: y :: ys) = x ++ sep ++ List.intercalate sep (y :: ys) := by
  simp [List.intercalate, List.intersperse]

theorem members_intercalate (lib : StdLib) (opt : FastDumpOptions) (w l : Nat)
    (hp : opt.pretty = (w : Int)) :
    ∀ (tl : List entry),
      (∀ e ∈ tl, dump_value lib opt ((l : Int) + 1) e.2
        = recursive_dump lib opt.ensure_ascii w (l + 1) e.2) →
      ∀ x : List Byte,
        List.intercalate (0x2C :: newline_indent w (l + 1))
            (x :: recursive_members lib opt.ensure_ascii w (l + 1) tl)
          = x ++ dump_members lib opt (l : Int) false tl := by
  intro tl
  induction tl with
  | nil =>
    intro _ x
    simp [recursive_members, dump_members, intercalate_single]
  | cons e tl ih =>
    intro hval x
    have h1 := ih (fun y hy => hval y (List.mem_cons_of_mem e hy))
    have h2 := hval e (List.mem_cons_self e tl)
    have h3 := key_gap_nat opt w hp
    simp only [recursive_members, dump_members, intercalate_cons_cons, h1, separator,
      line_break_succ opt w l hp, h2, ← h3]
    simp [List.append_assoc]

theorem elems_intercalate (lib : StdLib) (opt : FastDumpOptions) (w l : Nat)
    (hp : opt.pretty = (w : Int)) :
    ∀ (tl : List json),
      (∀ v ∈ tl, dump_value lib opt ((l : Int) + 1) v
        = recursive_dump lib opt.ensure_ascii w (l + 1) v) →
      ∀ x : List Byte,
        List.intercalate (0x2C :: newline_indent w (l + 1))
            (x :: recursive_elems lib opt.ensure_ascii w (l + 1) tl)
          = x ++ dump_elems lib opt (l : Int) false tl := by
  intro tl
  induction tl with
  | nil =>
    intro _ x
    simp [recursive_elems, dump_elems, intercalate_single]
  | cons e tl ih =>
    intro hval x
    have h1 := ih (fun y hy => hval y (List.mem_cons_of_mem e hy))
    have h2 := hval e (List.mem_cons_self e tl)
    simp only [recursive_elems, dump_elems, intercalate_cons_cons, h1, separator,
      line_break_succ opt w l hp, h2]
    simp [List.append_assoc]

/-- For a non-negative indent width the text the loop builds is the text of
the straightforward recursive serializer. -/
theorem dump_value_eq_recursive (lib : StdLib) (opt : FastDumpOptions) (w : Nat)
    (hp : opt.pretty = (w : Int)) :
    ∀ (h : Nat) (v : json), v.height ≤ h → ∀ l : Nat,
      dump_value lib opt (l : Int) v = recursive_dump lib opt.ensure_ascii w l v := by
  intro h
  induction h with
  | zero =>
    intro v hv l
    cases v with
    | object obj => simp [json.height] at hv
    | array arr => simp [json.height] at hv
    | _ => simp [dump_value, recursive_dump]
  | succ h ih =>
    intro v hv l
    cases v with
    | object obj =>
      cases obj with
      | nil => simp [dump_value, recursive_dump]
      | cons e tl =>
        have hval : ∀ x ∈ e :: tl, dump_value lib opt ((l : Int) + 1) x.2
            = recursive_dump lib opt.ensure_ascii w (l + 1) x.2 := by
          intro x hx
          have := (object_member (e :: tl) x hx).1
          have h5 := ih x.2 (by omega) (l + 1)
          simpa using h5
        have h1 := members_intercalate lib opt w l hp tl
          (fun y hy => hval y (List.mem_cons_of_mem e hy))
        have h2 := hval e (List.mem_cons_self e tl)
        have h3 := key_gap_nat opt w hp
        simp only [dump_value, recursive_dump, recursive_members, h1, dump_members, separator,
          line_break_succ opt w l hp, line_break_nat opt w l hp, h2, ← h3]
        simp [List.append_assoc]
    | array arr =>
      cases arr with
      | nil => simp [dump_value, recursive_dump]
      | cons e tl =>
        have hval : ∀ x ∈ e :: tl, dump_value lib opt ((l : Int) + 1) x
            = recursive_dump lib opt.ensure_ascii w (l + 1) x := by
          intro x hx
          have := (array_member (e :: tl) x hx).1
          have h5 := ih x (by omega) (l + 1)
          simpa using h5
        have h1 := elems_intercalate lib opt w l hp tl
          (fun y hy => hval y (List.mem_cons_of_mem e hy))
        have h2 := hval e (List.mem_cons_self e tl)
        simp only [dump_value, recursive_dump, recursive_elems, h1, dump_elems, separator,
          line_break_succ opt w l hp, line_break_nat opt w l hp, h2]
        simp [List.append_assoc]
    | _ => simp [dump_value, recursive_dump]

/-! ### Which bytes the loop can write -/

theorem entries_strings_ok_mem (S : List Byte → Bool) (obj : List entry)
    (h : entries_strings_ok S obj = true) (e : entry) (he : e ∈ obj) :
    S e.1 = true ∧ strings_ok S e.2 = true := by
  induction obj with
  | nil => cases he
  | cons a tl ih =>
    simp only [entries_strings_ok, Bool.and_eq_true] at h
    rcases List.mem_cons.mp he with h1 | h1
    · subst h1; exact ⟨h.1.1, h.1.2⟩
    · exact ih h.2 h1

theorem entries_strings_ok_intro (S : List Byte → Bool) (obj : List entry)
    (h : ∀ e ∈ obj, S e.1 = true ∧ strings_ok S e.2 = true) :
    entries_strings_ok S obj = true := by
  induction obj with
  | nil => rfl
  | cons a tl ih =>
    simp only [entries_strings_ok, Bool.and_eq_true]
    exact ⟨⟨(h a (List.mem_cons_self a tl)).1, (h a (List.mem_cons_self a tl)).2⟩,
      ih (fun e he => h e (List.mem_cons_of_mem a he))⟩

theorem elems_strings_ok_mem (S : List Byte → Bool) (arr : List json)
    (h : elems_strings_ok S arr = true) (v : json) (hv : v ∈ arr) :
    strings_ok S v = true := by
  induction arr with
  | nil => cases hv
  | cons a tl ih =>
    simp only [elems_strings_ok, Bool.and_eq_true] at h
    rcases List.mem_cons.mp hv with h1 | h1
    · subst h1; exact h.1
    · exact ih h.2 h1

theorem to_chars_digits_bytes (fuel : Nat) :
    ∀ (v : Nat) (acc : List Byte), (∀ b ∈ acc, 0x20 < b ∧ b < 0x80) →
      ∀ b ∈ to_chars_digits fuel v acc, 0x20 < b ∧ b < 0x80 := by
  induction fuel with
  | zero => intro v acc h; exact h
  | succ fuel ih =>
    intro v acc h
    have hd : ∀ d : Nat, d < 10 → (0x20 : Byte) < Fin.ofNat (48 + d) ∧
        (Fin.ofNat (48 + d) : Byte) < 0x80 := by
      intro d hd
      interval_cases d <;> decide
    simp only [to_chars_digits]
    split_ifs with h1
    · intro b hb
      rcases List.mem_cons.mp hb with h2 | h2
      · subst h2; exact hd v h1
      · exact h b h2
    · apply ih
      intro b hb
      rcases List.mem_cons.mp hb with h2 | h2
      · subst h2; exact hd (v % 10) (Nat.mod_lt _ (by norm_num))
      · exact h b h2

theorem to_chars_unsigned_bytes (v : Nat) :
    ∀ b ∈ to_chars_unsigned v, 0x20 < b ∧ b < 0x80 :=
  to_chars_digits_bytes _ v [] (fun _ h => by cases h)

theorem to_chars_signed_bytes (v : Int) :
    ∀ b ∈ to_chars_signed v, 0x20 < b ∧ b < 0x80 := by
  unfold to_chars_signed
  split_ifs
  · intro b hb
    rcases List.mem_cons.mp hb with h2 | h2
    · subst h2; decide
    · exact to_chars_unsigned_bytes _ b h2
  · exact to_chars_unsigned_bytes _

theorem strings_inv_pop (S : List Byte → Bool) (f : Frame) (rest : List Frame)
    (ok : List entry) (h : strings_inv S (f :: rest) ok) : strings_inv S rest ok :=
  ⟨fun g hg => h.1 g (List.mem_cons_of_mem f hg),
    fun ⟨g, hg, hk⟩ => h.2 ⟨g, List.mem_cons_of_mem f hg, hk⟩⟩

theorem strings_inv_member (S : List Byte → Bool) (f g : Frame) (rest : List Frame)
    (ok : List entry) (v : json) (level : Int) (h : strings_inv S (f :: rest) ok)
    (hnode : g.node = f.node)
    (hit : g.kind = Kind.OBJECT → g.use_ordered = false → entries_strings_ok S g.obj_it = true)
    (hord : g.kind = Kind.OBJECT ∧ g.use_ordered = true →
      f.kind = Kind.OBJECT ∧ f.use_ordered = true)
    (hv : strings_ok S v = true) :
    strings_inv S (value_frame v level :: g :: rest) ok := by
  constructor
  · intro x hx
    rcases List.mem_cons.mp hx with h1 | h1
    · subst h1
      exact ⟨hv, fun hk => by cases hk⟩
    · rcases List.mem_cons.mp h1 with h2 | h2
      · subst h2
        exact ⟨by rw [hnode]; exact (h.1 f (List.mem_cons_self f rest)).1, hit⟩
      · exact h.1 x (List.mem_cons_of_mem f h2)
  · rintro ⟨x, hx, hk⟩
    apply h.2
    rcases List.mem_cons.mp hx with h1 | h1
    · subst h1; cases hk.1
    · rcases List.mem_cons.mp h1 with h2 | h2
      · subst h2; exact ⟨f, List.mem_cons_self f rest, hord hk⟩
      · exact ⟨x, List.mem_cons_of_mem f h2, hk⟩

theorem strings_inv_open (S : List Byte → Bool) (f g : Frame) (rest : List Frame)
    (ok ok2 : List entry) (h : strings_inv S (f :: rest) ok)
    (hnode : g.node = f.node)
    (hit : g.kind = Kind.OBJECT → g.use_ordered = false → entries_strings_ok S g.obj_it = true)
    (hkeys : (ok2 = ok ∧ ¬ (g.kind = Kind.OBJECT ∧ g.use_ordered = true)) ∨
      entries_strings_ok S ok2 = true) :
    strings_inv S (g :: rest) ok2 := by
  constructor
  · intro x hx
    rcases List.mem_cons.mp hx with h1 | h1
    · subst h1
      exact ⟨by rw [hnode]; exact (h.1 f (List.mem_cons_self f rest)).1, hit⟩
    · exact h.1 x (List.mem_cons_of_mem f h1)
  · rintro ⟨x, hx, hk⟩
    rcases hkeys with ⟨h1, h2⟩ | h1
    · rw [h1]
      apply h.2
      rcases List.mem_cons.mp hx with h3 | h3
      · subst h3; exact absurd hk h2
      · exact ⟨x, List.mem_cons_of_mem f h3, hk⟩
    · exact h1

set_option maxRecDepth 1000000 in
/-- One pass of the loop body keeps `strings_inv` and appends only bytes that
satisfy `p`, when `p` holds for the printable ASCII bytes other than the space,
for the bytes of line breaks and key gaps under the options at hand, for the
text of a double and for the escaped form of every string that satisfies `S`. -/
theorem iteration_bytes (lib : StdLib) (opt : FastDumpOptions) (p : Byte → Prop)
    (S : List Byte → Bool)
    (hp : ∀ b : Byte, 0x20 < b ∧ b < 0x80 → p b)
    (hbreak : ∀ l, ∀ b ∈ line_break opt l, p b)
    (hgap : ∀ b ∈ key_gap opt, p b)
    (hdouble : ∀ v, ∀ b ∈ append_double lib [] v, p b)
    (hstr : ∀ s, S s = true → ∀ b ∈ append_escaped_string [] s opt.ensure_ascii, p b)
    (f : Frame) (out : List Byte) (rest : List Frame) (ok : List entry) (st : State)
    (hinv : strings_inv S (f :: rest) ok) (hout : ∀ b ∈ out, p b)
    (hstep : iteration lib opt f ⟨out, rest, ok⟩ = some st) :
    strings_inv S st.stack st.ordered_keys ∧ ∀ b ∈ st.out, p b := by
  have hf := hinv.1 f (List.mem_cons_self f rest)
  have hpop := strings_inv_pop S f rest ok hinv
  have hlit : ∀ l : List Byte, (∀ b ∈ l, 0x20 < b ∧ b < 0x80) → ∀ b ∈ out ++ l, p b :=
    fun l hl => List.forall_mem_append.mpr ⟨hout, fun b hb => hp b (hl b hb)⟩
  have hsep : ∀ (first : Bool) (l : Int), ∀ b ∈ separator opt first l, p b := by
    intro first l b hb
    unfold separator at hb
    split_ifs at hb
    · rcases List.mem_cons.mp hb with h1 | h1
      · subst h1; exact hp _ (by decide)
      · exact hbreak l b h1
    · cases hb
  cases hk : f.kind with
  | VALUE =>
    simp only [iteration, hk] at hstep
    cases hnode : f.node with
    | object obj =>
      simp only [visit_value, hnode] at hstep
      have hobj : entries_strings_ok S obj = true := by
        have := hf.1
        rw [hnode] at this
        simpa [strings_ok] using this
      cases obj with
      | nil =>
        rw [push_object_empty] at hstep
        cases hstep
        exact ⟨hpop, hlit _ (by decide)⟩
      | cons e tl =>
        rw [push_object_cons] at hstep
        cases hstep
        refine ⟨?_, ?_⟩
        · refine strings_inv_open S f _ rest ok _ hinv ?_ ?_ ?_
          · rw [hnode]; unfold object_frame; split_ifs <;> rfl
          · intro _ huo
            unfold object_frame at huo ⊢
            split_ifs at huo ⊢ with h1
            exact hobj
          · cases hs : opt.sort_keys with
            | true =>
              right
              simp only [if_true]
              apply entries_strings_ok_intro
              intro x hx
              exact entries_strings_ok_mem S _ hobj x ((std_sort_mem _ x).mp hx)
            | false =>
              left
              refine ⟨by simp, ?_⟩
              rintro ⟨_, huo⟩
              simp [object_frame, hs] at huo
        · simp only [List.append_assoc]
          refine List.forall_mem_append.mpr ⟨hout, List.forall_mem_append.mpr ⟨?_, hbreak _⟩⟩
          intro b hb
          exact hp b (by simp at hb; subst hb; decide)
    | array arr =>
      simp only [visit_value, hnode] at hstep
      cases arr with
      | nil =>
        rw [push_array_empty] at hstep
        cases hstep
        exact ⟨hpop, hlit _ (by decide)⟩
      | cons e tl =>
        rw [push_array_cons] at hstep
        cases hstep
        refine ⟨?_, ?_⟩
        · refine strings_inv_open S f _ rest ok _ hinv hnode.symm ?_ ?_
          · intro hk2; cases hk2
          · left
            exact ⟨rfl, fun h => by cases h.1⟩
        · simp only [List.append_assoc]
          refine List.forall_mem_append.mpr ⟨hout, List.forall_mem_append.mpr ⟨?_, hbreak _⟩⟩
          intro b hb
          exact hp b (by simp at hb; subst hb; decide)
    | null =>
      simp only [visit_value, hnode, append_literal] at hstep
      cases hstep
      exact ⟨hpop, hlit _ (by decide)⟩
    | boolean v =>
      simp only [visit_value, hnode, append_literal] at hstep
      cases hstep
      refine ⟨hpop, hlit _ ?_⟩
      cases v <;> decide
    | number_integer v =>
      simp only [visit_value, hnode, append_integer] at hstep
      cases hstep
      exact ⟨hpop, hlit _ (to_chars_signed_bytes v)⟩
    | number_unsigned v =>
      simp only [visit_value, hnode, append_uinteger] at hstep
      cases hstep
      exact ⟨hpop, hlit _ (to_chars_unsigned_bytes v)⟩
    | number_float v =>
      simp only [visit_value, hnode] at hstep
      cases hstep
      refine ⟨hpop, ?_⟩
      show ∀ b ∈ append_double lib out v, p b
      rw [append_double_append]
      exact List.forall_mem_append.mpr ⟨hout, hdouble v⟩
    | string s =>
      simp only [visit_value, hnode] at hstep
      cases hstep
      refine ⟨hpop, ?_⟩
      show ∀ b ∈ append_escaped_string out s opt.ensure_ascii, p b
      rw [append_escaped_string_append]
      have hs : S s = true := by
        have := hf.1
        rw [hnode] at this
        simpa [strings_ok] using this
      exact List.forall_mem_append.mpr ⟨hout, hstr s hs⟩
    | binary v =>
      simp only [visit_value, hnode] at hstep
      cases hstep
      refine ⟨hpop, ?_⟩
      show ∀ b ∈ append_escaped_string out (bytes "<binary>") false, p b
      rw [append_escaped_string_append]
      exact hlit _ (by decide)
    | discarded =>
      simp only [visit_value, hnode] at hstep
      cases hstep
      refine ⟨hpop, ?_⟩
      show ∀ b ∈ append_escaped_string out (bytes "<discarded>") false, p b
      rw [append_escaped_string_append]
      exact hlit _ (by decide)
  | OBJECT =>
    simp only [iteration, hk] at hstep
    cases hnr : next_record f ⟨out, rest, ok⟩ with
    | none =>
      rw [visit_object_fault _ _ _ hnr] at hstep
      cases hstep
    | some r =>
      cases r with
      | none =>
        rw [visit_object_done _ _ _ hnr] at hstep
        cases hstep
        refine ⟨hpop, ?_⟩
        simp only [List.append_assoc]
        refine List.forall_mem_append.mpr ⟨hout, List.forall_mem_append.mpr ⟨hbreak _, ?_⟩⟩
        intro b hb
        exact hp b (by simp at hb; subst hb; decide)
      | some t =>
        obtain ⟨key, val, g⟩ := t
        rw [visit_object_next _ _ _ _ _ _ hnr] at hstep
        cases hstep
        have hkv : S key = true ∧ strings_ok S val = true ∧ g.node = f.node ∧
            g.kind = f.kind ∧ g.use_ordered = f.use_ordered ∧
            (f.use_ordered = false → entries_strings_ok S g.obj_it = true) := by
          rcases next_record_spec f g _ key val hnr with
            ⟨huo, _, hget, hg⟩ | ⟨huo, tl, hit, hg⟩
          · have hin : (key, val) ∈ ok := List.getElem?_mem hget
            have hok := hinv.2 ⟨f, List.mem_cons_self f rest, hk, huo⟩
            have := entries_strings_ok_mem S ok hok _ hin
            subst hg
            exact ⟨this.1, this.2, rfl, rfl, rfl, fun h => by rw [huo] at h; cases h⟩
          · have hall := hf.2 hk huo
            rw [hit] at hall
            have h1 := entries_strings_ok_mem S _ hall (key, val) (List.mem_cons_self _ _)
            subst hg
            refine ⟨h1.1, h1.2, rfl, rfl, rfl, fun _ => ?_⟩
            simp only [entries_strings_ok, Bool.and_eq_true] at hall
            exact hall.2
        obtain ⟨hkey, hval, hgn, hgk, hgu, hgit⟩ := hkv
        refine ⟨?_, ?_⟩
        · refine strings_inv_member S f _ rest ok val _ hinv hgn ?_ ?_ hval
          · intro _ huo
            exact hgit (by rw [← hgu]; exact huo)
          · rintro ⟨h1, h2⟩
            exact ⟨hk, by rw [← hgu]; exact h2⟩
        · simp only [List.append_assoc]
          refine List.forall_mem_append.mpr ⟨hout, List.forall_mem_append.mpr ⟨hsep _ _,
            List.forall_mem_append.mpr ⟨hstr key hkey, List.forall_mem_append.mpr ⟨?_, hgap⟩⟩⟩⟩
          intro b hb
          exact hp b (by simp at hb; subst hb; decide)
  | ARRAY =>
    simp only [iteration, hk] at hstep
    cases hnode : f.node with
    | array arr =>
      by_cases hend : f.idx = f.size
      · rw [visit_array_done opt f _ arr hnode hend] at hstep
        cases hstep
        refine ⟨hpop, ?_⟩
        simp only [List.append_assoc]
        refine List.forall_mem_append.mpr ⟨hout, List.forall_mem_append.mpr ⟨hbreak _, ?_⟩⟩
        intro b hb
        exact hp b (by simp at hb; subst hb; decide)
      · cases he : arr[f.idx]? with
        | none =>
          rw [visit_array_fault opt f _ arr hnode hend he] at hstep
          cases hstep
        | some elem =>
          rw [visit_array_next opt f _ arr elem hnode hend he] at hstep
          cases hstep
          have hin : elem ∈ arr := List.getElem?_mem he
          have harr : elems_strings_ok S arr = true := by
            have := hf.1
            rw [hnode] at this
            simpa [strings_ok] using this
          refine ⟨?_, List.forall_mem_append.mpr ⟨hout, hsep _ _⟩⟩
          refine strings_inv_member S f _ rest ok elem _ hinv rfl ?_ ?_
            (elems_strings_ok_mem S arr harr elem hin)
          · intro hk2
            rw [hk] at hk2
            cases hk2
          · rintro ⟨h1, _⟩
            rw [hk] at h1
            cases h1
    | _ =>
      simp [visit_array, hnode] at hstep

/-- A run that returns a text has written only bytes that satisfy `p`. -/
theorem loop_bytes (lib : StdLib) (opt : FastDumpOptions) (p : Byte → Prop)
    (S : List Byte → Bool)
    (hp : ∀ b : Byte, 0x20 < b ∧ b < 0x80 → p b)
    (hbreak : ∀ l, ∀ b ∈ line_break opt l, p b)
    (hgap : ∀ b ∈ key_gap opt, p b)
    (hdouble : ∀ v, ∀ b ∈ append_double lib [] v, p b)
    (hstr : ∀ s, S s = true → ∀ b ∈ append_escaped_string [] s opt.ensure_ascii, p b) :
    ∀ (fuel : Nat) (st : State) (text : List Byte),
      strings_inv S st.stack st.ordered_keys → (∀ b ∈ st.out, p b) →
      loop lib opt fuel st = Outcome.done text → ∀ b ∈ text, p b := by
  intro fuel
  induction fuel with
  | zero =>
    intro st text _ hout hrun
    obtain ⟨out, stack, ok⟩ := st
    cases stack with
    | nil =>
      rw [loop_nil] at hrun
      cases hrun
      exact hout
    | cons f rest =>
      rw [loop_zero] at hrun
      cases hrun
  | succ fuel ih =>
    intro st text hinv hout hrun
    obtain ⟨out, stack, ok⟩ := st
    cases stack with
    | nil =>
      rw [loop_nil] at hrun
      cases hrun
      exact hout
    | cons f rest =>
      rw [loop_succ] at hrun
      cases hstep : iteration lib opt f ⟨out, rest, ok⟩ with
      | none =>
        rw [hstep] at hrun
        cases hrun
      | some st2 =>
        rw [hstep] at hrun
        have h := iteration_bytes lib opt p S hp hbreak hgap hdouble hstr f out rest ok st2
          hinv hout hstep
        exact ih st2 text h.1 h.2 hrun

/-- The text `fast_dump` returns consists of bytes that satisfy `p`. -/
theorem fast_dump_bytes (lib : StdLib) (opt : FastDumpOptions) (p : Byte → Prop)
    (S : List Byte → Bool)
    (hp : ∀ b : Byte, 0x20 < b ∧ b < 0x80 → p b)
    (hbreak : ∀ l, ∀ b ∈ line_break opt l, p b)
    (hgap : ∀ b ∈ key_gap opt, p b)
    (hdouble : ∀ v, ∀ b ∈ append_double lib [] v, p b)
    (hstr : ∀ s, S s = true → ∀ b ∈ append_escaped_string [] s opt.ensure_ascii, p b)
    (j : json) (ok : List entry) (text : List Byte) (hj : strings_ok S j = true)
    (hrun : fast_dump lib j opt ok = Outcome.done text) : ∀ b ∈ text, p b := by
  refine loop_bytes lib opt p S hp hbreak hgap hdouble hstr _ (initial j ok) text ?_ ?_ hrun
  · constructor
    · intro f hf
      have : f = value_frame j 0 := by simpa [initial, push_value_eq] using hf
      subst this
      exact ⟨hj, fun hk => by cases hk⟩
    · rintro ⟨f, hf, hk, _⟩
      have : f = value_frame j 0 := by simpa [initial, push_value_eq] using hf
      subst this
      cases hk
  · intro b hb
    simp [initial, push_value_eq] at hb

theorem strings_ok_trivial : ∀ (h : Nat) (v : json), v.height ≤ h →
    strings_ok (fun _ => true) v = true := by
  intro h
  induction h with
  | zero =>
    intro v hv
    cases v with
    | object obj => simp [json.height] at hv
    | array arr => simp [json.height] at hv
    | _ => simp [strings_ok]
  | succ h ih =>
    intro v hv
    cases v with
    | object obj =>
      simp only [strings_ok]
      apply entries_strings_ok_intro
      intro e he
      have := (object_member obj e he).1
      exact ⟨rfl, ih e.2 (by omega)⟩
    | array arr =>
      simp only [strings_ok]
      have hall : ∀ (l : List json), (∀ v ∈ l, v ∈ arr) →
          elems_strings_ok (fun _ => true) l = true := by
        intro l
        induction l with
        | nil => intro _; rfl
        | cons a tl ihl =>
          intro hl
          have := (array_member arr a (hl a (List.mem_cons_self a tl))).1
          simp only [elems_strings_ok, Bool.and_eq_true]
          exact ⟨ih a (by omega), ihl (fun v hv => hl v (List.mem_cons_of_mem a hv))⟩
      exact hall arr (fun _ h => h)
    | _ => simp [strings_ok]

theorem line_break_bytes (opt : FastDumpOptions) (l : Int) :
    ∀ b ∈ line_break opt l, b = 0x0A ∨ b = 0x20 := by
  intro b hb
  unfold line_break indent_if_needed at hb
  split_ifs at hb
  · simp only [List.nil_append, List.cons_append, List.mem_cons, List.mem_replicate] at hb
    rcases hb with h | h
    · exact Or.inl h
    · exact Or.inr h.2
  · cases hb
  · cases hb

theorem line_break_compact (opt : FastDumpOptions) (l : Int) (hp : opt.pretty = 0) :
    line_break opt l = [] := by
  simp [line_break, hp]

theorem key_gap_compact (opt : FastDumpOptions) (hp : opt.pretty = 0) : key_gap opt = [] := by
  simp [key_gap, hp]

theorem hex_digit_printable : ∀ i : Fin 16,
    0x20 < HEX.getD i.val 0 ∧ HEX.getD i.val 0 < 0x80 := by
  decide

set_option maxRecDepth 100000 in
theorem escape_switch_bytes (c : Byte) :
    ∀ b ∈ escape_switch [] c, 0x20 < b ∧ b < 0x80 := by
  unfold escape_switch
  split_ifs
  · decide
  · decide
  · decide
  · decide
  · decide
  · decide
  · decide
  · have h1 : (c.val >>> 4) &&& 0xF < 16 := Nat.lt_succ_of_le Nat.and_le_right
    have h2 : c.val &&& 0xF < 16 := Nat.lt_succ_of_le Nat.and_le_right
    have d1 := hex_digit_printable ⟨_, h1⟩
    have d2 := hex_digit_printable ⟨_, h2⟩
    have hu : ∀ b ∈ bytes "\\u00", 0x20 < b ∧ b < 0x80 := by decide
    intro b hb
    simp only [List.nil_append, List.mem_append, List.mem_singleton] at hb
    rcases hb with (h | h) | h
    · exact hu b h
    · rw [h]; exact d1
    · rw [h]; exact d2

theorem need_escape_false (c : Byte) (ea : Bool) (h : need_escape c ea = false) :
    0x20 ≤ c ∧ c ≠ 0x22 ∧ c ≠ 0x5C ∧ (ea = true → c < 0x80) := by
  unfold need_escape at h
  split_ifs at h with h1 h2
  have h3 : ¬ c < 0x20 := fun hc => h1 (Or.inl hc)
  refine ⟨not_lt.mp h3, fun hc => h1 (Or.inr (Or.inl hc)), fun hc => h1 (Or.inr (Or.inr hc)), ?_⟩
  intro hea
  by_contra hc
  exact h2 ⟨hea, not_lt.mp hc⟩

/-- A byte of the escape of `c` is printable ASCII other than the space, or it
is `c` itself, copied because it needs no escape. -/
theorem escape_one_cases (ea : Bool) (c b : Byte) (hb : b ∈ escape_one ea c) :
    (0x20 < b ∧ b < 0x80) ∨ (b = c ∧ need_escape c ea = false) := by
  unfold escape_one at hb
  split_ifs at hb with h
  · exact Or.inl (escape_switch_bytes c b hb)
  · right
    simp only [List.mem_singleton] at hb
    exact ⟨hb, by simpa using h⟩

theorem escape_one_ascii (c b : Byte) (hb : b ∈ escape_one true c) : b < 0x80 := by
  rcases escape_one_cases true c b hb with h | ⟨h1, h2⟩
  · exact h.2
  · rw [h1]; exact (need_escape_false c true h2).2.2.2 rfl

theorem escape_one_no_control (ea : Bool) (c b : Byte) (hb : b ∈ escape_one ea c) :
    0x20 ≤ b := by
  rcases escape_one_cases ea c b hb with h | ⟨h1, h2⟩
  · exact le_of_lt h.1
  · rw [h1]; exact (need_escape_false c ea h2).1

theorem escape_one_no_space (ea : Bool) (c b : Byte) (hc : c ≠ 0x20)
    (hb : b ∈ escape_one ea c) : b ≠ 0x20 := by
  rcases escape_one_cases ea c b hb with h | ⟨h1, _⟩
  · exact ne_of_gt h.1
  · rw [h1]; exact hc

/-- The escaped token of `s` consists of bytes satisfying `p` when the quote
does and the escape of every byte of `s` does. -/
theorem escaped_bytes (p : Byte → Prop) (ea : Bool) (s : List Byte) (hq : p 0x22)
    (h : ∀ c ∈ s, ∀ b ∈ escape_one ea c, p b) :
    ∀ b ∈ append_escaped_string [] s ea, p b := by
  rw [append_escaped_string_eq]
  intro b hb
  simp only [List.nil_append, List.cons_append, List.mem_cons, List.mem_append,
    List.mem_flatMap, List.mem_singleton, List.not_mem_nil, or_false] at hb
  rcases hb with h1 | ⟨c, hc, hbc⟩ | h1
  · rw [h1]; exact hq
  · exact h c hc b hbc
  · rw [h1]; exact hq

/-- C6: with `ensure_ascii = true` no byte at or above 0x80 is written raw. The
escaper writes only bytes below 0x80 for every byte sequence; and for every
value tree, every indent width and either key order, whatever the scratch list
holds, a text returned by `fast_dump` consists of bytes below 0x80 (the text
the standard library prints for a double being ASCII). -/
theorem ensure_ascii_output_is_ascii :
    (∀ (s : List Byte), ∀ b ∈ append_escaped_string [] s true, b < 0x80) ∧
    (∀ (lib : StdLib) (j : json) (opt : FastDumpOptions) (ok : List entry) (text : List Byte),
      (∀ v, ∀ b ∈ append_double lib [] v, b < 0x80) →
      opt.ensure_ascii = true →
      fast_dump lib j opt ok = Outcome.done text →
      ∀ b ∈ text, b < 0x80) := by
  have hesc : ∀ (s : List Byte), ∀ b ∈ append_escaped_string [] s true, b < 0x80 :=
    fun s => escaped_bytes (fun b => b < 0x80) true s (by decide)
      (fun c _ b hb => escape_one_ascii c b hb)
  refine ⟨hesc, ?_⟩
  intro lib j opt ok text hlib hea hrun
  refine fast_dump_bytes lib opt (fun b => b < 0x80) (fun _ => true) (fun b hb => hb.2)
    ?_ ?_ hlib ?_ j ok text (strings_ok_trivial _ j (le_refl _)) hrun
  · intro l b hb
    rcases line_break_bytes opt l b hb with h | h <;> (rw [h]; decide)
  · intro b hb
    unfold key_gap at hb
    split_ifs at hb
    · simp only [List.mem_singleton] at hb
      rw [hb]; decide
    · cases hb
  · intro s _
    rw [hea]
    exact hesc s

set_option maxRecDepth 100000 in
/-- C6 at the object `{"é": "é"}` (key and value the single byte 0xE9), sorted,
indent width 2: both bytes are written as `\u00E9` and the text is ASCII. -/
theorem ensure_ascii_output_is_ascii_witness :
    (∀ v, ∀ b ∈ append_double lib0 [] v, b < 0x80) ∧
    fast_dump lib0 (json.object [([0xE9], json.string [0xE9])])
        { pretty := 2, ensure_ascii := true, sort_keys := true } []
      = Outcome.done (bytes "\x7b\n  \"\\u00E9\": \"\\u00E9\"\n\x7d") ∧
    ∀ b ∈ bytes "\x7b\n  \"\\u00E9\": \"\\u00E9\"\n\x7d", b < 0x80 :=
  have hlib : ∀ v, ∀ b ∈ append_double lib0 [] v, b < 0x80 := by
    intro v b hb
    simp only [append_double, lib0, List.nil_append, List.mem_singleton] at hb
    rw [hb]; decide
  have hrun : fast_dump lib0 (json.object [([0xE9], json.string [0xE9])])
        { pretty := 2, ensure_ascii := true, sort_keys := true } []
      = Outcome.done (bytes "\x7b\n  \"\\u00E9\": \"\\u00E9\"\n\x7d") := by decide
  ⟨hlib, hrun,
    ensure_ascii_output_is_ascii.2 lib0 _ _ [] _ hlib rfl hrun⟩

/-- C9: for every value tree and all options with `pretty = 0`, whatever the
scratch list holds, a text returned by `fast_dump` has no newline and indeed no
byte below 0x20; and when no string value and no object key of the tree
contains a space, it has no space byte either (the text the standard library
prints for a double having only bytes above 0x20). -/
theorem compact_output_has_no_whitespace (lib : StdLib) (j : json) (opt : FastDumpOptions)
    (ok : List entry) (text : List Byte)
    (hlib : ∀ v, ∀ b ∈ append_double lib [] v, 0x20 < b)
    (hp : opt.pretty = 0)
    (hrun : fast_dump lib j opt ok = Outcome.done text) :
    (0x0A : Byte) ∉ text ∧ (∀ b ∈ text, 0x20 ≤ b) ∧
    (strings_ok no_space j = true → (0x20 : Byte) ∉ text) := by
  have h1 : ∀ b ∈ text, 0x20 ≤ b := by
    refine fast_dump_bytes lib opt (fun b => 0x20 ≤ b) (fun _ => true)
      (fun b hb => le_of_lt hb.1) ?_ ?_ (fun v b hb => le_of_lt (hlib v b hb)) ?_ j ok text
      (strings_ok_trivial _ j (le_refl _)) hrun
    · intro l b hb
      rw [line_break_compact opt l hp] at hb
      cases hb
    · intro b hb
      rw [key_gap_compact opt hp] at hb
      cases hb
    · intro s _
      exact escaped_bytes (fun b => 0x20 ≤ b) _ s (by decide)
        (fun c _ b hb => escape_one_no_control _ c b hb)
  refine ⟨fun h => absurd (h1 _ h) (by decide), h1, ?_⟩
  intro hj hmem
  have h2 : ∀ b ∈ text, b ≠ 0x20 := by
    refine fast_dump_bytes lib opt (fun b => b ≠ 0x20) no_space
      (fun b hb => ne_of_gt hb.1) ?_ ?_ (fun v b hb => ne_of_gt (hlib v b hb)) ?_ j ok text
      hj hrun
    · intro l b hb
      rw [line_break_compact opt l hp] at hb
      cases hb
    · intro b hb
      rw [key_gap_compact opt hp] at hb
      cases hb
    · intro s hs
      refine escaped_bytes (fun b => b ≠ 0x20) _ s (by decide) ?_
      intro c hc b hb
      refine escape_one_no_space _ c b ?_ hb
      intro hc2
      rw [hc2] at hc
      simp [no_space, hc] at hs
  exact h2 _ hmem rfl

set_option maxRecDepth 100000 in
/-- C9 at `{"a": 1, "b": [2, 3]}` in compact mode: the text `{"a":1,"b":[2,3]}`
has no newline, no control byte and no space. -/
theorem compact_output_has_no_whitespace_witness :
    (∀ v, ∀ b ∈ append_double lib0 [] v, 0x20 < b) ∧
    fast_dump lib0 (json.object [(bytes "a", json.number_integer 1),
        (bytes "b", json.array [json.number_integer 2, json.number_integer 3])])
        { pretty := 0 } []
      = Outcome.done (bytes "\x7b\"a\":1,\"b\":[2,3]\x7d") ∧
    strings_ok no_space (json.object [(bytes "a", json.number_integer 1),
        (bytes "b", json.array [json.number_integer 2, json.number_integer 3])]) = true ∧
    (0x0A : Byte) ∉ bytes "\x7b\"a\":1,\"b\":[2,3]\x7d" ∧
    (∀ b ∈ bytes "\x7b\"a\":1,\"b\":[2,3]\x7d", 0x20 ≤ b) ∧
    (0x20 : Byte) ∉ bytes "\x7b\"a\":1,\"b\":[2,3]\x7d" :=
  have hlib : ∀ v, ∀ b ∈ append_double lib0 [] v, 0x20 < b := by
    intro v b hb
    simp only [append_double, lib0, List.nil_append, List.mem_singleton] at hb
    rw [hb]; decide
  have hrun : fast_dump lib0 (json.object [(bytes "a", json.number_integer 1),
        (bytes "b", json.array [json.number_integer 2, json.number_integer 3])])
        { pretty := 0 } []
      = Outcome.done (bytes "\x7b\"a\":1,\"b\":[2,3]\x7d") := by decide
  have h := compact_output_has_no_whitespace lib0 _ _ [] _ hlib rfl hrun
  ⟨hlib, hrun, by decide, h.1, h.2.1, h.2.2 (by decide)⟩

/-! ### Indentation of pretty-printed text -/

theorem scan_neutral (b : Byte) (d : Nat) (h : neutral b) :
    scan_token_byte b d = (ScanMode.normal, d) := by
  obtain ⟨h1, h2, h3, h4⟩ := h
  simp [scan_token_byte, h1, h2, h3, h4]

theorem indent_ok_neutral (w : Nat) (t rest : List Byte) (d : Nat)
    (h : ∀ b ∈ t, neutral b) :
    indent_ok w (t ++ rest) ScanMode.normal d = indent_ok w rest ScanMode.normal d := by
  induction t with
  | nil => rfl
  | cons b t ih =>
    have hb := scan_neutral b d (h b (List.mem_cons_self b t))
    simp only [List.cons_append, indent_ok, hb]
    exact ih (fun x hx => h x (List.mem_cons_of_mem b hx))

set_option maxRecDepth 100000 in
theorem plain_neutral : ∀ b : Byte, plain_byte b = true → neutral b := by
  intro b hb
  simp only [plain_byte, Bool.and_eq_true, Bool.not_eq_true', decide_eq_true_eq,
    beq_eq_false_iff_ne] at hb
  obtain ⟨⟨⟨h1, h2⟩, h3⟩, h4⟩ := hb
  refine ⟨h2, h3, h4, ?_⟩
  intro h
  rw [h] at h1
  exact absurd h1 (by decide)

theorem hex_digit_range : ∀ i : Fin 16,
    0x30 ≤ HEX.getD i.val 0 ∧ HEX.getD i.val 0 ≤ 0x46 := by
  decide

theorem indent_ok_in_string (w : Nat) (b : Byte) (rest : List Byte) (d : Nat)
    (h1 : b ≠ 0x0A) (h2 : b ≠ 0x5C) (h3 : b ≠ 0x22) :
    indent_ok w (b :: rest) ScanMode.in_string d = indent_ok w rest ScanMode.in_string d := by
  simp [indent_ok, h1, h2, h3]

theorem indent_ok_escape_pair (w : Nat) (e : Byte) (rest : List Byte) (d : Nat)
    (h1 : e ≠ 0x0A) :
    indent_ok w (0x5C :: e :: rest) ScanMode.in_string d
      = indent_ok w rest ScanMode.in_string d := by
  simp [indent_ok, h1]

set_option maxRecDepth 100000 in
/-- Inside a string token the scanner passes over the escape of any byte. -/
theorem indent_ok_escape_one (w : Nat) (ea : Bool) (c : Byte) (rest : List Byte) (d : Nat) :
    indent_ok w (escape_one ea c ++ rest) ScanMode.in_string d
      = indent_ok w rest ScanMode.in_string d := by
  unfold escape_one
  split_ifs with hne
  · unfold escape_switch
    split_ifs
    · exact indent_ok_escape_pair w 0x22 rest d (by decide)
    · exact indent_ok_escape_pair w 0x5C rest d (by decide)
    · exact indent_ok_escape_pair w 0x62 rest d (by decide)
    · exact indent_ok_escape_pair w 0x66 rest d (by decide)
    · exact indent_ok_escape_pair w 0x6E rest d (by decide)
    · exact indent_ok_escape_pair w 0x72 rest d (by decide)
    · exact indent_ok_escape_pair w 0x74 rest d (by decide)
    · have h1 : (c.val >>> 4) &&& 0xF < 16 := Nat.lt_succ_of_le Nat.and_le_right
      have h2 : c.val &&& 0xF < 16 := Nat.lt_succ_of_le Nat.and_le_right
      have d1 := hex_digit_range ⟨_, h1⟩
      have d2 := hex_digit_range ⟨_, h2⟩
      have hd : ∀ x : Byte, 0x30 ≤ x → x ≤ 0x46 → x ≠ 0x0A ∧ x ≠ 0x5C ∧ x ≠ 0x22 := by
        decide
      have e1 := hd _ d1.1 d1.2
      have e2 := hd _ d2.1 d2.2
      have hu : bytes "\\u00" = [0x5C, 0x75, 0x30, 0x30] := by decide
      simp only [hu, List.nil_append, List.cons_append, List.append_assoc]
      rw [indent_ok_escape_pair w 0x75 _ d (by decide),
        indent_ok_in_string w 0x30 _ d (by decide) (by decide) (by decide),
        indent_ok_in_string w 0x30 _ d (by decide) (by decide) (by decide),
        indent_ok_in_string w _ _ d e1.1 e1.2.1 e1.2.2,
        indent_ok_in_string w _ _ d e2.1 e2.2.1 e2.2.2]
  · have hf := need_escape_false c ea (by simpa using hne)
    have h1 : c ≠ 0x0A := by
      intro h
      rw [h] at hf
      exact absurd hf.1 (by decide)
    exact indent_ok_in_string w c rest d h1 hf.2.2.1 hf.2.1

/-- The scanner passes over a whole escaped string token. -/
theorem indent_ok_string (w : Nat) (ea : Bool) (s rest : List Byte) (d : Nat) :
    indent_ok w (append_escaped_string [] s ea ++ rest) ScanMode.normal d
      = indent_ok w rest ScanMode.normal d := by
  rw [append_escaped_string_eq]
  have hbody : ∀ (s : List Byte) (tail : List Byte),
      indent_ok w (s.flatMap (escape_one ea) ++ tail) ScanMode.in_string d
        = indent_ok w tail ScanMode.in_string d := by
    intro s
    induction s with
    | nil => intro tail; rfl
    | cons c s ih =>
      intro tail
      rw [List.flatMap_cons, List.append_assoc, indent_ok_escape_one, ih]
  have hopen : ∀ t : List Byte, indent_ok w (0x22 :: t) ScanMode.normal d
      = indent_ok w t ScanMode.in_string d := fun t => rfl
  have hclose : ∀ t : List Byte, indent_ok w (0x22 :: t) ScanMode.in_string d
      = indent_ok w t ScanMode.normal d := fun t => rfl
  simp only [List.nil_append, List.cons_append, List.append_assoc, List.singleton_append]
  rw [hopen, hbody, hclose]

theorem indent_ok_spaces (w : Nat) (k : Nat) :
    ∀ (n : Nat) (rest : List Byte) (d : Nat),
      indent_ok w (List.replicate k 0x20 ++ rest) (ScanMode.indent n) d
        = indent_ok w rest (ScanMode.indent (n + k)) d := by
  induction k with
  | zero => intro n rest d; rfl
  | succ k ih =>
    intro n rest d
    have hstep : indent_ok w (0x20 :: (List.replicate k 0x20 ++ rest)) (ScanMode.indent n) d
        = indent_ok w (List.replicate k 0x20 ++ rest) (ScanMode.indent (n + 1)) d := rfl
    rw [List.replicate_succ, List.cons_append, hstep, ih]
    congr 2
    omega

/-- After a line break the scanner checks the number of spaces against the
depth and goes on with the first byte of the line. -/
theorem indent_ok_line (w l d : Nat) (hw : 0 < w) (b : Byte) (rest : List Byte)
    (hb : b ≠ 0x20) :
    indent_ok w (newline_indent w l ++ b :: rest) ScanMode.normal d
      = (decide (w * l = w * (if is_closer b then d - 1 else d))
          && indent_ok w (b :: rest) ScanMode.normal d) := by
  have h1 : newline_indent w l = 0x0A :: List.replicate (w * l) 0x20 := by
    simp [newline_indent, hw]
  have h2 : scan_token_byte 0x0A d = (ScanMode.indent 0, d) := rfl
  rw [h1]
  simp only [List.cons_append]
  rw [show indent_ok w (0x0A :: (List.replicate (w * l) 0x20 ++ b :: rest)) ScanMode.normal d
      = indent_ok w (List.replicate (w * l) 0x20 ++ b :: rest) (ScanMode.indent 0) d from rfl]
  rw [indent_ok_spaces]
  simp [indent_ok, hb]

theorem indent_ok_line_token (w l : Nat) (hw : 0 < w) (t rest : List Byte)
    (ht : ∃ b t', t = b :: t' ∧ b ≠ 0x20 ∧ is_closer b = false) :
    indent_ok w (newline_indent w l ++ (t ++ rest)) ScanMode.normal l
      = indent_ok w (t ++ rest) ScanMode.normal l := by
  obtain ⟨b, t', h1, h2, h3⟩ := ht
  subst h1
  rw [List.cons_append, indent_ok_line w l l hw b _ h2]
  simp [h3]

theorem indent_ok_line_closer (w l : Nat) (hw : 0 < w) (c : Byte) (rest : List Byte)
    (hc : c = 0x7D ∨ c = 0x5D) :
    indent_ok w (newline_indent w l ++ c :: rest) ScanMode.normal (l + 1)
      = indent_ok w rest ScanMode.normal l := by
  have h2 : c ≠ 0x20 := by rcases hc with h | h <;> (rw [h]; decide)
  have h3 : is_closer c = true := by rcases hc with h | h <;> (rw [h]; decide)
  have h4 : scan_token_byte c (l + 1) = (ScanMode.normal, l) := by
    rcases hc with h | h <;> (rw [h]; rfl)
  rw [indent_ok_line w l (l + 1) hw c _ h2]
  simp only [h3, if_true, Nat.add_sub_cancel, decide_True, Bool.true_and]
  simp only [indent_ok, h4]

theorem to_chars_digits_plain (fuel : Nat) :
    ∀ (v : Nat) (acc : List Byte), (∀ b ∈ acc, plain_byte b = true) →
      ∀ b ∈ to_chars_digits fuel v acc, plain_byte b = true := by
  induction fuel with
  | zero => intro v acc h; exact h
  | succ fuel ih =>
    intro v acc h
    have hd : ∀ d : Nat, d < 10 → plain_byte (Fin.ofNat (48 + d)) = true := by
      intro d hd
      interval_cases d <;> decide
    simp only [to_chars_digits]
    split_ifs with h1
    · intro b hb
      rcases List.mem_cons.mp hb with h2 | h2
      · subst h2; exact hd v h1
      · exact h b h2
    · apply ih
      intro b hb
      rcases List.mem_cons.mp hb with h2 | h2
      · subst h2; exact hd (v % 10) (Nat.mod_lt _ (by norm_num))
      · exact h b h2

theorem to_chars_digits_ne_nil (fuel : Nat) :
    ∀ (v : Nat) (acc : List Byte), to_chars_digits (fuel + 1) v acc ≠ [] := by
  induction fuel with
  | zero =>
    intro v acc
    simp only [to_chars_digits]
    split_ifs <;> simp
  | succ fuel ih =>
    intro v acc
    rw [to_chars_digits]
    split_ifs
    · simp
    · exact ih _ _

theorem to_chars_unsigned_plain (v : Nat) :
    to_chars_unsigned v ≠ [] ∧ ∀ b ∈ to_chars_unsigned v, plain_byte b = true :=
  ⟨to_chars_digits_ne_nil v v [], to_chars_digits_plain _ v [] (fun _ h => by cases h)⟩

theorem to_chars_signed_plain (v : Int) :
    to_chars_signed v ≠ [] ∧ ∀ b ∈ to_chars_signed v, plain_byte b = true := by
  unfold to_chars_signed
  split_ifs
  · refine ⟨by simp, ?_⟩
    intro b hb
    rcases List.mem_cons.mp hb with h2 | h2
    · subst h2; decide
    · exact (to_chars_unsigned_plain _).2 b h2
  · exact to_chars_unsigned_plain _

set_option maxRecDepth 100000 in
theorem plain_starts_line (t : List Byte) (h1 : t ≠ [])
    (h2 : ∀ b ∈ t, plain_byte b = true) :
    ∃ b t', t = b :: t' ∧ b ≠ 0x20 ∧ is_closer b = false := by
  cases t with
  | nil => exact absurd rfl h1
  | cons b t' =>
    have hb := h2 b (List.mem_cons_self b t')
    simp only [plain_byte, Bool.and_eq_true, Bool.not_eq_true', decide_eq_true_eq] at hb
    refine ⟨b, t', rfl, ?_, hb.2⟩
    intro h
    rw [h] at hb
    exact absurd hb.1.1.1 (by decide)

theorem escaped_starts_line (s : List Byte) (ea : Bool) :
    ∃ b t', append_escaped_string [] s ea = b :: t' ∧ b ≠ 0x20 ∧ is_closer b = false := by
  rw [append_escaped_string_eq]
  exact ⟨0x22, _, rfl, by decide, by decide⟩

set_option maxRecDepth 100000 in
/-- The text of a value starts with a byte that is neither a space nor a closer. -/
theorem dump_value_starts_line (lib : StdLib) (opt : FastDumpOptions)
    (hlib : ∀ v, append_double lib [] v ≠ [] ∧
      ∀ b ∈ append_double lib [] v, plain_byte b = true)
    (l : Int) (v : json) :
    ∃ b t', dump_value lib opt l v = b :: t' ∧ b ≠ 0x20 ∧ is_closer b = false := by
  cases v with
  | null => exact ⟨0x6E, _, rfl, by decide, by decide⟩
  | boolean b =>
    cases b
    · exact ⟨0x66, _, rfl, by decide, by decide⟩
    · exact ⟨0x74, _, rfl, by decide, by decide⟩
  | number_integer v =>
    simp only [dump_value]
    exact plain_starts_line _ (to_chars_signed_plain v).1 (to_chars_signed_plain v).2
  | number_unsigned v =>
    simp only [dump_value]
    exact plain_starts_line _ (to_chars_unsigned_plain v).1 (to_chars_unsigned_plain v).2
  | number_float v =>
    simp only [dump_value]
    exact plain_starts_line _ (hlib v).1 (hlib v).2
  | string s =>
    simp only [dump_value]
    exact escaped_starts_line s _
  | binary p =>
    simp only [dump_value]
    exact escaped_starts_line _ _
  | discarded =>
    simp only [dump_value]
    exact escaped_starts_line _ _
  | object obj =>
    cases obj with
    | nil => exact ⟨0x7B, _, rfl, by decide, by decide⟩
    | cons e tl =>
      simp only [dump_value]
      exact ⟨0x7B, _, rfl, by decide, by decide⟩
  | array arr =>
    cases arr with
    | nil => exact ⟨0x5B, _, rfl, by decide, by decide⟩
    | cons e tl =>
      simp only [dump_value]
      exact ⟨0x5B, _, rfl, by decide, by decide⟩

theorem key_gap_pretty (opt : FastDumpOptions) (w : Nat) (hw : 0 < w)
    (hp : opt.pretty = (w : Int)) : key_gap opt = [0x20] := by
  have : (w : Int) ≠ 0 := by omega
  simp [key_gap, hp, this]

theorem indent_ok_colon (w : Nat) (rest : List Byte) (d : Nat) :
    indent_ok w (0x3A :: rest) ScanMode.normal d = indent_ok w rest ScanMode.normal d := rfl

theorem indent_ok_space (w : Nat) (rest : List Byte) (d : Nat) :
    indent_ok w (0x20 :: rest) ScanMode.normal d = indent_ok w rest ScanMode.normal d := rfl

/-- A member started on a fresh line at depth `l + 1` is scanned through,
given that its value is. -/
theorem indent_ok_member (lib : StdLib) (opt : FastDumpOptions) (w l : Nat) (hw : 0 < w)
    (hp : opt.pretty = (w : Int)) (e : entry)
    (hval : ∀ rest, indent_ok w (dump_value lib opt ((l : Int) + 1) e.2 ++ rest)
        ScanMode.normal (l + 1) = indent_ok w rest ScanMode.normal (l + 1))
    (rest : List Byte) :
    indent_ok w (newline_indent w (l + 1) ++ (append_escaped_string [] e.1 opt.ensure_ascii
        ++ 0x3A :: (key_gap opt ++ (dump_value lib opt ((l : Int) + 1) e.2 ++ rest))))
        ScanMode.normal (l + 1)
      = indent_ok w rest ScanMode.normal (l + 1) := by
  rw [indent_ok_line_token w (l + 1) hw _ _ (escaped_starts_line e.1 _), indent_ok_string,
    key_gap_pretty opt w hw hp, indent_ok_colon, List.singleton_append, indent_ok_space, hval]

theorem indent_ok_comma (w : Nat) (rest : List Byte) (d : Nat) :
    indent_ok w (0x2C :: rest) ScanMode.normal d = indent_ok w rest ScanMode.normal d := rfl

/-- The members after the first are scanned through. -/
theorem indent_ok_members (lib : StdLib) (opt : FastDumpOptions) (w l : Nat) (hw : 0 < w)
    (hp : opt.pretty = (w : Int)) :
    ∀ (tl : List entry),
      (∀ e ∈ tl, ∀ rest, indent_ok w (dump_value lib opt ((l : Int) + 1) e.2 ++ rest)
        ScanMode.normal (l + 1) = indent_ok w rest ScanMode.normal (l + 1)) →
      ∀ rest, indent_ok w (dump_members lib opt (l : Int) false tl ++ rest)
        ScanMode.normal (l + 1) = indent_ok w rest ScanMode.normal (l + 1) := by
  intro tl
  induction tl with
  | nil => intro _ rest; rfl
  | cons e tl ih =>
    intro hval rest
    simp only [dump_members, separator, line_break_succ opt w l hp, List.append_assoc,
      List.cons_append, List.nil_append, List.singleton_append, if_true]
    rw [indent_ok_comma,
      indent_ok_member lib opt w l hw hp e (hval e (List.mem_cons_self e tl)),
      ih (fun x hx => hval x (List.mem_cons_of_mem e hx))]

/-- An element started on a fresh line at depth `l + 1` is scanned through,
given that its text is. -/
theorem indent_ok_elem (lib : StdLib) (opt : FastDumpOptions) (w l : Nat) (hw : 0 < w)
    (hlib : ∀ v, append_double lib [] v ≠ [] ∧
      ∀ b ∈ append_double lib [] v, plain_byte b = true)
    (v : json)
    (hval : ∀ rest, indent_ok w (dump_value lib opt ((l : Int) + 1) v ++ rest)
        ScanMode.normal (l + 1) = indent_ok w rest ScanMode.normal (l + 1))
    (rest : List Byte) :
    indent_ok w (newline_indent w (l + 1) ++ (dump_value lib opt ((l : Int) + 1) v ++ rest))
        ScanMode.normal (l + 1)
      = indent_ok w rest ScanMode.normal (l + 1) := by
  rw [indent_ok_line_token w (l + 1) hw _ _ (dump_value_starts_line lib opt hlib _ v), hval]

/-- The elements after the first are scanned through. -/
theorem indent_ok_elems (lib : StdLib) (opt : FastDumpOptions) (w l : Nat) (hw : 0 < w)
    (hp : opt.pretty = (w : Int))
    (hlib : ∀ v, append_double lib [] v ≠ [] ∧
      ∀ b ∈ append_double lib [] v, plain_byte b = true) :
    ∀ (tl : List json),
      (∀ v ∈ tl, ∀ rest, indent_ok w (dump_value lib opt ((l : Int) + 1) v ++ rest)
        ScanMode.normal (l + 1) = indent_ok w rest ScanMode.normal (l + 1)) →
      ∀ rest, indent_ok w (dump_elems lib opt (l : Int) false tl ++ rest)
        ScanMode.normal (l + 1) = indent_ok w rest ScanMode.normal (l + 1) := by
  intro tl
  induction tl with
  | nil => intro _ rest; rfl
  | cons e tl ih =>
    intro hval rest
    simp only [dump_elems, separator, line_break_succ opt w l hp, List.append_assoc,
      List.cons_append, List.nil_append, List.singleton_append, if_true]
    rw [indent_ok_comma,
      indent_ok_elem lib opt w l hw hlib e (hval e (List.mem_cons_self e tl)),
      ih (fun x hx => hval x (List.mem_cons_of_mem e hx))]

theorem indent_ok_opener (w : Nat) (c : Byte) (rest : List Byte) (d : Nat)
    (hc : c = 0x7B ∨ c = 0x5B) :
    indent_ok w (c :: rest) ScanMode.normal d = indent_ok w rest ScanMode.normal (d + 1) := by
  rcases hc with h | h <;> (rw [h]; rfl)

theorem indent_ok_closer (w : Nat) (c : Byte) (rest : List Byte) (d : Nat)
    (hc : c = 0x7D ∨ c = 0x5D) :
    indent_ok w (c :: rest) ScanMode.normal (d + 1) = indent_ok w rest ScanMode.normal d := by
  rcases hc with h | h <;> (rw [h]; rfl)

set_option maxRecDepth 100000 in
/-- The scanner, between tokens at depth `l`, passes over the text of a value
written at level `l` and finds every line of it correctly indented. -/
theorem indent_ok_value (lib : StdLib) (opt : FastDumpOptions) (w : Nat) (hw : 0 < w)
    (hp : opt.pretty = (w : Int))
    (hlib : ∀ v, append_double lib [] v ≠ [] ∧
      ∀ b ∈ append_double lib [] v, plain_byte b = true) :
    ∀ (h : Nat) (v : json), v.height ≤ h → ∀ (l : Nat) (rest : List Byte),
      indent_ok w (dump_value lib opt (l : Int) v ++ rest) ScanMode.normal l
        = indent_ok w rest ScanMode.normal l := by
  have hplain : ∀ (t rest : List Byte) (d : Nat), (∀ b ∈ t, plain_byte b = true) →
      indent_ok w (t ++ rest) ScanMode.normal d = indent_ok w rest ScanMode.normal d :=
    fun t rest d ht => indent_ok_neutral w t rest d (fun b hb => plain_neutral b (ht b hb))
  have hleaf : ∀ (v : json) (l : Nat) (rest : List Byte), v.height = 0 →
      indent_ok w (dump_value lib opt (l : Int) v ++ rest) ScanMode.normal l
        = indent_ok w rest ScanMode.normal l := by
    intro v l rest hv
    cases v with
    | object obj => simp [json.height] at hv
    | array arr => simp [json.height] at hv
    | null => exact hplain (bytes "null") rest l (by decide)
    | boolean b =>
      cases b
      · exact hplain (bytes "false") rest l (by decide)
      · exact hplain (bytes "true") rest l (by decide)
    | number_integer v => exact hplain _ rest l (to_chars_signed_plain v).2
    | number_unsigned v => exact hplain _ rest l (to_chars_unsigned_plain v).2
    | number_float v => exact hplain _ rest l (hlib v).2
    | string s => exact indent_ok_string w _ s rest l
    | binary p => exact indent_ok_string w _ _ rest l
    | discarded => exact indent_ok_string w _ _ rest l
  intro h
  induction h with
  | zero =>
    intro v hv l rest
    exact hleaf v l rest (by omega)
  | succ h ih =>
    intro v hv l rest
    cases v with
    | object obj =>
      cases obj with
      | nil =>
        show indent_ok w (0x7B :: 0x7D :: rest) ScanMode.normal l = _
        rw [indent_ok_opener w _ _ _ (Or.inl rfl), indent_ok_closer w _ _ _ (Or.inl rfl)]
      | cons e tl =>
        have hval : ∀ x ∈ e :: tl, ∀ rest,
            indent_ok w (dump_value lib opt ((l : Int) + 1) x.2 ++ rest)
              ScanMode.normal (l + 1) = indent_ok w rest ScanMode.normal (l + 1) := by
          intro x hx rest
          have := (object_member (e :: tl) x hx).1
          have h5 := ih x.2 (by omega) (l + 1) rest
          simpa using h5
        simp only [dump_value, dump_members, separator, line_break_succ opt w l hp,
          line_break_nat opt w l hp, List.append_assoc, List.cons_append, List.nil_append,
          List.singleton_append, Bool.true_eq_false, if_false]
        rw [indent_ok_opener w _ _ _ (Or.inl rfl),
          indent_ok_member lib opt w l hw hp e (hval e (List.mem_cons_self e tl)),
          indent_ok_members lib opt w l hw hp tl
            (fun x hx => hval x (List.mem_cons_of_mem e hx)),
          indent_ok_line_closer w l hw _ _ (Or.inl rfl)]
    | array arr =>
      cases arr with
      | nil =>
        show indent_ok w (0x5B :: 0x5D :: rest) ScanMode.normal l = _
        rw [indent_ok_opener w _ _ _ (Or.inr rfl), indent_ok_closer w _ _ _ (Or.inr rfl)]
      | cons e tl =>
        have hval : ∀ x ∈ e :: tl, ∀ rest,
            indent_ok w (dump_value lib opt ((l : Int) + 1) x ++ rest)
              ScanMode.normal (l + 1) = indent_ok w rest ScanMode.normal (l + 1) := by
          intro x hx rest
          have := (array_member (e :: tl) x hx).1
          have h5 := ih x (by omega) (l + 1) rest
          simpa using h5
        simp only [dump_value, dump_elems, separator, line_break_succ opt w l hp,
          line_break_nat opt w l hp, List.append_assoc, List.cons_append, List.nil_append,
          List.singleton_append, Bool.true_eq_false, if_false]
        rw [indent_ok_opener w _ _ _ (Or.inr rfl),
          indent_ok_elem lib opt w l hw hlib e (hval e (List.mem_cons_self e tl)),
          indent_ok_elems lib opt w l hw hp hlib tl
            (fun x hx => hval x (List.mem_cons_of_mem e hx)),
          indent_ok_line_closer w l hw _ _ (Or.inr rfl)]
    | null => exact hleaf _ l rest rfl
    | boolean b => exact hleaf _ l rest rfl
    | number_integer v => exact hleaf _ l rest rfl
    | number_unsigned v => exact hleaf _ l rest rfl
    | number_float v => exact hleaf _ l rest rfl
    | string s => exact hleaf _ l rest rfl
    | binary p => exact hleaf _ l rest rfl
    | discarded => exact hleaf _ l rest rfl

/-! ### Runs that leave the scratch list alone -/

theorem fast_dump_of_reaches (lib : StdLib) (j : json) (opt : FastDumpOptions)
    (ok ok2 : List entry) (text : List Byte)
    (h : reaches lib opt (initial j ok) ⟨text, [], ok2⟩) :
    fast_dump lib j opt ok = Outcome.done text := by
  obtain ⟨n, hn⟩ := reaches_done lib opt _ _ ok2 h
  have h1 : loop lib opt (pass_bound j.width j.height + n) (initial j ok)
      = fast_dump lib j opt ok :=
    loop_more_fuel lib opt n _ _ (fast_dump_not_timeout lib j opt ok)
  rw [← h1]
  exact hn _

theorem elems_no_open_object_mem (arr : List json) (h : elems_no_open_object arr = true)
    (v : json) (hv : v ∈ arr) : no_open_object v = true := by
  induction arr with
  | nil => cases hv
  | cons a tl ih =>
    simp only [elems_no_open_object, Bool.and_eq_true] at h
    rcases List.mem_cons.mp hv with h1 | h1
    · subst h1; exact h.1
    · exact ih h.2 h1

/-- In either key order a `VALUE` frame on a value without non-empty object
writes `dump_value` of its node and leaves the rest of the stack and the
scratch list as they were. -/
theorem run_value_flat (lib : StdLib) (opt : FastDumpOptions) :
    ∀ (h : Nat) (v : json), v.height ≤ h → no_open_object v = true →
      ∀ (lvl : Int) (out : List Byte) (stk : List Frame) (ok : List entry),
        reaches lib opt ⟨out, value_frame v lvl :: stk, ok⟩
          ⟨out ++ dump_value lib opt lvl v, stk, ok⟩ := by
  intro h
  induction h with
  | zero =>
    intro v hv _ lvl out stk ok
    cases v with
    | object obj => simp [json.height] at hv
    | array arr => simp [json.height] at hv
    | _ =>
      refine reaches_step lib opt _ out stk ok _ ?_
      simp [iteration, value_frame, visit_value, dump_value, append_literal, append_integer,
        append_uinteger, append_double_append lib out, append_escaped_string_append out]
  | succ h ih =>
    intro v hv hflat lvl out stk ok
    cases v with
    | object obj =>
      cases obj with
      | nil =>
        refine reaches_step lib opt _ out stk ok _ ?_
        simp only [iteration, value_frame, visit_value]
        rw [push_object_empty]
        simp [dump_value]
      | cons e tl => simp [no_open_object] at hflat
    | array arr =>
      cases arr with
      | nil =>
        refine reaches_step lib opt _ out stk ok _ ?_
        simp only [iteration, value_frame, visit_value]
        rw [push_array_empty]
        simp [dump_value]
      | cons e tl =>
        have hstep := push_array_cons opt ⟨out, stk, ok⟩ e tl lvl
        have hit : iteration lib opt (value_frame (json.array (e :: tl)) lvl) ⟨out, stk, ok⟩
            = push_array opt ⟨out, stk, ok⟩ (json.array (e :: tl)) lvl := rfl
        rw [← hit] at hstep
        have h1 := reaches_step lib opt _ out stk ok _ hstep
        have hval : ∀ x ∈ e :: tl, ∀ (lvl : Int) (out : List Byte) (stk : List Frame)
            (ok : List entry), reaches lib opt ⟨out, value_frame x lvl :: stk, ok⟩
              ⟨out ++ dump_value lib opt lvl x, stk, ok⟩ := by
          intro x hx
          have := (array_member (e :: tl) x hx).1
          exact ih x (by omega)
            (elems_no_open_object_mem (e :: tl) (by simpa [no_open_object] using hflat) x hx)
        have h2 := run_elems lib opt (e :: tl) hval (e :: tl) (array_frame (e :: tl) lvl)
          rfl rfl rfl rfl (Nat.zero_le _)
          (out ++ [0x5B] ++ line_break opt (lvl + 1)) stk ok
        have h := reaches_trans lib opt h1 h2
        simpa [dump_value, array_frame, List.append_assoc] using h
    | _ =>
      refine reaches_step lib opt _ out stk ok _ ?_
      simp [iteration, value_frame, visit_value, dump_value, append_literal, append_integer,
        append_uinteger, append_double_append lib out, append_escaped_string_append out]

/-- An ordered `OBJECT` frame writes the entries of `ordered_keys` from its
cursor on and the closer, provided the walk of each of their values writes
`dump_value` and leaves `ordered_keys` as it was. -/
theorem run_ordered_members (lib : StdLib) (opt : FastDumpOptions) (ks : List entry)
    (hval : ∀ e ∈ ks, ∀ (lvl : Int) (out : List Byte) (stk : List Frame),
        reaches lib opt ⟨out, value_frame e.2 lvl :: stk, ks⟩
          ⟨out ++ dump_value lib opt lvl e.2, stk, ks⟩) :
    ∀ (es : List entry) (f : Frame), f.kind = Kind.OBJECT → f.use_ordered = true →
      f.ord_size = ks.length → ks.drop f.ord_idx = es →
        ∀ (out : List Byte) (stk : List Frame),
          reaches lib opt ⟨out, f :: stk, ks⟩
            ⟨out ++ dump_members lib opt f.indent_level f.first es
                ++ line_break opt f.indent_level ++ [0x7D], stk, ks⟩ := by
  intro es
  induction es with
  | nil =>
    intro f hk huo hsize hdrop out stk
    have hge : f.ord_idx ≥ f.ord_size := by
      have := List.drop_eq_nil_iff.mp hdrop
      omega
    have hnr : next_record f ⟨out, stk, ks⟩ = some none := by
      simp [next_record, huo, hge]
    have hstep := visit_object_done opt f ⟨out, stk, ks⟩ hnr
    rw [← iteration_object lib opt f _ hk] at hstep
    have := reaches_step lib opt f out stk ks _ hstep
    simpa [dump_members] using this
  | cons e tl ih =>
    intro f hk huo hsize hdrop out stk
    have hget : ks[f.ord_idx]? = some e := by
      rw [← List.head?_drop, hdrop]
      rfl
    have hlt : f.ord_idx < ks.length := by
      by_contra hcon
      have : ks.drop f.ord_idx = [] := List.drop_eq_nil_iff.mpr (by omega)
      rw [this] at hdrop
      cases hdrop
    have hin : e ∈ ks := List.getElem?_mem hget
    have hdrop2 : ks.drop (f.ord_idx + 1) = tl := by
      have := congrArg List.tail hdrop
      simpa using this
    have hnr : next_record f ⟨out, stk, ks⟩
        = some (some (e.1, e.2, { f with ord_idx := f.ord_idx + 1 })) := by
      have hnge : ¬ f.ord_idx ≥ f.ord_size := by omega
      simp [next_record, huo, hnge, hget]
    have hstep := visit_object_next opt f _ ⟨out, stk, ks⟩ e.1 e.2 hnr
    rw [← iteration_object lib opt f _ hk] at hstep
    have h1 := reaches_step lib opt f out stk ks _ hstep
    have h2 := hval e hin (f.indent_level + 1)
      (out ++ separator opt f.first (f.indent_level + 1)
        ++ append_escaped_string [] e.1 opt.ensure_ascii ++ [0x3A] ++ key_gap opt)
      ({ f with ord_idx := f.ord_idx + 1, first := false } :: stk)
    have h3 := ih { f with ord_idx := f.ord_idx + 1, first := false } hk huo hsize hdrop2
      (out ++ separator opt f.first (f.indent_level + 1)
        ++ append_escaped_string [] e.1 opt.ensure_ascii ++ [0x3A] ++ key_gap opt
        ++ dump_value lib opt (f.indent_level + 1) e.2) stk
    have h := reaches_trans lib opt (reaches_trans lib opt h1 h2) h3
    simpa [dump_members, List.append_assoc] using h

/-- With `sort_keys = true`, an object whose member values contain no
non-empty object is written as the object of its sorted entries. -/
theorem fast_dump_sorted_flat (lib : StdLib) (opt : FastDumpOptions) (obj : List entry)
    (ok : List entry) (hs : opt.sort_keys = true)
    (hflat : ∀ e ∈ obj, no_open_object e.2 = true) :
    fast_dump lib (json.object obj) opt ok
      = Outcome.done (dump_value lib opt 0 (json.object (std_sort obj))) := by
  cases obj with
  | nil => rfl
  | cons e tl =>
    apply fast_dump_of_reaches lib _ opt ok (std_sort (e :: tl))
    have hstep := push_object_cons opt ⟨[], [], ok⟩ e tl 0
    have hit : iteration lib opt (value_frame (json.object (e :: tl)) 0) ⟨[], [], ok⟩
        = push_object opt ⟨[], [], ok⟩ (json.object (e :: tl)) 0 := rfl
    rw [← hit] at hstep
    have h1 := reaches_step lib opt _ [] [] ok _ hstep
    have hval : ∀ x ∈ std_sort (e :: tl), ∀ (lvl : Int) (out : List Byte) (stk : List Frame),
        reaches lib opt ⟨out, value_frame x.2 lvl :: stk, std_sort (e :: tl)⟩
          ⟨out ++ dump_value lib opt lvl x.2, stk, std_sort (e :: tl)⟩ := by
      intro x hx lvl out stk
      exact run_value_flat lib opt _ x.2 (le_refl _)
        (hflat x ((std_sort_mem _ x).mp hx)) lvl out stk _
    have h2 := run_ordered_members lib opt (std_sort (e :: tl)) hval (std_sort (e :: tl))
      { kind := Kind.OBJECT, node := json.object (e :: tl), obj_it := [], use_ordered := true,
        ord_idx := 0, ord_size := (std_sort (e :: tl)).length, idx := 0, size := 0,
        first := true, indent_level := 0 } rfl rfl rfl rfl
      ([] ++ [0x7B] ++ line_break opt (0 + 1)) []
    have hfr : object_frame opt (e :: tl) 0
        = { kind := Kind.OBJECT, node := json.object (e :: tl), obj_it := [],
            use_ordered := true, ord_idx := 0, ord_size := (std_sort (e :: tl)).length,
            idx := 0, size := 0, first := true, indent_level := 0 } := by
      simp [object_frame, hs]
    rw [hfr] at h1
    simp only [hs, if_true] at h1
    have h := reaches_trans lib opt h1 h2
    have hne : std_sort (e :: tl) ≠ [] := by
      intro hnil
      have := std_sort_length (e :: tl)
      rw [hnil] at this
      simp at this
    cases hsorted : std_sort (e :: tl) with
    | nil => exact absurd hsorted hne
    | cons a rest =>
      rw [hsorted] at h
      simpa [initial, push_value_eq, value_frame, dump_value, List.append_assoc] using h

/-- In either key order a value without non-empty object is written as
`dump_value` says. -/
theorem fast_dump_flat (lib : StdLib) (j : json) (opt : FastDumpOptions) (ok : List entry)
    (hflat : no_open_object j = true) :
    fast_dump lib j opt ok = Outcome.done (dump_value lib opt 0 j) := by
  apply fast_dump_of_reaches lib j opt ok ok
  have h := run_value_flat lib opt _ j (le_refl _) hflat 0 [] [] ok
  simpa [initial, push_value_eq] using h

/-- C11: the object `{"a": 1, "b": [2, 3]}` (entries in the order a, b) with
indent width 2 in insertion order is written as `{`, newline, two spaces,
`"a": 1,`, newline, two spaces, `"b": [`, newline, four spaces, `2,`, newline,
four spaces, `3`, newline, two spaces, `]`, newline, `}`. -/
theorem pretty_example_text (lib : StdLib) (ensure_ascii : Bool) (ok : List entry) :
    fast_dump lib
        (json.object [(bytes "a", json.number_integer 1),
          (bytes "b", json.array [json.number_integer 2, json.number_integer 3])])
        { pretty := 2, ensure_ascii := ensure_ascii, sort_keys := false } ok
      = Outcome.done
          (bytes "\x7b\n  \"a\": 1,\n  \"b\": [\n    2,\n    3\n  ]\n\x7d") := by
  rw [fast_dump_unsorted _ _ _ _ rfl]
  cases ensure_ascii <;> rfl

/-- C12: for all options an empty object is written as exactly `{}` and an
empty array as exactly `[]`, at the root and wherever a `VALUE` frame meets one
inside a composite: the pass appends the two bytes and pushes no frame. The
array holding one empty array, with indent width 2, is written as `[`, newline,
two spaces, `[]`, newline, `]`. -/
theorem empty_composites_text (lib : StdLib) (opt : FastDumpOptions) (ok : List entry) :
    fast_dump lib (json.object []) opt ok = Outcome.done [0x7B, 0x7D] ∧
    fast_dump lib (json.array []) opt ok = Outcome.done [0x5B, 0x5D] ∧
    (∀ (level : Int) (st : State),
      iteration lib opt (value_frame (json.object []) level) st
        = some { st with out := st.out ++ [0x7B, 0x7D] }) ∧
    (∀ (level : Int) (st : State),
      iteration lib opt (value_frame (json.array []) level) st
        = some { st with out := st.out ++ [0x5B, 0x5D] }) ∧
    fast_dump lib (json.array [json.array []])
        { pretty := 2, ensure_ascii := opt.ensure_ascii, sort_keys := opt.sort_keys } ok
      = Outcome.done (bytes "[\n  []\n]") := by
  refine ⟨rfl, rfl, fun _ _ => rfl, fun _ _ => rfl, ?_⟩
  rw [fast_dump_flat lib (json.array [json.array []]) _ ok rfl]
  rfl

/-- C13: the object `{"b": 1, "a": 2}` (entries in the order b, a) with
`sort_keys = true` in compact mode is written as `{"a":2,"b":1}`. -/
theorem sorted_example_text (lib : StdLib) (ensure_ascii : Bool) (ok : List entry) :
    fast_dump lib
        (json.object [(bytes "b", json.number_integer 1), (bytes "a", json.number_integer 2)])
        { pretty := 0, ensure_ascii := ensure_ascii, sort_keys := true } ok
      = Outcome.done (bytes "\x7b\"a\":2,\"b\":1\x7d") := by
  rw [fast_dump_sorted_flat _ _ _ _ rfl (by decide)]
  have hsort : std_sort [(bytes "b", json.number_integer 1), (bytes "a", json.number_integer 2)]
      = [(bytes "a", json.number_integer 2), (bytes "b", json.number_integer 1)] := rfl
  rw [hsort]
  cases ensure_ascii <;> rfl

theorem nested_array_flat (n : Nat) : no_open_object (nested_array n) = true := by
  induction n with
  | zero => rfl
  | succ n ih => simp [nested_array, no_open_object, elems_no_open_object, ih]

theorem nested_array_dump (lib : StdLib) (opt : FastDumpOptions) (hp : opt.pretty = 0) :
    ∀ (n : Nat) (level : Int),
      dump_value lib opt level (nested_array n)
        = List.replicate (n + 1) 0x5B ++ List.replicate (n + 1) 0x5D := by
  intro n
  induction n with
  | zero => intro level; rfl
  | succ n ih =>
    intro level
    simp only [nested_array, dump_value, dump_elems, separator, line_break_compact opt _ hp,
      ih, if_false, List.append_nil, List.nil_append, Bool.true_eq_false]
    rw [List.replicate_succ (n := n + 1), List.replicate_succ' (n := n + 1)]
    simp [List.append_assoc]

/-- C14: for every `n ≥ 1`, in compact mode and either key order, the
singly-nested array of depth `n` (the innermost array empty) is written as `n`
opening brackets followed by `n` closing brackets. -/
theorem nested_array_text (lib : StdLib) (n : Nat) (hn : 1 ≤ n) (ensure_ascii sort_keys : Bool)
    (ok : List entry) :
    fast_dump lib (nested_array (n - 1))
        { pretty := 0, ensure_ascii := ensure_ascii, sort_keys := sort_keys } ok
      = Outcome.done (List.replicate n 0x5B ++ List.replicate n 0x5D) := by
  rw [fast_dump_flat _ _ _ _ (nested_array_flat _), nested_array_dump lib _ rfl]
  have : n - 1 + 1 = n := by omega
  rw [this]

/-- C14 at depth 100000. -/
theorem nested_array_text_witness :
    1 ≤ 100000 ∧
    fast_dump lib0 (nested_array (100000 - 1))
        { pretty := 0, ensure_ascii := false, sort_keys := false } []
      = Outcome.done (List.replicate 100000 0x5B ++ List.replicate 100000 0x5D) :=
  ⟨by decide, nested_array_text lib0 100000 (by decide) false false []⟩

set_option maxRecDepth 100000 in
/-- C17: for all options and every payload a binary value is written as
exactly the 10 bytes `"<binary>"` and a discarded value as exactly the 13 bytes
`"<discarded>"`, at the root and wherever a `VALUE` frame meets one: the pass
appends the token and cannot fault. -/
theorem placeholder_tokens (lib : StdLib) (opt : FastDumpOptions) (ok : List entry)
    (payload : List Byte) :
    fast_dump lib (json.binary payload) opt ok = Outcome.done (bytes "\"<binary>\"") ∧
    (bytes "\"<binary>\"").length = 10 ∧
    fast_dump lib json.discarded opt ok = Outcome.done (bytes "\"<discarded>\"") ∧
    (bytes "\"<discarded>\"").length = 13 ∧
    (∀ (level : Int) (st : State),
      iteration lib opt (value_frame (json.binary payload) level) st
        = some { st with out := st.out ++ bytes "\"<binary>\"" }) ∧
    (∀ (level : Int) (st : State),
      iteration lib opt (value_frame json.discarded level) st
        = some { st with out := st.out ++ bytes "\"<discarded>\"" }) := by
  have hb : append_escaped_string [] (bytes "<binary>") false = bytes "\"<binary>\"" := by
    decide
  have hd : append_escaped_string [] (bytes "<discarded>") false = bytes "\"<discarded>\"" := by
    decide
  refine ⟨?_, by decide, ?_, by decide, ?_, ?_⟩
  · show Outcome.done (append_escaped_string [] (bytes "<binary>") false) = _
    rw [hb]
  · show Outcome.done (append_escaped_string [] (bytes "<discarded>") false) = _
    rw [hd]
  · intro level st
    show some (⟨append_escaped_string st.out (bytes "<binary>") false, st.stack,
      st.ordered_keys⟩ : State) = _
    rw [append_escaped_string_append, hb]
  · intro level st
    show some (⟨append_escaped_string st.out (bytes "<discarded>") false, st.stack,
      st.ordered_keys⟩ : State) = _
    rw [append_escaped_string_append, hd]

/-! ### The escaper against the byte-at-a-time reference -/

set_option maxRecDepth 1000000 in
theorem hex_table_digits : ∀ c : Byte,
    HEX.getD ((c.val >>> 4) &&& 0xF) 0 = hex_digit (c.val / 16) ∧
    HEX.getD (c.val &&& 0xF) 0 = hex_digit (c.val % 16) := by
  decide

set_option maxRecDepth 100000 in
theorem escape_one_eq_reference (ea : Bool) (c : Byte) :
    escape_one ea c = reference_escape ea c := by
  have hneed : need_escape c ea = true ↔
      (c < 0x20 ∨ c = 0x22 ∨ c = 0x5C) ∨ (ea = true ∧ 0x80 ≤ c) := by
    unfold need_escape
    split_ifs with h1 h2
    · simp [h1]
    · simp only [true_iff]; exact Or.inr h2
    · simp only [Bool.false_eq_true, false_iff]
      rintro (h | h)
      · exact h1 h
      · exact h2 h
  unfold escape_one reference_escape
  by_cases h1 : c = 0x22
  · subst h1; rfl
  by_cases h2 : c = 0x5C
  · subst h2; rfl
  by_cases h3 : c = 0x08
  · subst h3; cases ea <;> rfl
  by_cases h4 : c = 0x0C
  · subst h4; cases ea <;> rfl
  by_cases h5 : c = 0x0A
  · subst h5; cases ea <;> rfl
  by_cases h6 : c = 0x0D
  · subst h6; cases ea <;> rfl
  by_cases h7 : c = 0x09
  · subst h7; cases ea <;> rfl
  simp only [h1, h2, h3, h4, h5, h6, h7, if_false]
  by_cases hn : need_escape c ea = true
  · have hcond : c < 0x20 ∨ (ea = true ∧ 0x80 ≤ c) := by
      rcases hneed.mp hn with (h | h | h) | h
      · exact Or.inl h
      · exact absurd h h1
      · exact absurd h h2
      · exact Or.inr h
    rw [if_pos hn, if_pos hcond]
    obtain ⟨e1, e2⟩ := hex_table_digits c
    have hu : bytes "\\u00" = [0x5C, 0x75, 0x30, 0x30] := by decide
    simp only [escape_switch, h1, h2, h3, h4, h5, h6, h7, if_false, hu, e1, e2]
    rfl
  · have hcond : ¬ (c < 0x20 ∨ (ea = true ∧ 0x80 ≤ c)) := by
      intro h
      apply hn
      rcases h with h | h
      · exact hneed.mpr (Or.inl (Or.inl h))
      · exact hneed.mpr (Or.inr h)
    rw [if_neg hn, if_neg hcond]

/-- C20: for every byte sequence `s`, either escape mode and any text already
in the buffer, the run-flushing `append_escaped_string` appends exactly a quote,
the concatenation of the byte-at-a-time reference escapes of the bytes of `s`,
and a quote: the `chunk_start` bookkeeping loses and repeats no byte. -/
theorem escaper_refines_reference (out s : List Byte) (ensure_ascii : Bool) :
    append_escaped_string out s ensure_ascii
      = out ++ [0x22] ++ (s.map (reference_escape ensure_ascii)).flatten ++ [0x22] := by
  rw [append_escaped_string_eq]
  have : s.flatMap (escape_one ensure_ascii)
      = (s.map (reference_escape ensure_ascii)).flatten := by
    rw [List.flatMap]
    congr 1
    exact List.map_congr_left (fun c _ => escape_one_eq_reference ensure_ascii c)
  rw [this]

/-! ### Integers -/

theorem digit_val (d : Nat) (hd : d < 10) : (Fin.ofNat (48 + d) : Byte).val = 48 + d := by
  simp only [Fin.ofNat]
  omega

theorem decimal_value_snoc (ds : List Byte) (d : Byte) :
    decimal_value (ds ++ [d]) = 10 * decimal_value ds + (d.val - 0x30) := by
  simp [decimal_value, List.foldl_append]

/-- With enough fuel `to_chars_digits` puts in front of `acc` the minimal
numeral of `v`. -/
theorem to_chars_digits_spec (fuel : Nat) :
    ∀ (v : Nat) (acc : List Byte), v < fuel →
      ∃ ds, to_chars_digits fuel v acc = ds ++ acc ∧ ds ≠ [] ∧
        (∀ b ∈ ds, is_digit b = true) ∧ decimal_value ds = v ∧
        (ds.head? = some 0x30 → v = 0) ∧ (v = 0 → ds = [0x30]) := by
  induction fuel with
  | zero => intro v acc h; omega
  | succ fuel ih =>
    intro v acc hv
    have hdig : ∀ d : Nat, d < 10 → is_digit (Fin.ofNat (48 + d)) = true := by
      intro d hd
      simp only [is_digit, digit_val d hd, decide_eq_true_eq]
      omega
    rw [to_chars_digits]
    split_ifs with h10
    · refine ⟨[Fin.ofNat (48 + v)], rfl, by simp, ?_, ?_, ?_, ?_⟩
      · intro b hb
        simp only [List.mem_singleton] at hb
        rw [hb]; exact hdig v h10
      · simp [decimal_value, digit_val v h10]
      · intro hhead
        simp only [List.head?_cons, Option.some.injEq] at hhead
        have := congrArg Fin.val hhead
        rw [digit_val v h10] at this
        have h48 : ((0x30 : Byte)).val = 48 := rfl
        rw [h48] at this
        omega
      · intro hz; subst hz; rfl
    · have hlt : v / 10 < fuel := by omega
      obtain ⟨ds, h1, h2, h3, h4, h5, _⟩ := ih (v / 10) (Fin.ofNat (48 + v % 10) :: acc) hlt
      have hmod : v % 10 < 10 := Nat.mod_lt _ (by norm_num)
      refine ⟨ds ++ [Fin.ofNat (48 + v % 10)], ?_, by simp, ?_, ?_, ?_, ?_⟩
      · rw [h1]; simp
      · intro b hb
        rcases List.mem_append.mp hb with hb1 | hb1
        · exact h3 b hb1
        · simp only [List.mem_singleton] at hb1
          rw [hb1]; exact hdig _ hmod
      · rw [decimal_value_snoc, h4, digit_val _ hmod]
        omega
      · intro hhead
        have : ds.head? = some 0x30 := by
          cases ds with
          | nil => exact absurd rfl h2
          | cons a t => simpa using hhead
        have := h5 this
        omega
      · intro hz; omega

theorem minimal_of_spec (ds : List Byte) (v : Nat) (h2 : ds ≠ [])
    (h3 : ∀ b ∈ ds, is_digit b = true) (h5 : ds.head? = some 0x30 → v = 0)
    (h6 : v = 0 → ds = [0x30]) : minimal_digits ds = true := by
  simp only [minimal_digits, Bool.and_eq_true, Bool.not_eq_true', List.isEmpty_eq_false,
    List.all_eq_true, Bool.or_eq_true, beq_iff_eq]
  refine ⟨⟨?_, h3⟩, ?_⟩
  · cases ds with
    | nil => exact absurd rfl h2
    | cons a t => simp
  · by_cases hh : ds.head? = some 0x30
    · right
      rw [h6 (h5 hh)]
      rfl
    · left
      simpa using hh

/-- The text of `to_chars_unsigned` is the minimal numeral of `v`. -/
theorem to_chars_unsigned_spec (v : Nat) :
    minimal_digits (to_chars_unsigned v) = true ∧ decimal_value (to_chars_unsigned v) = v := by
  obtain ⟨ds, h1, h2, h3, h4, h5, h6⟩ := to_chars_digits_spec (v + 1) v [] (by omega)
  have : to_chars_unsigned v = ds := by
    unfold to_chars_unsigned
    rw [h1]; simp
  rw [this]
  exact ⟨minimal_of_spec ds v h2 h3 h5 h6, h4⟩

theorem parse_int_digits (ds : List Byte) (h : minimal_digits ds = true) :
    parse_int ds = some (decimal_value ds : Int) := by
  cases ds with
  | nil => simp [minimal_digits] at h
  | cons b t =>
    have hb : is_digit b = true := by
      simp only [minimal_digits, Bool.and_eq_true, List.all_eq_true] at h
      exact h.1.2 b (List.mem_cons_self b t)
    have hne : b ≠ 0x2D := by
      intro hb2
      rw [hb2] at hb
      exact absurd hb (by decide)
    simp [parse_int, hne, h]

theorem parse_int_minus (ds : List Byte) (h : minimal_digits ds = true) :
    parse_int (0x2D :: ds) = some (-(decimal_value ds : Int)) := by
  simp [parse_int, h]

/-- C19: for every signed 64-bit `v` the value `Int(v)` is written as the
minimal decimal numeral of `v`: a `-` exactly when `v < 0`, then the digits of
the absolute value without leading zero (the single digit `0` for zero), and
parsing the text gives back `v`; for every unsigned 64-bit `v` the value
`UInt(v)` is written as its minimal unsigned numeral. -/
theorem integer_text (lib : StdLib) (opt : FastDumpOptions) (ok : List entry) :
    (∀ v : Int, -2 ^ 63 ≤ v → v < 2 ^ 63 →
      ∃ ds, minimal_digits ds = true ∧ decimal_value ds = v.natAbs ∧
        fast_dump lib (json.number_integer v) opt ok
          = Outcome.done (if v < 0 then 0x2D :: ds else ds) ∧
        parse_int (if v < 0 then 0x2D :: ds else ds) = some v) ∧
    (∀ v : Nat, v < 2 ^ 64 →
      ∃ ds, minimal_digits ds = true ∧ decimal_value ds = v ∧
        fast_dump lib (json.number_unsigned v) opt ok = Outcome.done ds ∧
        parse_int ds = some (v : Int)) := by
  constructor
  · intro v _ _
    have hrun : fast_dump lib (json.number_integer v) opt ok
        = Outcome.done (to_chars_signed v) := by
      show Outcome.done (append_integer [] v) = _
      simp [append_integer]
    by_cases hneg : v < 0
    · obtain ⟨h1, h2⟩ := to_chars_unsigned_spec (-v).toNat
      refine ⟨to_chars_unsigned (-v).toNat, h1, ?_, ?_, ?_⟩
      · rw [h2]; omega
      · rw [hrun]; simp [to_chars_signed, hneg]
      · rw [if_pos hneg, parse_int_minus _ h1, h2]
        congr 1
        omega
    · obtain ⟨h1, h2⟩ := to_chars_unsigned_spec v.toNat
      refine ⟨to_chars_unsigned v.toNat, h1, ?_, ?_, ?_⟩
      · rw [h2]; omega
      · rw [hrun]; simp [to_chars_signed, hneg]
      · rw [if_neg hneg, parse_int_digits _ h1, h2]
        congr 1
        omega
  · intro v _
    obtain ⟨h1, h2⟩ := to_chars_unsigned_spec v
    refine ⟨to_chars_unsigned v, h1, h2, ?_, ?_⟩
    · show Outcome.done (append_uinteger [] v) = _
      simp [append_uinteger]
    · rw [parse_int_digits _ h1, h2]

/-- C19 at the least signed and the greatest unsigned 64-bit value. -/
theorem integer_text_witness :
    (-2 ^ 63 ≤ (-9223372036854775808 : Int) ∧ (-9223372036854775808 : Int) < 2 ^ 63 ∧
      ∃ ds, minimal_digits ds = true ∧
        decimal_value ds = (-9223372036854775808 : Int).natAbs ∧
        fast_dump lib0 (json.number_integer (-9223372036854775808)) {} []
          = Outcome.done (if (-9223372036854775808 : Int) < 0 then 0x2D :: ds else ds) ∧
        parse_int (if (-9223372036854775808 : Int) < 0 then 0x2D :: ds else ds)
          = some (-9223372036854775808)) ∧
    (18446744073709551615 < 2 ^ 64 ∧
      ∃ ds, minimal_digits ds = true ∧ decimal_value ds = 18446744073709551615 ∧
        fast_dump lib0 (json.number_unsigned 18446744073709551615) {} [] = Outcome.done ds ∧
        parse_int ds = some ((18446744073709551615 : Nat) : Int)) :=
  ⟨⟨by norm_num, by norm_num,
      (integer_text lib0 {} []).1 (-9223372036854775808) (by norm_num) (by norm_num)⟩,
    ⟨by norm_num, (integer_text lib0 {} []).2 18446744073709551615 (by norm_num)⟩⟩

/-! ### One pass of the loop, all cases -/

/-- What one pass of the loop body does, case by case: a `VALUE` frame writes
a scalar or an empty composite, or opens an object or an array; an `OBJECT` or
`ARRAY` frame closes its composite or moves on to its next member. -/
theorem iteration_cases (lib : StdLib) (opt : FastDumpOptions) (f : Frame) (out : List Byte)
    (rest : List Frame) (ok : List entry) (st : State)
    (h : iteration lib opt f ⟨out, rest, ok⟩ = some st) :
    (f.kind = Kind.VALUE ∧ pushes_nothing f.node ∧
      st = ⟨out ++ dump_value lib opt f.indent_level f.node, rest, ok⟩) ∨
    (f.kind = Kind.VALUE ∧ ∃ e tl, f.node = json.object (e :: tl) ∧
      st = ⟨out ++ [0x7B] ++ line_break opt (f.indent_level + 1),
            object_frame opt (e :: tl) f.indent_level :: rest,
            if opt.sort_keys then std_sort (e :: tl) else ok⟩) ∨
    (f.kind = Kind.VALUE ∧ ∃ e tl, f.node = json.array (e :: tl) ∧
      st = ⟨out ++ [0x5B] ++ line_break opt (f.indent_level + 1),
            array_frame (e :: tl) f.indent_level :: rest, ok⟩) ∨
    (f.kind = Kind.OBJECT ∧ next_record f ⟨out, rest, ok⟩ = some none ∧
      st = ⟨out ++ line_break opt f.indent_level ++ [0x7D], rest, ok⟩) ∨
    (f.kind = Kind.OBJECT ∧ ∃ key val g,
      next_record f ⟨out, rest, ok⟩ = some (some (key, val, g)) ∧
      st = ⟨out ++ separator opt g.first (g.indent_level + 1)
              ++ append_escaped_string [] key opt.ensure_ascii ++ [0x3A] ++ key_gap opt,
            value_frame val (g.indent_level + 1) :: { g with first := false } :: rest, ok⟩) ∨
    (f.kind = Kind.ARRAY ∧ ∃ arr, f.node = json.array arr ∧ f.idx = f.size ∧
      st = ⟨out ++ line_break opt f.indent_level ++ [0x5D], rest, ok⟩) ∨
    (f.kind = Kind.ARRAY ∧ ∃ arr elem, f.node = json.array arr ∧ f.idx ≠ f.size ∧
      arr[f.idx]? = some elem ∧
      st = ⟨out ++ separator opt f.first (f.indent_level + 1),
            value_frame elem (f.indent_level + 1)
              :: { f with first := false, idx := f.idx + 1 } :: rest, ok⟩) := by
  cases hk : f.kind with
  | VALUE =>
    obtain ⟨kind, node, obj_it, uo, oi, os, idx, size, first, lvl⟩ := f
    simp only [] at hk
    subst hk
    simp only [iteration] at h
    cases node with
    | object obj =>
      simp only [visit_value] at h
      cases obj with
      | nil =>
        rw [push_object_empty] at h
        cases h
        left
        exact ⟨rfl, And.intro (fun e tl hc => by cases hc) (fun e tl hc => by cases hc), rfl⟩
      | cons e tl =>
        rw [push_object_cons] at h
        cases h
        right; left
        exact ⟨rfl, e, tl, rfl, rfl⟩
    | array arr =>
      simp only [visit_value] at h
      cases arr with
      | nil =>
        rw [push_array_empty] at h
        cases h
        left
        exact ⟨rfl, And.intro (fun e tl hc => by cases hc) (fun e tl hc => by cases hc), rfl⟩
      | cons e tl =>
        rw [push_array_cons] at h
        cases h
        right; right; left
        exact ⟨rfl, e, tl, rfl, rfl⟩
    | _ =>
      simp only [visit_value] at h
      cases h
      left
      refine ⟨rfl, And.intro (fun e tl hc => by cases hc) (fun e tl hc => by cases hc), ?_⟩
      simp [dump_value, append_literal, append_integer, append_uinteger,
        append_double_append lib out, append_escaped_string_append out]
  | OBJECT =>
    simp only [iteration, hk] at h
    cases hnr : next_record f ⟨out, rest, ok⟩ with
    | none =>
      rw [visit_object_fault _ _ _ hnr] at h
      cases h
    | some r =>
      cases r with
      | none =>
        rw [visit_object_done _ _ _ hnr] at h
        cases h
        right; right; right; left
        exact ⟨rfl, rfl, rfl⟩
      | some t =>
        obtain ⟨key, val, g⟩ := t
        rw [visit_object_next _ _ _ _ _ _ hnr] at h
        cases h
        right; right; right; right; left
        exact ⟨rfl, key, val, g, rfl, rfl⟩
  | ARRAY =>
    obtain ⟨kind, node, obj_it, uo, oi, os, idx, size, first, lvl⟩ := f
    simp only [] at hk
    subst hk
    simp only [iteration] at h
    cases node with
    | array arr =>
      by_cases hend : idx = size
      · rw [visit_array_done opt _ _ arr rfl hend] at h
        cases h
        right; right; right; right; right; left
        exact ⟨rfl, arr, rfl, hend, rfl⟩
      · cases he : arr[idx]? with
        | none =>
          rw [visit_array_fault opt _ _ arr rfl hend he] at h
          cases h
        | some elem =>
          rw [visit_array_next opt _ _ arr elem rfl hend he] at h
          cases h
          right; right; right; right; right; right
          exact ⟨rfl, arr, elem, rfl, hend, he, rfl⟩
    | _ =>
      simp [visit_array] at h

/-! ### Invariants of the frame stack -/

theorem node_inv_pop (Q : json → Prop) (f : Frame) (rest : List Frame) (ok : List entry)
    (h : node_inv Q (f :: rest) ok) : node_inv Q rest ok :=
  ⟨fun g hg => h.1 g (List.mem_cons_of_mem f hg),
    fun ⟨g, hg, hk⟩ => h.2 ⟨g, List.mem_cons_of_mem f hg, hk⟩⟩

/-- One pass of the loop body keeps `node_inv` for a hereditary predicate. -/
theorem iteration_node_inv (lib : StdLib) (opt : FastDumpOptions) (Q : json → Prop)
    (hQ : hereditary Q) (f : Frame) (out : List Byte) (rest : List Frame) (ok : List entry)
    (st : State) (hinv : node_inv Q (f :: rest) ok)
    (h : iteration lib opt f ⟨out, rest, ok⟩ = some st) :
    node_inv Q st.stack st.ordered_keys := by
  have hf := hinv.1 f (List.mem_cons_self f rest)
  have hpop := node_inv_pop Q f rest ok hinv
  have hrest : ∀ g ∈ rest, Q g.node ∧
      (g.kind = Kind.OBJECT → g.use_ordered = false → ∀ e ∈ g.obj_it, Q e.2) :=
    fun g hg => hinv.1 g (List.mem_cons_of_mem f hg)
  rcases iteration_cases lib opt f out rest ok st h with
    ⟨_, _, hst⟩ | ⟨hk, e, tl, hnode, hst⟩ | ⟨hk, e, tl, hnode, hst⟩ | ⟨_, _, hst⟩ |
    ⟨hk, key, val, g, hnr, hst⟩ | ⟨_, _, _, _, hst⟩ | ⟨hk, arr, elem, hnode, _, he, hst⟩
  · subst hst; exact hpop
  · subst hst
    have hobj : ∀ x ∈ e :: tl, Q x.2 := fun x hx => hQ.1 _ x (hnode ▸ hf.1) hx
    cases hs : opt.sort_keys with
    | true =>
      simp only [object_frame, hs, if_true]
      constructor
      · intro x hx
        rcases List.mem_cons.mp hx with h1 | h1
        · subst h1
          exact ⟨hnode ▸ hf.1, fun _ huo => by cases huo⟩
        · exact hrest x h1
      · intro _ x hx
        exact hobj x ((std_sort_mem _ x).mp hx)
    | false =>
      simp only [object_frame, hs, Bool.false_eq_true, if_false]
      constructor
      · intro x hx
        rcases List.mem_cons.mp hx with h1 | h1
        · subst h1
          exact ⟨hnode ▸ hf.1, fun _ _ => hobj⟩
        · exact hrest x h1
      · rintro ⟨x, hx, hxk, hxu⟩
        apply hinv.2
        rcases List.mem_cons.mp hx with h1 | h1
        · subst h1; cases hxu
        · exact ⟨x, List.mem_cons_of_mem f h1, hxk, hxu⟩
  · subst hst
    constructor
    · intro x hx
      rcases List.mem_cons.mp hx with h1 | h1
      · subst h1
        exact ⟨by show Q (json.array (e :: tl)); rw [← hnode]; exact hf.1,
          fun hk2 => by cases hk2⟩
      · exact hrest x h1
    · rintro ⟨x, hx, hxk, hxu⟩
      apply hinv.2
      rcases List.mem_cons.mp hx with h1 | h1
      · subst h1; cases hxk
      · exact ⟨x, List.mem_cons_of_mem f h1, hxk, hxu⟩
  · subst hst; exact hpop
  · subst hst
    have hfacts : Q val ∧ g.node = f.node ∧ g.kind = f.kind ∧
        g.use_ordered = f.use_ordered ∧
        (f.use_ordered = false → ∀ x ∈ g.obj_it, Q x.2) := by
      rcases next_record_spec f g _ key val hnr with ⟨huo, _, hget, hg⟩ | ⟨huo, tl, hit, hg⟩
      · have hin : (key, val) ∈ ok := List.getElem?_mem hget
        have := hinv.2 ⟨f, List.mem_cons_self f rest, hk, huo⟩ (key, val) hin
        subst hg
        exact ⟨this, rfl, rfl, rfl, fun hc => by rw [huo] at hc; cases hc⟩
      · have hall := hf.2 hk huo
        subst hg
        refine ⟨hall (key, val) (by rw [hit]; exact List.mem_cons_self _ _), rfl, rfl, rfl, ?_⟩
        intro _ x hx
        exact hall x (by rw [hit]; exact List.mem_cons_of_mem _ hx)
    obtain ⟨hval, hgn, hgk, hgu, hgit⟩ := hfacts
    constructor
    · intro x hx
      rcases List.mem_cons.mp hx with h1 | h1
      · subst h1
        exact ⟨hval, fun hk2 => by cases hk2⟩
      · rcases List.mem_cons.mp h1 with h2 | h2
        · subst h2
          exact ⟨by show Q g.node; rw [hgn]; exact hf.1,
            fun _ huo => hgit (by rw [← hgu]; exact huo)⟩
        · exact hrest x h2
    · rintro ⟨x, hx, hxk, hxu⟩
      apply hinv.2
      rcases List.mem_cons.mp hx with h1 | h1
      · subst h1; cases hxk
      · rcases List.mem_cons.mp h1 with h2 | h2
        · subst h2
          exact ⟨f, List.mem_cons_self f rest, hk, by rw [← hgu]; exact hxu⟩
        · exact ⟨x, List.mem_cons_of_mem f h2, hxk, hxu⟩
  · subst hst; exact hpop
  · subst hst
    have hin : elem ∈ arr := List.getElem?_mem he
    have hval : Q elem := hQ.2 arr elem (hnode ▸ hf.1) hin
    constructor
    · intro x hx
      rcases List.mem_cons.mp hx with h1 | h1
      · subst h1
        exact ⟨hval, fun hk2 => by cases hk2⟩
      · rcases List.mem_cons.mp h1 with h2 | h2
        · subst h2
          exact ⟨hf.1, fun hk2 => by rw [hk] at hk2; cases hk2⟩
        · exact hrest x h2
    · rintro ⟨x, hx, hxk, hxu⟩
      apply hinv.2
      rcases List.mem_cons.mp hx with h1 | h1
      · subst h1; cases hxk
      · rcases List.mem_cons.mp h1 with h2 | h2
        · subst h2
          rw [hk] at hxk
          cases hxk
        · exact ⟨x, List.mem_cons_of_mem f h2, hxk, hxu⟩

theorem node_inv_initial (Q : json → Prop) (j : json) (ok : List entry) (hj : Q j) :
    node_inv Q (initial j ok).stack (initial j ok).ordered_keys := by
  constructor
  · intro f hf
    have : f = value_frame j 0 := by simpa [initial, push_value_eq] using hf
    subst this
    exact ⟨hj, fun hk => by cases hk⟩
  · rintro ⟨f, hf, hk, _⟩
    have : f = value_frame j 0 := by simpa [initial, push_value_eq] using hf
    subst this
    cases hk

theorem object_frame_fields (opt : FastDumpOptions) (obj : List entry) (level : Int) :
    (object_frame opt obj level).kind = Kind.OBJECT ∧
    (object_frame opt obj level).node = json.object obj ∧
    (object_frame opt obj level).indent_level = level := by
  unfold object_frame
  split_ifs <;> exact ⟨rfl, rfl, rfl⟩

/-- One pass of the loop body keeps the frame levels equal to the stack
positions and the node heights within the height of the root. -/
theorem iteration_levels (lib : StdLib) (opt : FastDumpOptions) (n h : Nat) (f : Frame)
    (out : List Byte) (rest : List Frame) (ok : List entry) (st : State)
    (hok : stack_ok n (f :: rest) ok) (hlev : levels_ok (f :: rest))
    (hdep : depth_ok h (f :: rest))
    (hstep : iteration lib opt f ⟨out, rest, ok⟩ = some st) :
    levels_ok st.stack ∧ depth_ok h st.stack := by
  have hf := hok.1 f (List.mem_cons_self f rest)
  obtain ⟨hl1, hl2⟩ := hlev
  obtain ⟨hd1, hd2⟩ := hdep
  rcases iteration_cases lib opt f out rest ok st hstep with
    ⟨_, _, hst⟩ | ⟨hk, e, tl, hnode, hst⟩ | ⟨hk, e, tl, hnode, hst⟩ | ⟨_, _, hst⟩ |
    ⟨hk, key, val, g, hnr, hst⟩ | ⟨_, _, _, _, hst⟩ | ⟨hk, arr, elem, hnode, _, he, hst⟩
  · subst hst; exact ⟨hl2, hd2⟩
  · subst hst
    obtain ⟨_, h2, h3⟩ := object_frame_fields opt (e :: tl) f.indent_level
    refine ⟨⟨by rw [h3]; exact hl1, hl2⟩, ⟨?_, hd2⟩⟩
    show (object_frame opt (e :: tl) f.indent_level).node.height + rest.length ≤ h
    rw [h2, ← hnode]
    exact hd1
  · subst hst
    refine ⟨⟨hl1, hl2⟩, ⟨?_, hd2⟩⟩
    show (json.array (e :: tl)).height + rest.length ≤ h
    rw [← hnode]
    exact hd1
  · subst hst; exact ⟨hl2, hd2⟩
  · subst hst
    have hfacts : val.height < f.node.height ∧ g.node = f.node ∧
        g.indent_level = f.indent_level := by
      rcases next_record_spec f g _ key val hnr with ⟨huo, _, hget, hg⟩ | ⟨huo, tl, hit, hg⟩
      · have hin : (key, val) ∈ ok := List.getElem?_mem hget
        have := (hf.2.2.2 hk huo (key, val) hin).1
        subst hg
        exact ⟨this, rfl, rfl⟩
      · have := (hf.2.2.1 hk huo (key, val) (by rw [hit]; exact List.mem_cons_self _ _)).1
        subst hg
        exact ⟨this, rfl, rfl⟩
    obtain ⟨hv, hgn, hgl⟩ := hfacts
    refine ⟨⟨?_, ?_, hl2⟩, ⟨?_, ?_, hd2⟩⟩
    · show g.indent_level + 1 = ((List.length (_ :: rest) : Nat) : Int)
      rw [hgl, hl1]
      simp
    · show g.indent_level = (rest.length : Int)
      rw [hgl, hl1]
    · show val.height + (List.length (_ :: rest)) ≤ h
      simp only [List.length_cons]
      omega
    · show g.node.height + rest.length ≤ h
      rw [hgn]
      exact hd1
  · subst hst; exact ⟨hl2, hd2⟩
  · subst hst
    have hin : elem ∈ arr := List.getElem?_mem he
    have hv : elem.height < f.node.height := by
      rw [hnode]
      exact (array_member arr elem hin).1
    refine ⟨⟨?_, ?_, hl2⟩, ⟨?_, ?_, hd2⟩⟩
    · show f.indent_level + 1 = ((List.length (_ :: rest) : Nat) : Int)
      rw [hl1]
      simp
    · exact hl1
    · show elem.height + (List.length (_ :: rest)) ≤ h
      simp only [List.length_cons]
      omega
    · exact hd1

/-- The three stack invariants hold at the start of every pass. -/
theorem run_passes_inv (lib : StdLib) (opt : FastDumpOptions) (n h : Nat) :
    ∀ (k : Nat) (st st2 : State),
      stack_ok n st.stack st.ordered_keys → levels_ok st.stack → depth_ok h st.stack →
      run_passes lib opt k st = some st2 →
      stack_ok n st2.stack st2.ordered_keys ∧ levels_ok st2.stack ∧ depth_ok h st2.stack := by
  intro k
  induction k with
  | zero =>
    intro st st2 h1 h2 h3 hrun
    simp only [run_passes, Option.some.injEq] at hrun
    subst hrun
    exact ⟨h1, h2, h3⟩
  | succ k ih =>
    intro st st2 h1 h2 h3 hrun
    obtain ⟨out, stack, ok⟩ := st
    cases stack with
    | nil => simp [run_passes] at hrun
    | cons f rest =>
      simp only [run_passes] at hrun
      cases hstep : iteration lib opt f ⟨out, rest, ok⟩ with
      | none => simp [hstep] at hrun
      | some st3 =>
        simp only [hstep] at hrun
        have hd := iteration_decreases lib opt n f out rest ok st3 h1 hstep
        have hl := iteration_levels lib opt n h f out rest ok st3 h1 h2 h3 hstep
        exact ih st3 st2 hd.1 hl.1 hl.2 hrun

theorem levels_ok_reverse : ∀ (stack : List Frame), levels_ok stack →
    ∀ (i : Nat) (f : Frame), stack.reverse[i]? = some f → f.indent_level = (i : Int) := by
  intro stack
  induction stack with
  | nil => intro _ i f hf; simp at hf
  | cons g rest ih =>
    intro hl i f hf
    rw [List.reverse_cons] at hf
    by_cases hi : i < rest.length
    · rw [List.getElem?_append_left (by simpa using hi)] at hf
      exact ih hl.2 i f hf
    · rw [List.getElem?_append_right (by simpa using hi), List.length_reverse] at hf
      have hi2 : i - rest.length = 0 := by
        by_contra hne
        rw [List.getElem?_eq_none (by simp only [List.length_singleton]; omega)] at hf
        cases hf
      rw [hi2] at hf
      simp only [List.getElem?_cons_zero, Option.some.injEq] at hf
      subst hf
      rw [hl.1]
      congr 1
      omega

/-- C16: at the start of every pass of the `fast_dump` loop, for every value
tree, all options and any content of the scratch list, the frame at position
`i` of the stack, counted from the bottom starting at 0, has
`indent_level = i`; so the depth of the stack is the `indent_level` of the top
frame plus one, and it never exceeds the nesting height of the root plus one. -/
theorem stack_levels (lib : StdLib) (j : json) (opt : FastDumpOptions) (ok : List entry)
    (k : Nat) (st : State) (hrun : run_passes lib opt k (initial j ok) = some st) :
    (∀ (i : Nat) (f : Frame), st.stack.reverse[i]? = some f → f.indent_level = (i : Int)) ∧
    (∀ (f : Frame) (rest : List Frame), st.stack = f :: rest →
      (st.stack.length : Int) = f.indent_level + 1) ∧
    st.stack.length ≤ j.height + 1 := by
  have h0 := initial_ok j ok
  have hl0 : levels_ok (initial j ok).stack := ⟨rfl, trivial⟩
  have hd0 : depth_ok j.height (initial j ok).stack :=
    ⟨by simp [initial, push_value_eq, value_frame], trivial⟩
  obtain ⟨_, hl, hd⟩ := run_passes_inv lib opt j.width j.height k _ st h0.1 hl0 hd0 hrun
  refine ⟨levels_ok_reverse st.stack hl, ?_, ?_⟩
  · intro f rest hst
    rw [hst] at hl ⊢
    rw [hl.1]
    simp
  · cases hst : st.stack with
    | nil => simp
    | cons f rest =>
      rw [hst] at hd
      have := hd.1
      simp only [List.length_cons]
      omega

/-- C16 after two passes on `[[1]]`: the stack holds the frame of the outer
array at level 0 and, on top, the `VALUE` frame of the inner array at level 1. -/
theorem stack_levels_witness :
    run_passes lib0 {} 2 (initial (json.array [json.array [json.number_integer 1]]) [])
      = some ⟨[0x5B],
          [value_frame (json.array [json.number_integer 1]) 1,
           { kind := Kind.ARRAY, node := json.array [json.array [json.number_integer 1]],
             obj_it := [], use_ordered := false, ord_idx := 0, ord_size := 0, idx := 1,
             size := 1, first := false, indent_level := 0 }], []⟩ ∧
    (∀ (i : Nat) (f : Frame),
      [value_frame (json.array [json.number_integer 1]) 1,
        ({ kind := Kind.ARRAY, node := json.array [json.array [json.number_integer 1]],
           obj_it := [], use_ordered := false, ord_idx := 0, ord_size := 0, idx := 1,
           size := 1, first := false, indent_level := 0 } : Frame)].reverse[i]? = some f →
      f.indent_level = (i : Int)) :=
  have hrun : run_passes lib0 {} 2
      (initial (json.array [json.array [json.number_integer 1]]) [])
      = some ⟨[0x5B],
          [value_frame (json.array [json.number_integer 1]) 1,
           { kind := Kind.ARRAY, node := json.array [json.array [json.number_integer 1]],
             obj_it := [], use_ordered := false, ord_idx := 0, ord_size := 0, idx := 1,
             size := 1, first := false, indent_level := 0 }], []⟩ := rfl
  ⟨hrun, (stack_levels lib0 _ {} [] 2 _ hrun).1⟩

/-! ### Structural validity of the text -/

theorem json_scan_append (a : List Byte) :
    ∀ (b : List Byte) (m : ScanMode) (bs : List Delim),
      json_scan (a ++ b) m bs =
        match json_scan a m bs with
        | none => none
        | some s => json_scan b s.1 s.2 := by
  induction a with
  | nil => intro b m bs; rfl
  | cons x a ih =>
    intro b m bs
    cases m with
    | normal =>
      simp only [List.cons_append, json_scan]
      split_ifs
      · exact ih _ _ _
      · exact ih _ _ _
      · exact ih _ _ _
      · cases bs with
        | nil => rfl
        | cons t below =>
          cases t
          · exact ih _ _ _
          · rfl
      · cases bs with
        | nil => rfl
        | cons t below =>
          cases t
          · rfl
          · exact ih _ _ _
      · exact ih _ _ _
    | in_string =>
      simp only [List.cons_append, json_scan]
      split_ifs
      · rfl
      · exact ih _ _ _
      · exact ih _ _ _
      · exact ih _ _ _
    | in_escape =>
      simp only [List.cons_append, json_scan]
      split_ifs
      · rfl
      · exact ih _ _ _
    | indent n => rfl

theorem json_scan_then (a b : List Byte) (m m2 : ScanMode) (bs bs2 : List Delim)
    (h : json_scan a m bs = some (m2, bs2)) :
    json_scan (a ++ b) m bs = json_scan b m2 bs2 := by
  rw [json_scan_append, h]

theorem json_scan_inert (t : List Byte) (bs : List Delim) (h : ∀ b ∈ t, inert b) :
    json_scan t ScanMode.normal bs = some (ScanMode.normal, bs) := by
  induction t with
  | nil => rfl
  | cons b t ih =>
    obtain ⟨h1, h2, h3, h4, h5⟩ := h b (List.mem_cons_self b t)
    simp only [json_scan, h1, h2, h3, h4, h5, if_false]
    exact ih (fun x hx => h x (List.mem_cons_of_mem b hx))

set_option maxRecDepth 100000 in
theorem plain_inert (b : Byte) (h : plain_byte b = true) : inert b := by
  simp only [plain_byte, is_opener, is_closer, Bool.and_eq_true, Bool.not_eq_true',
    decide_eq_true_eq, beq_eq_false_iff_ne, Bool.or_eq_false_iff] at h
  obtain ⟨⟨⟨_, h2⟩, h3, h4⟩, h5, h6⟩ := h
  exact ⟨h2, h3, h4, h5, h6⟩

theorem json_scan_in_string (b : Byte) (bs : List Delim)
    (h1 : 0x20 ≤ b) (h2 : b ≠ 0x5C) (h3 : b ≠ 0x22) :
    json_scan [b] ScanMode.in_string bs = some (ScanMode.in_string, bs) := by
  have : ¬ b < 0x20 := not_lt.mpr h1
  simp [json_scan, this, h2, h3]

theorem json_scan_escape_pair (e : Byte) (bs : List Delim) (h1 : 0x20 ≤ e) :
    json_scan [0x5C, e] ScanMode.in_string bs = some (ScanMode.in_string, bs) := by
  have : ¬ e < 0x20 := not_lt.mpr h1
  simp [json_scan, this]

set_option maxRecDepth 100000 in
/-- Inside a string token the tokenizer passes over the escape of any byte. -/
theorem json_scan_escape_one (ea : Bool) (c : Byte) (bs : List Delim) :
    json_scan (escape_one ea c) ScanMode.in_string bs = some (ScanMode.in_string, bs) := by
  unfold escape_one
  split_ifs with hne
  · unfold escape_switch
    split_ifs
    · exact json_scan_escape_pair 0x22 bs (by decide)
    · exact json_scan_escape_pair 0x5C bs (by decide)
    · exact json_scan_escape_pair 0x62 bs (by decide)
    · exact json_scan_escape_pair 0x66 bs (by decide)
    · exact json_scan_escape_pair 0x6E bs (by decide)
    · exact json_scan_escape_pair 0x72 bs (by decide)
    · exact json_scan_escape_pair 0x74 bs (by decide)
    · have h1 : (c.val >>> 4) &&& 0xF < 16 := Nat.lt_succ_of_le Nat.and_le_right
      have h2 : c.val &&& 0xF < 16 := Nat.lt_succ_of_le Nat.and_le_right
      have d1 := hex_digit_range ⟨_, h1⟩
      have d2 := hex_digit_range ⟨_, h2⟩
      have hd : ∀ x : Byte, 0x30 ≤ x → x ≤ 0x46 → 0x20 ≤ x ∧ x ≠ 0x5C ∧ x ≠ 0x22 := by
        decide
      have e1 := hd _ d1.1 d1.2
      have e2 := hd _ d2.1 d2.2
      have hu : bytes "\\u00" = [0x5C, 0x75] ++ ([0x30] ++ [0x30]) := by decide
      simp only [hu, List.nil_append, List.append_assoc]
      rw [json_scan_then _ _ _ _ _ _ (json_scan_escape_pair 0x75 bs (by decide)),
        json_scan_then _ _ _ _ _ _
          (json_scan_in_string 0x30 bs (by decide) (by decide) (by decide)),
        json_scan_then _ _ _ _ _ _
          (json_scan_in_string 0x30 bs (by decide) (by decide) (by decide)),
        json_scan_then _ _ _ _ _ _ (json_scan_in_string _ bs e1.1 e1.2.1 e1.2.2)]
      exact json_scan_in_string _ bs e2.1 e2.2.1 e2.2.2
  · have hf := need_escape_false c ea (by simpa using hne)
    exact json_scan_in_string c bs hf.1 hf.2.2.1 hf.2.1

/-- The tokenizer reads a whole escaped string token and is back between
tokens. -/
theorem json_scan_string (ea : Bool) (s : List Byte) (bs : List Delim) :
    json_scan (append_escaped_string [] s ea) ScanMode.normal bs
      = some (ScanMode.normal, bs) := by
  rw [append_escaped_string_eq]
  have hbody : ∀ (s : List Byte),
      json_scan (s.flatMap (escape_one ea)) ScanMode.in_string bs
        = some (ScanMode.in_string, bs) := by
    intro s
    induction s with
    | nil => rfl
    | cons c s ih =>
      rw [List.flatMap_cons, json_scan_then _ _ _ _ _ _ (json_scan_escape_one ea c bs)]
      exact ih
  have hopen : json_scan [0x22] ScanMode.normal bs = some (ScanMode.in_string, bs) := rfl
  have hclose : json_scan [0x22] ScanMode.in_string bs = some (ScanMode.normal, bs) := rfl
  simp only [List.nil_append, List.append_assoc]
  rw [json_scan_then _ _ _ _ _ _ hopen, json_scan_then _ _ _ _ _ _ (hbody s)]
  exact hclose

theorem entries_float_free_mem (obj : List entry) (h : entries_float_free obj = true)
    (e : entry) (he : e ∈ obj) : float_free e.2 = true := by
  induction obj with
  | nil => cases he
  | cons a tl ih =>
    simp only [entries_float_free, Bool.and_eq_true] at h
    rcases List.mem_cons.mp he with h1 | h1
    · subst h1; exact h.1
    · exact ih h.2 h1

theorem elems_float_free_mem (arr : List json) (h : elems_float_free arr = true)
    (v : json) (hv : v ∈ arr) : float_free v = true := by
  induction arr with
  | nil => cases hv
  | cons a tl ih =>
    simp only [elems_float_free, Bool.and_eq_true] at h
    rcases List.mem_cons.mp hv with h1 | h1
    · subst h1; exact h.1
    · exact ih h.2 h1

theorem float_free_hereditary : hereditary (fun v => float_free v = true) :=
  ⟨fun obj e h he => entries_float_free_mem obj (by simpa [float_free] using h) e he,
    fun arr v h hv => elems_float_free_mem arr (by simpa [float_free] using h) v hv⟩

theorem line_break_inert (opt : FastDumpOptions) (l : Int) :
    ∀ b ∈ line_break opt l, inert b := by
  intro b hb
  rcases line_break_bytes opt l b hb with h | h <;>
    (rw [h]; exact ⟨by decide, by decide, by decide, by decide, by decide⟩)

theorem separator_inert (opt : FastDumpOptions) (first : Bool) (l : Int) :
    ∀ b ∈ separator opt first l, inert b := by
  intro b hb
  unfold separator at hb
  split_ifs at hb
  · rcases List.mem_cons.mp hb with h | h
    · rw [h]; exact ⟨by decide, by decide, by decide, by decide, by decide⟩
    · exact line_break_inert opt l b h
  · cases hb

theorem key_gap_inert (opt : FastDumpOptions) : ∀ b ∈ key_gap opt, inert b := by
  intro b hb
  unfold key_gap at hb
  split_ifs at hb
  · simp only [List.mem_singleton] at hb
    rw [hb]; exact ⟨by decide, by decide, by decide, by decide, by decide⟩
  · cases hb

set_option maxRecDepth 100000 in
/-- The tokenizer reads the text of a scalar without floating point, or of an
empty composite, and is back between tokens with the same open brackets. -/
theorem json_scan_leaf (lib : StdLib) (opt : FastDumpOptions) (l : Int) (v : json)
    (bs : List Delim) (hp : pushes_nothing v) (hf : float_free v = true) :
    json_scan (dump_value lib opt l v) ScanMode.normal bs = some (ScanMode.normal, bs) := by
  have hplain : ∀ t : List Byte, (∀ b ∈ t, plain_byte b = true) →
      json_scan t ScanMode.normal bs = some (ScanMode.normal, bs) :=
    fun t ht => json_scan_inert t bs (fun b hb => plain_inert b (ht b hb))
  cases v with
  | null => exact hplain (bytes "null") (by decide)
  | boolean b =>
    cases b
    · exact hplain (bytes "false") (by decide)
    · exact hplain (bytes "true") (by decide)
  | number_integer v => exact hplain _ (to_chars_signed_plain v).2
  | number_unsigned v => exact hplain _ (to_chars_unsigned_plain v).2
  | number_float v => simp [float_free] at hf
  | string s => exact json_scan_string _ s bs
  | binary p => exact json_scan_string _ _ bs
  | discarded => exact json_scan_string _ _ bs
  | object obj =>
    cases obj with
    | nil => rfl
    | cons e tl => exact absurd rfl (hp.1 e tl)
  | array arr =>
    cases arr with
    | nil => rfl
    | cons e tl => exact absurd rfl (hp.2 e tl)

/-- One pass of the loop body keeps the text readable by the tokenizer, with
the open brackets those of the frames on the stack. -/
theorem iteration_structure (lib : StdLib) (opt : FastDumpOptions) (f : Frame)
    (out : List Byte) (rest : List Frame) (ok : List entry) (st : State)
    (hfloat : float_free f.node = true)
    (hscan : json_scan out ScanMode.normal []
      = some (ScanMode.normal, open_brackets (f :: rest)))
    (hstep : iteration lib opt f ⟨out, rest, ok⟩ = some st) :
    json_scan st.out ScanMode.normal [] = some (ScanMode.normal, open_brackets st.stack) := by
  have hopen_v : f.kind = Kind.VALUE → open_brackets (f :: rest) = open_brackets rest := by
    intro hk; simp [open_brackets, hk]
  have hopen_o : f.kind = Kind.OBJECT →
      open_brackets (f :: rest) = Delim.curly :: open_brackets rest := by
    intro hk; simp [open_brackets, hk]
  have hopen_a : f.kind = Kind.ARRAY →
      open_brackets (f :: rest) = Delim.square :: open_brackets rest := by
    intro hk; simp [open_brackets, hk]
  have hcurly : ∀ bs : List Delim, json_scan [0x7B] ScanMode.normal bs
      = some (ScanMode.normal, Delim.curly :: bs) := fun _ => rfl
  have hsquare : ∀ bs : List Delim, json_scan [0x5B] ScanMode.normal bs
      = some (ScanMode.normal, Delim.square :: bs) := fun _ => rfl
  have hcolon : ∀ bs : List Delim, json_scan [0x3A] ScanMode.normal bs
      = some (ScanMode.normal, bs) := fun _ => rfl
  rcases iteration_cases lib opt f out rest ok st hstep with
    ⟨hk, hp, hst⟩ | ⟨hk, e, tl, hnode, hst⟩ | ⟨hk, e, tl, hnode, hst⟩ | ⟨hk, _, hst⟩ |
    ⟨hk, key, val, g, hnr, hst⟩ | ⟨hk, _, _, _, hst⟩ | ⟨hk, arr, elem, hnode, _, he, hst⟩
  · subst hst
    show json_scan (out ++ _) _ _ = some (ScanMode.normal, open_brackets rest)
    rw [json_scan_then _ _ _ _ _ _ hscan, hopen_v hk]
    exact json_scan_leaf lib opt _ _ _ hp hfloat
  · subst hst
    have hkind := (object_frame_fields opt (e :: tl) f.indent_level).1
    show json_scan (out ++ [0x7B] ++ _) _ _
      = some (ScanMode.normal, open_brackets (object_frame opt (e :: tl) f.indent_level :: rest))
    have hob : open_brackets (object_frame opt (e :: tl) f.indent_level :: rest)
        = Delim.curly :: open_brackets rest := by
      simp [open_brackets, hkind]
    rw [hob, List.append_assoc, json_scan_then _ _ _ _ _ _ hscan, hopen_v hk,
      json_scan_then _ _ _ _ _ _ (hcurly _)]
    exact json_scan_inert _ _ (line_break_inert opt _)
  · subst hst
    show json_scan (out ++ [0x5B] ++ _) _ _
      = some (ScanMode.normal, open_brackets (array_frame (e :: tl) f.indent_level :: rest))
    have hob : open_brackets (array_frame (e :: tl) f.indent_level :: rest)
        = Delim.square :: open_brackets rest := by
      simp [open_brackets, array_frame]
    rw [hob, List.append_assoc, json_scan_then _ _ _ _ _ _ hscan, hopen_v hk,
      json_scan_then _ _ _ _ _ _ (hsquare _)]
    exact json_scan_inert _ _ (line_break_inert opt _)
  · subst hst
    show json_scan (out ++ _ ++ [0x7D]) _ _ = some (ScanMode.normal, open_brackets rest)
    rw [List.append_assoc, json_scan_then _ _ _ _ _ _ hscan, hopen_o hk,
      json_scan_then _ _ _ _ _ _ (json_scan_inert _ _ (line_break_inert opt _))]
    rfl
  · subst hst
    have hgk : g.kind = Kind.OBJECT := by
      rcases next_record_spec f g _ key val hnr with ⟨_, _, _, hg⟩ | ⟨_, _, _, hg⟩ <;>
        (subst hg; exact hk)
    show json_scan (out ++ _ ++ _ ++ [0x3A] ++ _) _ _
      = some (ScanMode.normal,
          open_brackets (value_frame val (g.indent_level + 1) :: { g with first := false } :: rest))
    have hob : open_brackets
        (value_frame val (g.indent_level + 1) :: { g with first := false } :: rest)
        = Delim.curly :: open_brackets rest := by
      simp [open_brackets, value_frame, hgk]
    rw [hob]
    simp only [List.append_assoc]
    rw [json_scan_then _ _ _ _ _ _ hscan, hopen_o hk,
      json_scan_then _ _ _ _ _ _ (json_scan_inert _ _ (separator_inert opt _ _)),
      json_scan_then _ _ _ _ _ _ (json_scan_string _ key _),
      json_scan_then _ _ _ _ _ _ (hcolon _)]
    exact json_scan_inert _ _ (key_gap_inert opt)
  · subst hst
    show json_scan (out ++ _ ++ [0x5D]) _ _ = some (ScanMode.normal, open_brackets rest)
    rw [List.append_assoc, json_scan_then _ _ _ _ _ _ hscan, hopen_a hk,
      json_scan_then _ _ _ _ _ _ (json_scan_inert _ _ (line_break_inert opt _))]
    rfl
  · subst hst
    show json_scan (out ++ _) _ _
      = some (ScanMode.normal,
          open_brackets (value_frame elem (f.indent_level + 1)
            :: { f with first := false, idx := f.idx + 1 } :: rest))
    have hob : open_brackets (value_frame elem (f.indent_level + 1)
        :: { f with first := false, idx := f.idx + 1 } :: rest)
        = Delim.square :: open_brackets rest := by
      simp [open_brackets, value_frame, hk]
    rw [hob, json_scan_then _ _ _ _ _ _ hscan, hopen_a hk]
    exact json_scan_inert _ _ (separator_inert opt _ _)

/-- A run on values without floating point that returns a text returns a
structurally valid one. -/
theorem loop_structure (lib : StdLib) (opt : FastDumpOptions) :
    ∀ (fuel : Nat) (st : State) (text : List Byte),
      node_inv (fun v => float_free v = true) st.stack st.ordered_keys →
      json_scan st.out ScanMode.normal [] = some (ScanMode.normal, open_brackets st.stack) →
      loop lib opt fuel st = Outcome.done text →
      json_scan text ScanMode.normal [] = some (ScanMode.normal, []) := by
  intro fuel
  induction fuel with
  | zero =>
    intro st text _ hscan hrun
    obtain ⟨out, stack, ok⟩ := st
    cases stack with
    | nil =>
      rw [loop_nil] at hrun
      cases hrun
      exact hscan
    | cons f rest =>
      rw [loop_zero] at hrun
      cases hrun
  | succ fuel ih =>
    intro st text hinv hscan hrun
    obtain ⟨out, stack, ok⟩ := st
    cases stack with
    | nil =>
      rw [loop_nil] at hrun
      cases hrun
      exact hscan
    | cons f rest =>
      rw [loop_succ] at hrun
      cases hstep : iteration lib opt f ⟨out, rest, ok⟩ with
      | none =>
        rw [hstep] at hrun
        cases hrun
      | some st2 =>
        rw [hstep] at hrun
        have h1 := iteration_node_inv lib opt _ float_free_hereditary f out rest ok st2
          hinv hstep
        have h2 := iteration_structure lib opt f out rest ok st2
          (hinv.1 f (List.mem_cons_self f rest)).1 hscan hstep
        exact ih st2 text h1 h2 hrun

/-- C15: for every value tree without floating-point leaf, all options (either
key order, any indent width, either escape mode) and any content of the scratch
list, the run of `fast_dump` ends, and the text it returns is structurally
valid: read by a JSON tokenizer, every string token is opened and closed by an
unescaped quote and holds no raw control byte, and outside string tokens every
closer matches the most recent unclosed opener and the whole text closes them
all. With `sort_keys = false` and `pretty * (height + 1) < 2 ^ 31`, the range
in which the 32-bit product of `indent_if_needed` does not overflow, a text is
always returned; with `sort_keys = true` the run can instead end in the
out-of-bounds read of `ordered_keys`, and then no text is returned. -/
theorem output_structurally_valid (lib : StdLib) (j : json) (opt : FastDumpOptions)
    (ok : List entry) (hj : float_free j = true) :
    ((∃ text, fast_dump lib j opt ok = Outcome.done text ∧ structurally_valid text = true) ∨
      fast_dump lib j opt ok = Outcome.fault) ∧
    (opt.sort_keys = false → opt.pretty * ((j.height : Int) + 1) < 2 ^ 31 →
      ∃ text, fast_dump lib j opt ok = Outcome.done text ∧ structurally_valid text = true) := by
  have hvalid : ∀ text, fast_dump lib j opt ok = Outcome.done text →
      structurally_valid text = true := by
    intro text hrun
    have h := loop_structure lib opt _ (initial j ok) text
      (node_inv_initial (fun v => float_free v = true) j ok hj) rfl hrun
    simp [structurally_valid, h]
  constructor
  · cases hr : fast_dump lib j opt ok with
    | done text => exact Or.inl ⟨text, rfl, hvalid text hr⟩
    | fault => exact Or.inr rfl
    | timeout => exact absurd hr (fast_dump_not_timeout lib j opt ok)
  · intro hs _
    have hrun := fast_dump_unsorted lib j opt ok hs
    exact ⟨_, hrun, hvalid _ hrun⟩

/-- C15 at `{"a": 1, "b": [2, 3]}` with indent width 2. -/
theorem output_structurally_valid_witness :
    float_free (json.object [(bytes "a", json.number_integer 1),
        (bytes "b", json.array [json.number_integer 2, json.number_integer 3])]) = true ∧
    fast_dump lib0 (json.object [(bytes "a", json.number_integer 1),
        (bytes "b", json.array [json.number_integer 2, json.number_integer 3])])
        { pretty := 2 } []
      = Outcome.done (bytes "\x7b\n  \"a\": 1,\n  \"b\": [\n    2,\n    3\n  ]\n\x7d") ∧
    structurally_valid (bytes "\x7b\n  \"a\": 1,\n  \"b\": [\n    2,\n    3\n  ]\n\x7d")
      = true :=
  have hrun : fast_dump lib0 (json.object [(bytes "a", json.number_integer 1),
        (bytes "b", json.array [json.number_integer 2, json.number_integer 3])])
        { pretty := 2 } []
      = Outcome.done (bytes "\x7b\n  \"a\": 1,\n  \"b\": [\n    2,\n    3\n  ]\n\x7d") := by
    decide
  have hfree : float_free (json.object [(bytes "a", json.number_integer 1),
      (bytes "b", json.array [json.number_integer 2, json.number_integer 3])]) = true := rfl
  have h := (output_structurally_valid lib0 _ { pretty := 2 } [] hfree).2 rfl (by decide)
  ⟨hfree, hrun, by
    obtain ⟨text, h1, h2⟩ := h
    rw [hrun] at h1
    cases h1
    exact h2⟩

/-! ### Sorted output and the order of entries -/

theorem same_elems_refl : ∀ l : List json, same_elems l l
  | [] => same_elems.nil
  | v :: tl => same_elems.cons v v tl tl (same_value.refl v) (same_elems_refl tl)

theorem same_entries_refl : ∀ l : List entry, same_entries l l
  | [] => same_entries.nil
  | (k, v) :: tl => same_entries.cons k v v tl tl (same_value.refl v) (same_entries_refl tl)

theorem same_frame_refl (f : Frame) : same_frame f f :=
  ⟨rfl, same_value.refl _, same_entries_refl _, rfl, rfl, rfl, rfl, rfl, rfl, rfl⟩

theorem same_entries_keys (l : List entry) : ∀ l2, same_entries l l2 →
    l.map Prod.fst = l2.map Prod.fst := by
  induction l with
  | nil => intro l2 h; cases h; rfl
  | cons a tl ih =>
    intro l2 h
    cases h with
    | cons k v v2 tl tl2 h1 h2 =>
      simp only [List.map_cons]
      rw [ih _ h2]

theorem same_entries_length (l l2 : List entry) (h : same_entries l l2) :
    l.length = l2.length := by
  have := congrArg List.length (same_entries_keys l l2 h)
  simpa using this

theorem same_elems_length (l : List json) : ∀ l2, same_elems l l2 → l.length = l2.length := by
  induction l with
  | nil => intro l2 h; cases h; rfl
  | cons a tl ih =>
    intro l2 h
    cases h with
    | cons v v2 tl tl2 h1 h2 =>
      simp only [List.length_cons]
      rw [ih _ h2]

theorem same_entries_get (l : List entry) : ∀ (l2 : List entry) (i : Nat), same_entries l l2 →
    (l[i]? = none ∧ l2[i]? = none) ∨
    ∃ k v v2, l[i]? = some (k, v) ∧ l2[i]? = some (k, v2) ∧ same_value v v2 := by
  induction l with
  | nil => intro l2 i h; cases h; exact Or.inl ⟨rfl, rfl⟩
  | cons a tl ih =>
    intro l2 i h
    cases h with
    | cons k v v2 tl tl2 h1 h2 =>
      cases i with
      | zero => exact Or.inr ⟨k, v, v2, by simp, by simp, h1⟩
      | succ i =>
        simp only [List.getElem?_cons_succ]
        exact ih tl2 i h2

theorem same_elems_get (l : List json) : ∀ (l2 : List json) (i : Nat), same_elems l l2 →
    (l[i]? = none ∧ l2[i]? = none) ∨
    ∃ v v2, l[i]? = some v ∧ l2[i]? = some v2 ∧ same_value v v2 := by
  induction l with
  | nil => intro l2 i h; cases h; exact Or.inl ⟨rfl, rfl⟩
  | cons a tl ih =>
    intro l2 i h
    cases h with
    | cons v v2 tl tl2 h1 h2 =>
      cases i with
      | zero => exact Or.inr ⟨a, v2, by simp, by simp, h1⟩
      | succ i =>
        simp only [List.getElem?_cons_succ]
        exact ih tl2 i h2

theorem same_entries_insert (k : List Byte) (v v2 : json) (hv : same_value v v2)
    (l : List entry) : ∀ l2, same_entries l l2 →
      same_entries (List.orderedInsert key_le (k, v) l)
        (List.orderedInsert key_le (k, v2) l2) := by
  induction l with
  | nil =>
    intro l2 h
    cases h
    exact same_entries.cons k v v2 [] [] hv same_entries.nil
  | cons a tl ih =>
    intro l2 h
    cases h with
    | cons k1 w w2 tl tl2 h1 h2 =>
      simp only [List.orderedInsert]
      have hiff : key_le (k, v) (k1, w) ↔ key_le (k, v2) (k1, w2) := Iff.rfl
      by_cases hle : key_le (k, v) (k1, w)
      · rw [if_pos hle, if_pos (hiff.mp hle)]
        exact same_entries.cons k v v2 _ _ hv (same_entries.cons k1 w w2 tl tl2 h1 h2)
      · rw [if_neg hle, if_neg (fun hc => hle (hiff.mpr hc))]
        exact same_entries.cons k1 w w2 _ _ h1 (ih tl2 h2)

/-- Sorting keeps two lists of entries `same_entries`. -/
theorem same_entries_sort (l : List entry) : ∀ l2, same_entries l l2 →
    same_entries (std_sort l) (std_sort l2) := by
  induction l with
  | nil => intro l2 h; cases h; exact same_entries.nil
  | cons a tl ih =>
    intro l2 h
    cases h with
    | cons k v v2 tl tl2 h1 h2 =>
      simp only [std_sort, List.insertionSort]
      exact same_entries_insert k v v2 h1 _ _ (ih tl2 h2)

theorem key_le_total : IsTotal entry key_le := ⟨fun a b => le_total a.1 b.1⟩

theorem key_le_trans : IsTrans entry key_le := ⟨fun _ _ _ h1 h2 => le_trans h1 h2⟩

theorem key_lt_antisymm : IsAntisymm entry key_lt :=
  ⟨fun a b h1 h2 => absurd h2 (lt_asymm (show a.1 < b.1 from h1))⟩

theorem std_sort_strict (l : List entry) (hl : (l.map Prod.fst).Nodup) :
    List.Sorted key_lt (std_sort l) := by
  haveI := key_le_total
  haveI := key_le_trans
  have h1 : List.Sorted key_le (std_sort l) := List.sorted_insertionSort key_le l
  have hperm : List.Perm (std_sort l) l := List.perm_insertionSort key_le l
  have h2 : ((std_sort l).map Prod.fst).Nodup := (hperm.map Prod.fst).nodup_iff.mpr hl
  have h3 : List.Pairwise (fun a b : entry => a.1 ≠ b.1) (std_sort l) :=
    (List.pairwise_map).mp h2
  exact (List.Pairwise.and h1 h3).imp (fun ⟨hle, hne⟩ => lt_of_le_of_ne hle hne)

/-- With pairwise distinct keys the sorted list does not depend on the order
of the entries. -/
theorem std_sort_perm (l l2 : List entry) (hp : List.Perm l l2)
    (hl : (l.map Prod.fst).Nodup) : std_sort l = std_sort l2 := by
  have hl2 : (l2.map Prod.fst).Nodup := (hp.map Prod.fst).nodup_iff.mp hl
  have hperm : List.Perm (std_sort l) (std_sort l2) :=
    ((List.perm_insertionSort key_le l).trans hp).trans (List.perm_insertionSort key_le l2).symm
  haveI := key_lt_antisymm
  exact List.eq_of_perm_of_sorted hperm (std_sort_strict l hl) (std_sort_strict l2 hl2)

theorem entries_unique_keys_mem (obj : List entry) (h : entries_unique_keys obj = true)
    (e : entry) (he : e ∈ obj) : unique_keys e.2 = true := by
  induction obj with
  | nil => cases he
  | cons a tl ih =>
    simp only [entries_unique_keys, Bool.and_eq_true] at h
    rcases List.mem_cons.mp he with h1 | h1
    · subst h1; exact h.1
    · exact ih h.2 h1

theorem elems_unique_keys_mem (arr : List json) (h : elems_unique_keys arr = true)
    (v : json) (hv : v ∈ arr) : unique_keys v = true := by
  induction arr with
  | nil => cases hv
  | cons a tl ih =>
    simp only [elems_unique_keys, Bool.and_eq_true] at h
    rcases List.mem_cons.mp hv with h1 | h1
    · subst h1; exact h.1
    · exact ih h.2 h1

theorem unique_keys_hereditary : hereditary (fun v => unique_keys v = true) := by
  constructor
  · intro obj e h he
    simp only [unique_keys, Bool.and_eq_true] at h
    exact entries_unique_keys_mem obj h.2 e he
  · intro arr v h hv
    exact elems_unique_keys_mem arr (by simpa [unique_keys] using h) v hv

theorem next_record_same (f f2 : Frame) (st st2 : State) (hf : same_frame f f2)
    (hok : f.use_ordered = true → same_entries st.ordered_keys st2.ordered_keys) :
    (next_record f st = none ∧ next_record f2 st2 = none) ∨
    (next_record f st = some none ∧ next_record f2 st2 = some none) ∨
    ∃ key val val2 g g2, next_record f st = some (some (key, val, g)) ∧
      next_record f2 st2 = some (some (key, val2, g2)) ∧ same_value val val2 ∧
      same_frame g g2 := by
  obtain ⟨kind, node, obj_it, uo, oi, os, idx, size, first, lvl⟩ := f
  obtain ⟨kind2, node2, obj_it2, uo2, oi2, os2, idx2, size2, first2, lvl2⟩ := f2
  obtain ⟨hk, hn, hit, huo, hoi, hos, hidx, hsize, hfirst, hlvl⟩ := hf
  simp only [] at hk hn hit huo hoi hos hidx hsize hfirst hlvl hok
  subst hk huo hoi hos hidx hsize hfirst hlvl
  cases uo with
  | true =>
    simp only [next_record, if_true]
    by_cases hge : oi ≥ os
    · rw [if_pos hge, if_pos hge]
      exact Or.inr (Or.inl ⟨rfl, rfl⟩)
    · rw [if_neg hge, if_neg hge]
      rcases same_entries_get _ _ oi (hok rfl) with ⟨h1, h2⟩ | ⟨k, v, v2, h1, h2, hv⟩
      · rw [h1, h2]
        exact Or.inl ⟨rfl, rfl⟩
      · rw [h1, h2]
        exact Or.inr (Or.inr ⟨k, v, v2, _, _, rfl, rfl, hv,
          ⟨rfl, hn, hit, rfl, rfl, rfl, rfl, rfl, rfl, rfl⟩⟩)
  | false =>
    simp only [next_record, Bool.false_eq_true, if_false]
    cases hit with
    | nil => exact Or.inr (Or.inl ⟨rfl, rfl⟩)
    | cons k v v2 tl tl2 hv htl =>
      exact Or.inr (Or.inr ⟨k, v, v2, _, _, rfl, rfl, hv,
        ⟨rfl, hn, htl, rfl, rfl, rfl, rfl, rfl, rfl, rfl⟩⟩)

theorem same_value_array_cases (v v2 : json) (h : same_value v v2) :
    (∃ arr arr2, v = json.array arr ∧ v2 = json.array arr2 ∧ same_elems arr arr2) ∨
    ((∀ arr, v ≠ json.array arr) ∧ (∀ arr, v2 ≠ json.array arr)) := by
  cases h with
  | refl =>
    cases v with
    | array arr => exact Or.inl ⟨arr, arr, rfl, rfl, same_elems_refl arr⟩
    | _ => exact Or.inr ⟨fun _ h => (by cases h), fun _ h => (by cases h)⟩
  | array arr arr2 h => exact Or.inl ⟨arr, arr2, rfl, rfl, h⟩
  | object obj mid obj2 h hp => exact Or.inr ⟨fun _ h => (by cases h), fun _ h => (by cases h)⟩

theorem visit_array_other (opt : FastDumpOptions) (f : Frame) (st : State)
    (h : ∀ arr, f.node ≠ json.array arr) : visit_array opt f st = none := by
  cases hn : f.node with
  | array arr => exact absurd hn (h arr)
  | _ => simp [visit_array, hn]

theorem same_state_rest (out : List Byte) (a : Frame) (rest rest2 : List Frame)
    (ok ok2 : List entry) (hrest : List.Forall₂ same_frame rest rest2)
    (hok : (∃ g ∈ a :: rest, g.kind = Kind.OBJECT) → same_entries ok ok2) :
    same_state ⟨out, rest, ok⟩ ⟨out, rest2, ok2⟩ :=
  ⟨rfl, hrest, fun ⟨g, hg, hk⟩ => hok ⟨g, List.mem_cons_of_mem a hg, hk⟩⟩

theorem iteration_value (lib : StdLib) (opt : FastDumpOptions) (f : Frame) (st : State)
    (hk : f.kind = Kind.VALUE) : iteration lib opt f st = visit_value lib opt f st := by
  simp [iteration, hk]

/-- The sorted lists of two objects that differ in the order of their entries
are `same_entries`. -/
theorem std_sort_same (obj mid obj2 : List entry) (h : same_entries obj mid)
    (hp : List.Perm mid obj2) (hu : unique_keys (json.object obj) = true) :
    same_entries (std_sort obj) (std_sort obj2) := by
  simp only [unique_keys, Bool.and_eq_true, decide_eq_true_eq] at hu
  have hmid : (mid.map Prod.fst).Nodup := by
    rw [← same_entries_keys obj mid h]
    exact hu.1
  rw [← std_sort_perm mid obj2 hp hmid]
  exact same_entries_sort obj mid h

theorem object_frame_same (opt : FastDumpOptions) (hs : opt.sort_keys = true)
    (obj obj2 : List entry) (lvl : Int) (hv : same_value (json.object obj) (json.object obj2))
    (hsort : same_entries (std_sort obj) (std_sort obj2)) :
    same_frame (object_frame opt obj lvl) (object_frame opt obj2 lvl) := by
  simp only [object_frame, hs, if_true]
  exact ⟨rfl, hv, same_entries.nil, rfl, rfl, same_entries_length _ _ hsort, rfl, rfl, rfl, rfl⟩

theorem array_frame_same (arr arr2 : List json) (lvl : Int) (h : same_elems arr arr2) :
    same_frame (array_frame arr lvl) (array_frame arr2 lvl) :=
  ⟨rfl, same_value.array arr arr2 h, same_entries.nil, rfl, rfl, rfl, rfl,
    same_elems_length arr arr2 h, rfl, rfl⟩

theorem value_frame_same (v v2 : json) (lvl : Int) (h : same_value v v2) :
    same_frame (value_frame v lvl) (value_frame v2 lvl) :=
  ⟨rfl, h, same_entries.nil, rfl, rfl, rfl, rfl, rfl, rfl, rfl⟩

/-- Visiting two `same_value` nodes in sort mode: both passes write the same
bytes and push `same_frame` frames, and a pushed object frame comes with
`same_entries` scratch lists. -/
theorem push_same (opt : FastDumpOptions) (hs : opt.sort_keys = true) (v v2 : json)
    (lvl : Int) (out : List Byte) (rest rest2 : List Frame) (ok ok2 : List entry)
    (hv : same_value v v2) (hrest : List.Forall₂ same_frame rest rest2)
    (hok : (∃ g ∈ rest, g.kind = Kind.OBJECT) → same_entries ok ok2)
    (hu : unique_keys v = true) :
    (∃ obj obj2, v = json.object obj ∧ v2 = json.object obj2 ∧
      ∃ st st2, push_object opt ⟨out, rest, ok⟩ v lvl = some st ∧
        push_object opt ⟨out, rest2, ok2⟩ v2 lvl = some st2 ∧ same_state st st2) ∨
    (∃ arr arr2, v = json.array arr ∧ v2 = json.array arr2 ∧
      ∃ st st2, push_array opt ⟨out, rest, ok⟩ v lvl = some st ∧
        push_array opt ⟨out, rest2, ok2⟩ v2 lvl = some st2 ∧ same_state st st2) ∨
    (v2 = v ∧ (∀ obj, v ≠ json.object obj) ∧ (∀ arr, v ≠ json.array arr)) := by
  have hobj : ∀ obj mid obj2, same_entries obj mid → List.Perm mid obj2 →
      unique_keys (json.object obj) = true →
      ∃ st st2, push_object opt ⟨out, rest, ok⟩ (json.object obj) lvl = some st ∧
        push_object opt ⟨out, rest2, ok2⟩ (json.object obj2) lvl = some st2 ∧
        same_state st st2 := by
    intro obj mid obj2 h hp hu
    have hsort := std_sort_same obj mid obj2 h hp hu
    have hlen : obj.length = obj2.length :=
      (same_entries_length obj mid h).trans hp.length_eq
    cases obj with
    | nil =>
      cases obj2 with
      | nil =>
        exact ⟨_, _, push_object_empty opt _ lvl, push_object_empty opt _ lvl, rfl, hrest, hok⟩
      | cons e2 tl2 => simp at hlen
    | cons e tl =>
      cases obj2 with
      | nil => simp at hlen
      | cons e2 tl2 =>
        refine ⟨_, _, push_object_cons opt _ e tl lvl, push_object_cons opt _ e2 tl2 lvl, rfl,
          ?_, ?_⟩
        · exact List.Forall₂.cons
            (object_frame_same opt hs _ _ lvl (same_value.object _ mid _ h hp) hsort) hrest
        · intro _
          simp only [hs, if_true]
          exact hsort
  have harr : ∀ arr arr2, same_elems arr arr2 →
      ∃ st st2, push_array opt ⟨out, rest, ok⟩ (json.array arr) lvl = some st ∧
        push_array opt ⟨out, rest2, ok2⟩ (json.array arr2) lvl = some st2 ∧
        same_state st st2 := by
    intro arr arr2 h
    cases h with
    | nil =>
      exact ⟨_, _, push_array_empty opt _ lvl, push_array_empty opt _ lvl, rfl, hrest, hok⟩
    | cons a a2 tl tl2 h1 h2 =>
      refine ⟨_, _, push_array_cons opt _ a tl lvl, push_array_cons opt _ a2 tl2 lvl, rfl,
        ?_, ?_⟩
      · exact List.Forall₂.cons
          (array_frame_same _ _ lvl (same_elems.cons a a2 tl tl2 h1 h2)) hrest
      · rintro ⟨g, hg, hgk⟩
        rcases List.mem_cons.mp hg with h3 | h3
        · subst h3; cases hgk
        · exact hok ⟨g, h3, hgk⟩
  cases hv with
  | refl =>
    cases v with
    | object obj =>
      exact Or.inl ⟨obj, obj, rfl, rfl,
        hobj obj obj obj (same_entries_refl obj) (List.Perm.refl obj) hu⟩
    | array arr => exact Or.inr (Or.inl ⟨arr, arr, rfl, rfl, harr arr arr (same_elems_refl arr)⟩)
    | _ => exact Or.inr (Or.inr ⟨rfl, fun _ h => (by cases h), fun _ h => (by cases h)⟩)
  | array arr arr2 h => exact Or.inr (Or.inl ⟨arr, arr2, rfl, rfl, harr arr arr2 h⟩)
  | object obj mid obj2 h hp => exact Or.inl ⟨obj, obj2, rfl, rfl, hobj obj mid obj2 h hp hu⟩

theorem visit_value_object (lib : StdLib) (opt : FastDumpOptions) (f : Frame) (st : State)
    (obj : List entry) (hn : f.node = json.object obj) :
    visit_value lib opt f st = push_object opt st (json.object obj) f.indent_level := by
  simp only [visit_value, hn]

theorem visit_value_array (lib : StdLib) (opt : FastDumpOptions) (f : Frame) (st : State)
    (arr : List json) (hn : f.node = json.array arr) :
    visit_value lib opt f st = push_array opt st (json.array arr) f.indent_level := by
  simp only [visit_value, hn]

/-- Visiting a scalar appends a text that depends on the node alone. -/
theorem visit_value_leaf (lib : StdLib) (opt : FastDumpOptions) (f : Frame)
    (out : List Byte) (rest : List Frame) (ok : List entry)
    (h1 : ∀ obj, f.node ≠ json.object obj) (h2 : ∀ arr, f.node ≠ json.array arr) :
    visit_value lib opt f ⟨out, rest, ok⟩
      = some ⟨out ++ dump_value lib opt 0 f.node, rest, ok⟩ := by
  cases hn : f.node with
  | object obj => exact absurd hn (h1 obj)
  | array arr => exact absurd hn (h2 arr)
  | _ =>
    simp [visit_value, hn, dump_value, append_literal, append_integer,
      append_uinteger, append_double_append lib out, append_escaped_string_append out]

/-- One pass of the loop body in sort mode on two `same_state` states: both
passes fault, or both succeed and leave `same_state` states. -/
theorem iteration_same (lib : StdLib) (opt : FastDumpOptions) (hs : opt.sort_keys = true)
    (f f2 : Frame) (out : List Byte) (rest rest2 : List Frame) (ok ok2 : List entry)
    (hf : same_frame f f2) (hrest : List.Forall₂ same_frame rest rest2)
    (hok : (∃ g ∈ f :: rest, g.kind = Kind.OBJECT) → same_entries ok ok2)
    (hu : unique_keys f.node = true) :
    (iteration lib opt f ⟨out, rest, ok⟩ = none ∧
      iteration lib opt f2 ⟨out, rest2, ok2⟩ = none) ∨
    ∃ st st2, iteration lib opt f ⟨out, rest, ok⟩ = some st ∧
      iteration lib opt f2 ⟨out, rest2, ok2⟩ = some st2 ∧ same_state st st2 := by
  have hokr : (∃ g ∈ rest, g.kind = Kind.OBJECT) → same_entries ok ok2 :=
    fun ⟨g, hg, hk⟩ => hok ⟨g, List.mem_cons_of_mem f hg, hk⟩
  have hpop : same_state ⟨out, rest, ok⟩ ⟨out, rest2, ok2⟩ := ⟨rfl, hrest, hokr⟩
  cases hk : f.kind with
  | VALUE =>
    have hk2 : f2.kind = Kind.VALUE := by rw [← hf.kind]; exact hk
    rw [iteration_value lib opt f _ hk, iteration_value lib opt f2 _ hk2]
    right
    rcases push_same opt hs f.node f2.node f.indent_level out rest rest2 ok ok2 hf.node hrest
        hokr hu with
      ⟨obj, obj2, hn, hn2, st, st2, h1, h2, hsame⟩ |
      ⟨arr, arr2, hn, hn2, st, st2, h1, h2, hsame⟩ | ⟨hn2, hno, hna⟩
    · refine ⟨st, st2, ?_, ?_, hsame⟩
      · rw [visit_value_object lib opt f _ obj hn, ← hn]; exact h1
      · rw [visit_value_object lib opt f2 _ obj2 hn2, ← hn2, ← hf.indent_level]; exact h2
    · refine ⟨st, st2, ?_, ?_, hsame⟩
      · rw [visit_value_array lib opt f _ arr hn, ← hn]; exact h1
      · rw [visit_value_array lib opt f2 _ arr2 hn2, ← hn2, ← hf.indent_level]; exact h2
    · refine ⟨_, _, visit_value_leaf lib opt f out rest ok hno hna,
        visit_value_leaf lib opt f2 out rest2 ok2 (by rw [hn2]; exact hno)
          (by rw [hn2]; exact hna), ?_, hrest, hokr⟩
      show out ++ dump_value lib opt 0 f.node = out ++ dump_value lib opt 0 f2.node
      rw [hn2]
  | OBJECT =>
    have hk2 : f2.kind = Kind.OBJECT := by rw [← hf.kind]; exact hk
    rw [iteration_object lib opt f _ hk, iteration_object lib opt f2 _ hk2]
    have hoks : same_entries ok ok2 := hok ⟨f, List.mem_cons_self f rest, hk⟩
    rcases next_record_same f f2 ⟨out, rest, ok⟩ ⟨out, rest2, ok2⟩ hf (fun _ => hoks) with
      ⟨h1, h2⟩ | ⟨h1, h2⟩ | ⟨key, val, val2, g, g2, h1, h2, hv, hg⟩
    · exact Or.inl ⟨visit_object_fault opt f _ h1, visit_object_fault opt f2 _ h2⟩
    · refine Or.inr ⟨_, _, visit_object_done opt f _ h1, visit_object_done opt f2 _ h2, ?_,
        hrest, hokr⟩
      show out ++ line_break opt f.indent_level ++ [0x7D]
        = out ++ line_break opt f2.indent_level ++ [0x7D]
      rw [hf.indent_level]
    · refine Or.inr ⟨_, _, visit_object_next opt f g _ key val h1,
        visit_object_next opt f2 g2 _ key val2 h2, ?_, ?_, fun _ => hoks⟩
      · show out ++ separator opt g.first (g.indent_level + 1)
            ++ append_escaped_string [] key opt.ensure_ascii ++ [0x3A] ++ key_gap opt
          = out ++ separator opt g2.first (g2.indent_level + 1)
            ++ append_escaped_string [] key opt.ensure_ascii ++ [0x3A] ++ key_gap opt
        rw [hg.first, hg.indent_level]
      · refine List.Forall₂.cons ?_ (List.Forall₂.cons ?_ hrest)
        · rw [hg.indent_level]
          exact value_frame_same val val2 _ hv
        · exact ⟨hg.kind, hg.node, hg.obj_it, hg.use_ordered, hg.ord_idx, hg.ord_size,
            hg.idx, hg.size, rfl, hg.indent_level⟩
  | ARRAY =>
    have hk2 : f2.kind = Kind.ARRAY := by rw [← hf.kind]; exact hk
    rw [iteration_array lib opt f _ hk, iteration_array lib opt f2 _ hk2]
    rcases same_value_array_cases f.node f2.node hf.node with
      ⟨arr, arr2, hn, hn2, harr⟩ | ⟨hn, hn2⟩
    · by_cases hidx : f.idx = f.size
      · have hidx2 : f2.idx = f2.size := by rw [← hf.idx, ← hf.size]; exact hidx
        refine Or.inr ⟨_, _, visit_array_done opt f _ arr hn hidx,
          visit_array_done opt f2 _ arr2 hn2 hidx2, ?_, hrest, hokr⟩
        show out ++ line_break opt f.indent_level ++ [0x5D]
          = out ++ line_break opt f2.indent_level ++ [0x5D]
        rw [hf.indent_level]
      · have hidx2 : f2.idx ≠ f2.size := by rw [← hf.idx, ← hf.size]; exact hidx
        rcases same_elems_get arr arr2 f.idx harr with ⟨h1, h2⟩ | ⟨v, v2, h1, h2, hv⟩
        · exact Or.inl ⟨visit_array_fault opt f _ arr hn hidx h1,
            visit_array_fault opt f2 _ arr2 hn2 hidx2 (by rw [← hf.idx]; exact h2)⟩
        · refine Or.inr ⟨_, _, visit_array_next opt f _ arr v hn hidx h1,
            visit_array_next opt f2 _ arr2 v2 hn2 hidx2 (by rw [← hf.idx]; exact h2),
            ?_, ?_, ?_⟩
          · show out ++ separator opt f.first (f.indent_level + 1)
              = out ++ separator opt f2.first (f2.indent_level + 1)
            rw [hf.first, hf.indent_level]
          · refine List.Forall₂.cons ?_ (List.Forall₂.cons ?_ hrest)
            · rw [hf.indent_level]
              exact value_frame_same v v2 _ hv
            · exact ⟨hf.kind, hf.node, hf.obj_it, hf.use_ordered, hf.ord_idx, hf.ord_size,
                congrArg (· + 1) hf.idx, hf.size, rfl, hf.indent_level⟩
          · rintro ⟨x, hx, hxk⟩
            rcases List.mem_cons.mp hx with h3 | h3
            · subst h3; cases hxk
            · rcases List.mem_cons.mp h3 with h4 | h4
              · subst h4
                rw [hk] at hxk
                cases hxk
              · exact hokr ⟨x, h4, hxk⟩
    · exact Or.inl ⟨visit_array_other opt f _ hn, visit_array_other opt f2 _ hn2⟩

/-- The loop in sort mode has the same outcome on `same_state` states whose
values have unique keys. -/
theorem loop_same (lib : StdLib) (opt : FastDumpOptions) (hs : opt.sort_keys = true) :
    ∀ (fuel : Nat) (st st2 : State), same_state st st2 →
      node_inv (fun v => unique_keys v = true) st.stack st.ordered_keys →
      loop lib opt fuel st = loop lib opt fuel st2 := by
  intro fuel
  induction fuel with
  | zero =>
    intro st st2 hsame _
    obtain ⟨out, stack, ok⟩ := st
    obtain ⟨out2, stack2, ok2⟩ := st2
    obtain ⟨hout, hstack, _⟩ := hsame
    simp only [] at hout hstack
    subst hout
    cases hstack with
    | nil => rw [loop_nil, loop_nil]
    | cons hf hrest => rw [loop_zero, loop_zero]
  | succ fuel ih =>
    intro st st2 hsame hinv
    obtain ⟨out, stack, ok⟩ := st
    obtain ⟨out2, stack2, ok2⟩ := st2
    obtain ⟨hout, hstack, hok⟩ := hsame
    simp only [] at hout hstack hok hinv
    subst hout
    cases hstack with
    | nil => rw [loop_nil, loop_nil]
    | @cons f f2 rest rest2 hf hrest =>
      rw [loop_succ, loop_succ]
      have hu : unique_keys f.node = true := (hinv.1 f (List.mem_cons_self f rest)).1
      rcases iteration_same lib opt hs f f2 out rest rest2 ok ok2 hf hrest hok hu with
        ⟨h1, h2⟩ | ⟨st, st2, h1, h2, hsame⟩
      · rw [h1, h2]
      · rw [h1, h2]
        exact ih st st2 hsame
          (iteration_node_inv lib opt _ unique_keys_hereditary f out rest ok st hinv h1)

theorem initial_same (j j2 : json) (ok ok2 : List entry) (h : same_value j j2) :
    same_state (initial j ok) (initial j2 ok2) := by
  refine ⟨rfl, List.Forall₂.cons (value_frame_same j j2 0 h) List.Forall₂.nil, ?_⟩
  rintro ⟨f, hf, hk⟩
  have : f = value_frame j 0 := by simpa [initial, push_value_eq] using hf
  subst this
  cases hk

/-- In sort mode two trees that differ in the order of the entries of their
objects have the same outcome, whatever the scratch list holds at the start of
either call. -/
theorem fast_dump_same (lib : StdLib) (j j2 : json) (opt : FastDumpOptions)
    (ok ok2 : List entry) (hs : opt.sort_keys = true) (hsame : same_value j j2)
    (hu : unique_keys j = true) :
    fast_dump lib j opt ok = fast_dump lib j2 opt ok2 := by
  have h1 : loop lib opt (pass_bound j.width j.height + pass_bound j2.width j2.height)
      (initial j ok) = fast_dump lib j opt ok :=
    loop_more_fuel lib opt _ _ _ (fast_dump_not_timeout lib j opt ok)
  have h2 : loop lib opt (pass_bound j2.width j2.height + pass_bound j.width j.height)
      (initial j2 ok2) = fast_dump lib j2 opt ok2 :=
    loop_more_fuel lib opt _ _ _ (fast_dump_not_timeout lib j2 opt ok2)
  rw [← h1, ← h2, Nat.add_comm (pass_bound j2.width j2.height)]
  exact loop_same lib opt hs _ _ _ (initial_same j j2 ok ok2 hsame)
    (node_inv_initial _ j ok hu)

/-- C18: two value trees that differ only in the order in which the entries of
their objects were inserted (`same_value`: the same keys and, key by key, the
same values in every object, arrays element by element) and whose objects have
unique keys give the same result when `fast_dump` runs with `sort_keys = true`,
for every other option and whatever the scratch list holds when either call
starts. The result is the same text, or for both trees the same failure where
the sorted walk reads `ordered_keys` out of bounds. -/
theorem sorted_output_order_independent (lib : StdLib) (j j2 : json) (opt : FastDumpOptions)
    (ok ok2 : List entry) (hs : opt.sort_keys = true) (hsame : same_value j j2)
    (hu : unique_keys j = true) :
    fast_dump lib j opt ok = fast_dump lib j2 opt ok2 ∧
      ((∃ text, fast_dump lib j opt ok = Outcome.done text ∧
          fast_dump lib j2 opt ok2 = Outcome.done text) ∨
        (fast_dump lib j opt ok = Outcome.fault ∧ fast_dump lib j2 opt ok2 = Outcome.fault)) := by
  have heq := fast_dump_same lib j j2 opt ok ok2 hs hsame hu
  refine ⟨heq, ?_⟩
  rw [← heq]
  cases hr : fast_dump lib j opt ok with
  | done text => exact Or.inl ⟨text, rfl, rfl⟩
  | fault => exact Or.inr ⟨rfl, rfl⟩
  | timeout => exact absurd hr (fast_dump_not_timeout lib j opt ok)

/-- C18 at `{"b": [{"y": 1, "x": 2}], "a": 2}` and `{"a": 2, "b": [{"x": 2, "y": 1}]}`
in compact mode: both calls return `{"a":2,"b":[{"x":2,"y":1}]}`. -/
theorem sorted_output_order_independent_witness :
    unique_keys
      (json.object [(bytes "b", json.array [json.object
          [(bytes "y", json.number_integer 1), (bytes "x", json.number_integer 2)]]),
        (bytes "a", json.number_integer 2)]) = true ∧
    same_value
      (json.object [(bytes "b", json.array [json.object
          [(bytes "y", json.number_integer 1), (bytes "x", json.number_integer 2)]]),
        (bytes "a", json.number_integer 2)])
      (json.object [(bytes "a", json.number_integer 2),
        (bytes "b", json.array [json.object
          [(bytes "x", json.number_integer 2), (bytes "y", json.number_integer 1)]])]) ∧
    fast_dump lib0
      (json.object [(bytes "b", json.array [json.object
          [(bytes "y", json.number_integer 1), (bytes "x", json.number_integer 2)]]),
        (bytes "a", json.number_integer 2)])
      { sort_keys := true } []
      = Outcome.done (bytes "\x7b\"a\":2,\"b\":[\x7b\"x\":2,\"y\":1\x7d]\x7d") ∧
    fast_dump lib0
      (json.object [(bytes "a", json.number_integer 2),
        (bytes "b", json.array [json.object
          [(bytes "x", json.number_integer 2), (bytes "y", json.number_integer 1)]])])
      { sort_keys := true } [(bytes "stale", json.null)]
      = Outcome.done (bytes "\x7b\"a\":2,\"b\":[\x7b\"x\":2,\"y\":1\x7d]\x7d") :=
  have hinner : same_value
      (json.object [(bytes "y", json.number_integer 1), (bytes "x", json.number_integer 2)])
      (json.object [(bytes "x", json.number_integer 2), (bytes "y", json.number_integer 1)]) :=
    same_value.object _ _ _ (same_entries_refl _) (List.Perm.swap _ _ _)
  have hsame : same_value
      (json.object [(bytes "b", json.array [json.object
          [(bytes "y", json.number_integer 1), (bytes "x", json.number_integer 2)]]),
        (bytes "a", json.number_integer 2)])
      (json.object [(bytes "a", json.number_integer 2),
        (bytes "b", json.array [json.object
          [(bytes "x", json.number_integer 2), (bytes "y", json.number_integer 1)]])]) :=
    same_value.object _
      [(bytes "b", json.array [json.object
          [(bytes "x", json.number_integer 2), (bytes "y", json.number_integer 1)]]),
        (bytes "a", json.number_integer 2)] _
      (same_entries.cons _ _ _ _ _
        (same_value.array _ _ (same_elems.cons _ _ _ _ hinner same_elems.nil))
        (same_entries_refl _))
      (List.Perm.swap _ _ _)
  have hrun : fast_dump lib0
      (json.object [(bytes "b", json.array [json.object
          [(bytes "y", json.number_integer 1), (bytes "x", json.number_integer 2)]]),
        (bytes "a", json.number_integer 2)])
      { sort_keys := true } []
      = Outcome.done (bytes "\x7b\"a\":2,\"b\":[\x7b\"x\":2,\"y\":1\x7d]\x7d") := by
    decide
  have hu : unique_keys
      (json.object [(bytes "b", json.array [json.object
          [(bytes "y", json.number_integer 1), (bytes "x", json.number_integer 2)]]),
        (bytes "a", json.number_integer 2)]) = true := by
    decide
  have h := (sorted_output_order_independent lib0 _ _ { sort_keys := true } []
    [(bytes "stale", json.null)] rfl hsame hu).1
  ⟨hu, hsame, hrun, h ▸ hrun⟩

/-! ### Sorted keys where no object is nested in an object -/

theorem elems_sort_objects_id (arr : List json) (h : ∀ v ∈ arr, sort_objects v = v) :
    elems_sort_objects arr = arr := by
  induction arr with
  | nil => rfl
  | cons a tl ih =>
    simp only [elems_sort_objects]
    rw [h a (List.mem_cons_self a tl), ih (fun v hv => h v (List.mem_cons_of_mem a hv))]

theorem entries_sort_objects_id (obj : List entry) (h : ∀ e ∈ obj, sort_objects e.2 = e.2) :
    entries_sort_objects obj = obj := by
  induction obj with
  | nil => rfl
  | cons a tl ih =>
    simp only [entries_sort_objects]
    rw [h a (List.mem_cons_self a tl), ih (fun v hv => h v (List.mem_cons_of_mem a hv))]

/-- Sorting the objects of a value without non-empty object changes nothing. -/
theorem sort_objects_flat : ∀ (h : Nat) (v : json), v.height ≤ h →
    no_open_object v = true → sort_objects v = v := by
  intro h
  induction h with
  | zero =>
    intro v hv _
    cases v with
    | object obj => simp [json.height] at hv
    | array arr => simp [json.height] at hv
    | _ => rfl
  | succ h ih =>
    intro v hv hflat
    cases v with
    | object obj =>
      cases obj with
      | nil => rfl
      | cons e tl => simp [no_open_object] at hflat
    | array arr =>
      simp only [sort_objects]
      rw [elems_sort_objects_id arr]
      intro x hx
      have := (array_member arr x hx).1
      exact ih x (by omega)
        (elems_no_open_object_mem arr (by simpa [no_open_object] using hflat) x hx)
    | _ => rfl

theorem elems_objects_flat_mem (arr : List json) (h : elems_objects_flat arr = true)
    (v : json) (hv : v ∈ arr) : objects_flat v = true := by
  induction arr with
  | nil => cases hv
  | cons a tl ih =>
    simp only [elems_objects_flat, Bool.and_eq_true] at h
    rcases List.mem_cons.mp hv with h1 | h1
    · subst h1; exact h.1
    · exact ih h.2 h1

/-- An `ARRAY` frame writes its remaining elements, each with its objects
sorted, and the closer, provided the walk of each element does; the scratch
list may change on the way. -/
theorem run_elems_sorted (lib : StdLib) (opt : FastDumpOptions) (arr : List json)
    (hval : ∀ v ∈ arr, ∀ (lvl : Int) (out : List Byte) (stk : List Frame) (ok : List entry),
        ∃ ok2, reaches lib opt ⟨out, value_frame v lvl :: stk, ok⟩
          ⟨out ++ dump_value lib opt lvl (sort_objects v), stk, ok2⟩) :
    ∀ (vs : List json) (f : Frame), f.kind = Kind.ARRAY → f.node = json.array arr →
      f.size = arr.length → arr.drop f.idx = vs → f.idx ≤ f.size →
        ∀ (out : List Byte) (stk : List Frame) (ok : List entry),
          ∃ ok2, reaches lib opt ⟨out, f :: stk, ok⟩
            ⟨out ++ dump_elems lib opt f.indent_level f.first (elems_sort_objects vs)
                ++ line_break opt f.indent_level ++ [0x5D], stk, ok2⟩ := by
  intro vs
  induction vs with
  | nil =>
    intro f hk hnode hsize hdrop hle out stk ok
    have hend : f.idx = f.size := by
      have := List.drop_eq_nil_iff.mp hdrop
      omega
    have hstep := visit_array_done opt f ⟨out, stk, ok⟩ arr hnode hend
    rw [← iteration_array lib opt f _ hk] at hstep
    have := reaches_step lib opt f out stk ok _ hstep
    exact ⟨ok, by simpa [dump_elems, elems_sort_objects] using this⟩
  | cons v tl ih =>
    intro f hk hnode hsize hdrop hle out stk ok
    have hget : arr[f.idx]? = some v := by
      rw [← List.head?_drop, hdrop]
      rfl
    have hlt : f.idx < arr.length := by
      by_contra hcon
      have : arr.drop f.idx = [] := List.drop_eq_nil_iff.mpr (by omega)
      rw [this] at hdrop
      cases hdrop
    have hend : f.idx ≠ f.size := by omega
    have hin : v ∈ arr := List.getElem?_mem hget
    have hdrop2 : arr.drop (f.idx + 1) = tl := by
      have := congrArg List.tail hdrop
      simpa using this
    have hstep := visit_array_next opt f ⟨out, stk, ok⟩ arr v hnode hend hget
    rw [← iteration_array lib opt f _ hk] at hstep
    have h1 := reaches_step lib opt f out stk ok _ hstep
    obtain ⟨ok1, h2⟩ := hval v hin (f.indent_level + 1)
      (out ++ separator opt f.first (f.indent_level + 1))
      ({ f with first := false, idx := f.idx + 1 } :: stk) ok
    obtain ⟨ok2, h3⟩ := ih { f with first := false, idx := f.idx + 1 } hk hnode hsize hdrop2
      (by show f.idx + 1 ≤ f.size; omega)
      (out ++ separator opt f.first (f.indent_level + 1)
        ++ dump_value lib opt (f.indent_level + 1) (sort_objects v)) stk ok1
    have h := reaches_trans lib opt (reaches_trans lib opt h1 h2) h3
    exact ⟨ok2, by simpa [dump_elems, elems_sort_objects, List.append_assoc] using h⟩

/-- With `sort_keys = true` a `VALUE` frame on an object whose member values
contain no non-empty object writes the object of its sorted entries. -/
theorem run_object_sorted (lib : StdLib) (opt : FastDumpOptions) (hs : opt.sort_keys = true)
    (e : entry) (tl : List entry) (hflat : ∀ x ∈ e :: tl, no_open_object x.2 = true)
    (lvl : Int) (out : List Byte) (stk : List Frame) (ok : List entry) :
    reaches lib opt ⟨out, value_frame (json.object (e :: tl)) lvl :: stk, ok⟩
      ⟨out ++ dump_value lib opt lvl (json.object (std_sort (e :: tl))), stk,
        std_sort (e :: tl)⟩ := by
  have hstep := push_object_cons opt ⟨out, stk, ok⟩ e tl lvl
  have hit : iteration lib opt (value_frame (json.object (e :: tl)) lvl) ⟨out, stk, ok⟩
      = push_object opt ⟨out, stk, ok⟩ (json.object (e :: tl)) lvl := rfl
  rw [← hit] at hstep
  have h1 := reaches_step lib opt _ out stk ok _ hstep
  have hval : ∀ x ∈ std_sort (e :: tl), ∀ (lvl : Int) (out : List Byte) (stk : List Frame),
      reaches lib opt ⟨out, value_frame x.2 lvl :: stk, std_sort (e :: tl)⟩
        ⟨out ++ dump_value lib opt lvl x.2, stk, std_sort (e :: tl)⟩ := by
    intro x hx lvl out stk
    exact run_value_flat lib opt _ x.2 (le_refl _)
      (hflat x ((std_sort_mem _ x).mp hx)) lvl out stk _
  have h2 := run_ordered_members lib opt (std_sort (e :: tl)) hval (std_sort (e :: tl))
    { kind := Kind.OBJECT, node := json.object (e :: tl), obj_it := [], use_ordered := true,
      ord_idx := 0, ord_size := (std_sort (e :: tl)).length, idx := 0, size := 0,
      first := true, indent_level := lvl } rfl rfl rfl rfl
    (out ++ [0x7B] ++ line_break opt (lvl + 1)) stk
  have hfr : object_frame opt (e :: tl) lvl
      = { kind := Kind.OBJECT, node := json.object (e :: tl), obj_it := [],
          use_ordered := true, ord_idx := 0, ord_size := (std_sort (e :: tl)).length,
          idx := 0, size := 0, first := true, indent_level := lvl } := by
    simp [object_frame, hs]
  rw [hfr] at h1
  simp only [hs, if_true] at h1
  have h := reaches_trans lib opt h1 h2
  have hne : std_sort (e :: tl) ≠ [] := by
    intro hnil
    have := std_sort_length (e :: tl)
    rw [hnil] at this
    simp at this
  cases hsorted : std_sort (e :: tl) with
  | nil => exact absurd hsorted hne
  | cons a rest =>
    rw [hsorted] at h
    simpa [dump_value, List.append_assoc] using h

/-- With `sort_keys = true` a `VALUE` frame on a value in which no non-empty
object lies below an object writes the value with the entries of every object
sorted. -/
theorem run_value_sorted (lib : StdLib) (opt : FastDumpOptions) (hs : opt.sort_keys = true) :
    ∀ (h : Nat) (v : json), v.height ≤ h → objects_flat v = true →
      ∀ (lvl : Int) (out : List Byte) (stk : List Frame) (ok : List entry),
        ∃ ok2, reaches lib opt ⟨out, value_frame v lvl :: stk, ok⟩
          ⟨out ++ dump_value lib opt lvl (sort_objects v), stk, ok2⟩ := by
  intro h
  induction h with
  | zero =>
    intro v hv _ lvl out stk ok
    cases v with
    | object obj => simp [json.height] at hv
    | array arr => simp [json.height] at hv
    | _ =>
      refine ⟨ok, reaches_step lib opt _ out stk ok _ ?_⟩
      simp [iteration, value_frame, visit_value, dump_value, sort_objects, append_literal,
        append_integer, append_uinteger, append_double_append lib out,
        append_escaped_string_append out]
  | succ h ih =>
    intro v hv hflat lvl out stk ok
    cases v with
    | object obj =>
      cases obj with
      | nil =>
        refine ⟨ok, reaches_step lib opt _ out stk ok _ ?_⟩
        simp only [iteration, value_frame, visit_value]
        rw [push_object_empty]
        simp [dump_value, sort_objects, entries_sort_objects, std_sort]
      | cons e tl =>
        have hmem : ∀ x ∈ e :: tl, no_open_object x.2 = true := by
          simpa [objects_flat] using hflat
        have hid : entries_sort_objects (e :: tl) = e :: tl :=
          entries_sort_objects_id _ (fun x hx => sort_objects_flat _ x.2 (le_refl _) (hmem x hx))
        refine ⟨std_sort (e :: tl), ?_⟩
        have := run_object_sorted lib opt hs e tl hmem lvl out stk ok
        simp only [sort_objects]
        rw [hid]
        exact this
    | array arr =>
      cases arr with
      | nil =>
        refine ⟨ok, reaches_step lib opt _ out stk ok _ ?_⟩
        simp only [iteration, value_frame, visit_value]
        rw [push_array_empty]
        simp [dump_value, sort_objects, elems_sort_objects]
      | cons e tl =>
        have hstep := push_array_cons opt ⟨out, stk, ok⟩ e tl lvl
        have hit : iteration lib opt (value_frame (json.array (e :: tl)) lvl) ⟨out, stk, ok⟩
            = push_array opt ⟨out, stk, ok⟩ (json.array (e :: tl)) lvl := rfl
        rw [← hit] at hstep
        have h1 := reaches_step lib opt _ out stk ok _ hstep
        have hval : ∀ x ∈ e :: tl, ∀ (lvl : Int) (out : List Byte) (stk : List Frame)
            (ok : List entry), ∃ ok2, reaches lib opt ⟨out, value_frame x lvl :: stk, ok⟩
              ⟨out ++ dump_value lib opt lvl (sort_objects x), stk, ok2⟩ := by
          intro x hx
          have := (array_member (e :: tl) x hx).1
          exact ih x (by omega)
            (elems_objects_flat_mem (e :: tl) (by simpa [objects_flat] using hflat) x hx)
        obtain ⟨ok2, h2⟩ := run_elems_sorted lib opt (e :: tl) hval (e :: tl)
          (array_frame (e :: tl) lvl) rfl rfl rfl rfl (Nat.zero_le _)
          (out ++ [0x5B] ++ line_break opt (lvl + 1)) stk ok
        have h := reaches_trans lib opt h1 h2
        exact ⟨ok2, by
          simpa [dump_value, sort_objects, elems_sort_objects, array_frame,
            List.append_assoc] using h⟩
    | _ =>
      refine ⟨ok, reaches_step lib opt _ out stk ok _ ?_⟩
      simp [iteration, value_frame, visit_value, dump_value, sort_objects, append_literal,
        append_integer, append_uinteger, append_double_append lib out,
        append_escaped_string_append out]

theorem line_break_options (opt opt2 : FastDumpOptions) (hp : opt.pretty = opt2.pretty)
    (lvl : Int) : line_break opt lvl = line_break opt2 lvl := by
  simp only [line_break, hp]

theorem separator_options (opt opt2 : FastDumpOptions) (hp : opt.pretty = opt2.pretty)
    (first : Bool) (lvl : Int) : separator opt first lvl = separator opt2 first lvl := by
  simp only [separator, line_break_options opt opt2 hp]

theorem key_gap_options (opt opt2 : FastDumpOptions) (hp : opt.pretty = opt2.pretty) :
    key_gap opt = key_gap opt2 := by
  simp only [key_gap, hp]

theorem dump_members_options (lib : StdLib) (opt opt2 : FastDumpOptions)
    (hp : opt.pretty = opt2.pretty) (he : opt.ensure_ascii = opt2.ensure_ascii)
    (es : List entry)
    (h : ∀ e ∈ es, ∀ lvl, dump_value lib opt lvl e.2 = dump_value lib opt2 lvl e.2) :
    ∀ (lvl : Int) (first : Bool),
      dump_members lib opt lvl first es = dump_members lib opt2 lvl first es := by
  induction es with
  | nil => intro lvl first; simp [dump_members]
  | cons a tl ih =>
    intro lvl first
    simp only [dump_members]
    rw [separator_options opt opt2 hp, key_gap_options opt opt2 hp, he,
      h a (List.mem_cons_self a tl), ih (fun e hx => h e (List.mem_cons_of_mem a hx))]

theorem dump_elems_options (lib : StdLib) (opt opt2 : FastDumpOptions)
    (hp : opt.pretty = opt2.pretty) (vs : List json)
    (h : ∀ v ∈ vs, ∀ lvl, dump_value lib opt lvl v = dump_value lib opt2 lvl v) :
    ∀ (lvl : Int) (first : Bool),
      dump_elems lib opt lvl first vs = dump_elems lib opt2 lvl first vs := by
  induction vs with
  | nil => intro lvl first; simp [dump_elems]
  | cons a tl ih =>
    intro lvl first
    simp only [dump_elems]
    rw [separator_options opt opt2 hp,
      h a (List.mem_cons_self a tl), ih (fun e hx => h e (List.mem_cons_of_mem a hx))]

/-- The text `dump_value` depends on the options through the indent width and
the escape mode only. -/
theorem dump_value_options (lib : StdLib) (opt opt2 : FastDumpOptions)
    (hp : opt.pretty = opt2.pretty) (he : opt.ensure_ascii = opt2.ensure_ascii) :
    ∀ (h : Nat) (v : json), v.height ≤ h →
      ∀ lvl, dump_value lib opt lvl v = dump_value lib opt2 lvl v := by
  intro h
  induction h with
  | zero =>
    intro v hv lvl
    cases v with
    | object obj => simp [json.height] at hv
    | array arr => simp [json.height] at hv
    | _ => simp [dump_value, he]
  | succ h ih =>
    intro v hv lvl
    cases v with
    | object obj =>
      cases obj with
      | nil => simp [dump_value]
      | cons e tl =>
        simp only [dump_value]
        rw [line_break_options opt opt2 hp, line_break_options opt opt2 hp,
          dump_members_options lib opt opt2 hp he (e :: tl)]
        intro x hx
        have := (object_member (e :: tl) x hx).1
        exact ih x.2 (by omega)
    | array arr =>
      cases arr with
      | nil => simp [dump_value]
      | cons e tl =>
        simp only [dump_value]
        rw [line_break_options opt opt2 hp, line_break_options opt opt2 hp,
          dump_elems_options lib opt opt2 hp (e :: tl)]
        intro x hx
        have := (array_member (e :: tl) x hx).1
        exact ih x (by omega)
    | _ => simp [dump_value, he]

/-- With `sort_keys = true` a tree in which no non-empty object lies below an
object is written with the entries of every object sorted. -/
theorem fast_dump_sorted (lib : StdLib) (j : json) (opt : FastDumpOptions) (ok : List entry)
    (hs : opt.sort_keys = true) (hflat : objects_flat j = true) :
    fast_dump lib j opt ok = Outcome.done (dump_value lib opt 0 (sort_objects j)) := by
  obtain ⟨ok2, h⟩ := run_value_sorted lib opt hs _ j (le_refl _) hflat 0 [] [] ok
  apply fast_dump_of_reaches lib j opt ok ok2
  simpa [initial, push_value_eq] using h

/-- C21: for every value tree in which no non-empty object occurs strictly
below another object (`objects_flat`: neither as a member value nor inside an
array below it), all widths and escape modes and any content of the scratch
list, `fast_dump` with `sort_keys = true` returns the text that `fast_dump` with
`sort_keys = false` returns for the tree with the entries of every object sorted
by ascending key bytes. While such an object frame is open the walk of its
members pushes no object frame, so `ordered_keys` is not refilled and `ord_idx`
walks the sorted entries of the frame's own object. For
`pretty * (height + 1) < 2 ^ 31`, the range in which the 32-bit product of
`indent_if_needed` does not overflow, that text is `dump_value` of the sorted
tree. The sort is the same function on both sides, so the statement needs no
assumption on the keys; with unique keys the sorted order is the only one. -/
theorem sorted_flat_refines_unsorted (lib : StdLib) (j : json) (opt : FastDumpOptions)
    (ok : List entry) (hs : opt.sort_keys = true) (hflat : objects_flat j = true) :
    fast_dump lib j opt ok
        = fast_dump lib (sort_objects j) { opt with sort_keys := false } ok ∧
      (opt.pretty * ((j.height : Int) + 1) < 2 ^ 31 →
        fast_dump lib j opt ok = Outcome.done (dump_value lib opt 0 (sort_objects j))) := by
  have h1 := fast_dump_sorted lib j opt ok hs hflat
  have h2 := fast_dump_unsorted lib (sort_objects j) { opt with sort_keys := false } ok rfl
  refine ⟨?_, fun _ => h1⟩
  rw [h1, h2, dump_value_options lib opt { opt with sort_keys := false } rfl rfl _ _
    (le_refl _)]

/-- C21 at `[{"b": 1, "a": [2]}, {"d": {}, "c": 3}]` in compact mode: the sorted
run returns `[{"a":[2],"b":1},{"c":3,"d":{}}]`. -/
theorem sorted_flat_refines_unsorted_witness :
    objects_flat (json.array
      [json.object [(bytes "b", json.number_integer 1),
        (bytes "a", json.array [json.number_integer 2])],
       json.object [(bytes "d", json.object []), (bytes "c", json.number_integer 3)]]) = true ∧
    fast_dump lib0 (json.array
      [json.object [(bytes "b", json.number_integer 1),
        (bytes "a", json.array [json.number_integer 2])],
       json.object [(bytes "d", json.object []), (bytes "c", json.number_integer 3)]])
      { sort_keys := true } []
      = fast_dump lib0 (json.array
      [json.object [(bytes "a", json.array [json.number_integer 2]),
        (bytes "b", json.number_integer 1)],
       json.object [(bytes "c", json.number_integer 3), (bytes "d", json.object [])]])
      { sort_keys := false } [] ∧
    fast_dump lib0 (json.array
      [json.object [(bytes "b", json.number_integer 1),
        (bytes "a", json.array [json.number_integer 2])],
       json.object [(bytes "d", json.object []), (bytes "c", json.number_integer 3)]])
      { sort_keys := true } []
      = Outcome.done (bytes "[\x7b\"a\":[2],\"b\":1\x7d,\x7b\"c\":3,\"d\":\x7b\x7d\x7d]") :=
  have hflat : objects_flat (json.array
      [json.object [(bytes "b", json.number_integer 1),
        (bytes "a", json.array [json.number_integer 2])],
       json.object [(bytes "d", json.object []), (bytes "c", json.number_integer 3)]])
      = true := rfl
  have h := sorted_flat_refines_unsorted lib0 _ { sort_keys := true } [] rfl hflat
  ⟨hflat, h.1, h.2 (by decide)⟩

/-! ### Negative indent widths -/

theorem gapped_nil (m : TextMode) : gapped m m [] [] := fun _ => rfl

theorem gapped_append {m m2 m3 : TextMode} {a0 a b0 b : List Byte}
    (h1 : gapped m m2 a0 a) (h2 : gapped m2 m3 b0 b) : gapped m m3 (a0 ++ b0) (a ++ b) := by
  intro rest
  rw [List.append_assoc, h1, h2, List.append_assoc]

theorem gapped_outside_byte (b : Byte) (h1 : b ≠ 0x22) (h2 : b ≠ 0x3A) :
    gapped TextMode.outside TextMode.outside [b] [b] := by
  intro rest
  simp [space_colons, h1, h2]

theorem gapped_outside_bytes (l : List Byte) (h : ∀ b ∈ l, b ≠ 0x22 ∧ b ≠ 0x3A) :
    gapped TextMode.outside TextMode.outside l l := by
  induction l with
  | nil => exact gapped_nil _
  | cons b tl ih =>
    have hb := h b (List.mem_cons_self b tl)
    exact gapped_append (gapped_outside_byte b hb.1 hb.2)
      (ih (fun x hx => h x (List.mem_cons_of_mem b hx)))

theorem gapped_colon : gapped TextMode.outside TextMode.outside [0x3A] [0x3A, 0x20] := by
  intro rest
  simp [space_colons]

theorem gapped_open : gapped TextMode.outside TextMode.inside [0x22] [0x22] := by
  intro rest
  simp [space_colons]

theorem gapped_close : gapped TextMode.inside TextMode.outside [0x22] [0x22] := by
  intro rest
  simp [space_colons]

theorem gapped_inside_byte (b : Byte) (h1 : b ≠ 0x5C) (h2 : b ≠ 0x22) :
    gapped TextMode.inside TextMode.inside [b] [b] := by
  intro rest
  simp [space_colons, h1, h2]

theorem gapped_escape_pair (e : Byte) :
    gapped TextMode.inside TextMode.inside [0x5C, e] [0x5C, e] := by
  intro rest
  simp [space_colons]

set_option maxRecDepth 100000 in
/-- Inside a string token the escape of any byte is copied as it is. -/
theorem gapped_escape_one (ea : Bool) (c : Byte) :
    gapped TextMode.inside TextMode.inside (escape_one ea c) (escape_one ea c) := by
  unfold escape_one
  split_ifs with hne
  · unfold escape_switch
    split_ifs
    · exact gapped_escape_pair 0x22
    · exact gapped_escape_pair 0x5C
    · exact gapped_escape_pair 0x62
    · exact gapped_escape_pair 0x66
    · exact gapped_escape_pair 0x6E
    · exact gapped_escape_pair 0x72
    · exact gapped_escape_pair 0x74
    · have h1 : (c.val >>> 4) &&& 0xF < 16 := Nat.lt_succ_of_le Nat.and_le_right
      have h2 : c.val &&& 0xF < 16 := Nat.lt_succ_of_le Nat.and_le_right
      have d1 := hex_digit_range ⟨_, h1⟩
      have d2 := hex_digit_range ⟨_, h2⟩
      have hd : ∀ x : Byte, 0x30 ≤ x → x ≤ 0x46 → x ≠ 0x5C ∧ x ≠ 0x22 := by
        decide
      have e1 := hd _ d1.1 d1.2
      have e2 := hd _ d2.1 d2.2
      have hu : bytes "\\u00" = [0x5C, 0x75] ++ ([0x30] ++ [0x30]) := by decide
      simp only [hu, List.nil_append, List.append_assoc]
      exact gapped_append (gapped_escape_pair 0x75)
        (gapped_append (gapped_inside_byte 0x30 (by decide) (by decide))
          (gapped_append (gapped_inside_byte 0x30 (by decide) (by decide))
            (gapped_append (gapped_inside_byte _ e1.1 e1.2)
              (gapped_inside_byte _ e2.1 e2.2))))
  · have hf := need_escape_false c ea (by simpa using hne)
    exact gapped_inside_byte c hf.2.2.1 hf.2.1

/-- A string token is copied as it is and leaves the reader outside. -/
theorem gapped_string (ea : Bool) (s : List Byte) :
    gapped TextMode.outside TextMode.outside (append_escaped_string [] s ea)
      (append_escaped_string [] s ea) := by
  rw [append_escaped_string_eq]
  have hbody : ∀ (s : List Byte), gapped TextMode.inside TextMode.inside
      (s.flatMap (escape_one ea)) (s.flatMap (escape_one ea)) := by
    intro s
    induction s with
    | nil => exact gapped_nil _
    | cons c s ih =>
      rw [List.flatMap_cons]
      exact gapped_append (gapped_escape_one ea c) ih
  simp only [List.nil_append]
  exact gapped_append (gapped_append gapped_open (hbody s)) gapped_close

theorem to_chars_digits_pred (p : Byte → Prop) (hd : ∀ d : Nat, d < 10 → p (Fin.ofNat (48 + d)))
    (fuel : Nat) : ∀ (v : Nat) (acc : List Byte), (∀ b ∈ acc, p b) →
      ∀ b ∈ to_chars_digits fuel v acc, p b := by
  induction fuel with
  | zero => intro v acc h; exact h
  | succ fuel ih =>
    intro v acc h
    simp only [to_chars_digits]
    split_ifs with h1
    · intro b hb
      rcases List.mem_cons.mp hb with h2 | h2
      · subst h2; exact hd v h1
      · exact h b h2
    · apply ih
      intro b hb
      rcases List.mem_cons.mp hb with h2 | h2
      · subst h2; exact hd (v % 10) (Nat.mod_lt _ (by norm_num))
      · exact h b h2

theorem to_chars_unsigned_token (v : Nat) :
    ∀ b ∈ to_chars_unsigned v, b ≠ 0x22 ∧ b ≠ 0x3A := by
  refine to_chars_digits_pred (fun b => b ≠ 0x22 ∧ b ≠ 0x3A) ?_ _ v []
    (fun _ h => by cases h)
  intro d hd
  interval_cases d <;> decide

theorem to_chars_signed_token (v : Int) :
    ∀ b ∈ to_chars_signed v, b ≠ 0x22 ∧ b ≠ 0x3A := by
  unfold to_chars_signed
  split_ifs
  · intro b hb
    rcases List.mem_cons.mp hb with h2 | h2
    · subst h2; decide
    · exact to_chars_unsigned_token _ b h2
  · exact to_chars_unsigned_token _

theorem line_break_negative (opt : FastDumpOptions) (hp : opt.pretty < 0) (l : Int) :
    line_break opt l = [] := by
  have h1 : ¬ opt.pretty > 0 := by omega
  simp [line_break, indent_if_needed, h1]

theorem key_gap_negative (opt : FastDumpOptions) (hp : opt.pretty < 0) :
    key_gap opt = [0x20] := by
  have h1 : opt.pretty ≠ 0 := by omega
  simp [key_gap, h1]

theorem separator_flat (opt : FastDumpOptions) (hb : ∀ l, line_break opt l = [])
    (first : Bool) (l : Int) :
    separator opt first l = if first = false then [0x2C] else [] := by
  simp [separator, hb]

set_option maxRecDepth 100000 in
theorem gapped_separator (first : Bool) :
    gapped TextMode.outside TextMode.outside (if first = false then [0x2C] else [])
      (if first = false then [0x2C] else []) := by
  cases first
  · exact gapped_outside_byte 0x2C (by decide) (by decide)
  · exact gapped_nil _

set_option maxRecDepth 100000 in
/-- The text of a scalar or an empty composite is copied as it is. -/
theorem gapped_leaf (lib : StdLib) (opt : FastDumpOptions) (l : Int) (v : json)
    (hlib : ∀ x, ∀ b ∈ append_double lib [] x, b ≠ 0x22 ∧ b ≠ 0x3A)
    (ho : ∀ obj, v ≠ json.object obj) (ha : ∀ arr, v ≠ json.array arr) :
    gapped TextMode.outside TextMode.outside (dump_value lib opt l v)
      (dump_value lib opt l v) := by
  cases v with
  | null => exact gapped_outside_bytes (bytes "null") (by decide)
  | boolean b =>
    cases b
    · exact gapped_outside_bytes (bytes "false") (by decide)
    · exact gapped_outside_bytes (bytes "true") (by decide)
  | number_integer v => exact gapped_outside_bytes _ (to_chars_signed_token v)
  | number_unsigned v => exact gapped_outside_bytes _ (to_chars_unsigned_token v)
  | number_float v => exact gapped_outside_bytes _ (hlib v)
  | string s => exact gapped_string _ s
  | binary p => exact gapped_string _ _
  | discarded => exact gapped_string _ _
  | object obj => exact absurd rfl (ho obj)
  | array arr => exact absurd rfl (ha arr)

theorem dump_value_leaf_options (lib : StdLib) (opt opt0 : FastDumpOptions)
    (hea : opt0.ensure_ascii = opt.ensure_ascii) (l : Int) (v : json)
    (ho : ∀ obj, v ≠ json.object obj) (ha : ∀ arr, v ≠ json.array arr) :
    dump_value lib opt0 l v = dump_value lib opt l v := by
  cases v with
  | object obj => exact absurd rfl (ho obj)
  | array arr => exact absurd rfl (ha arr)
  | _ => simp [dump_value, hea]

theorem object_frame_options (opt opt0 : FastDumpOptions)
    (hsk : opt0.sort_keys = opt.sort_keys) (obj : List entry) (l : Int) :
    object_frame opt0 obj l = object_frame opt obj l := by
  simp only [object_frame, hsk]

theorem next_record_out (f : Frame) (out out2 : List Byte) (rest rest2 : List Frame)
    (ok : List entry) : next_record f ⟨out, rest, ok⟩ = next_record f ⟨out2, rest2, ok⟩ := rfl

set_option maxRecDepth 100000 in
/-- One pass of the loop body with a negative indent width, against the same
pass in compact mode: both fault, or both succeed with the same stack and
scratch list, and the piece of text the first appends is the piece the second
appends with a space after the colon of a key. -/
theorem iteration_gap (lib : StdLib) (opt opt0 : FastDumpOptions) (hp : opt.pretty < 0)
    (h0 : opt0.pretty = 0) (hea : opt0.ensure_ascii = opt.ensure_ascii)
    (hsk : opt0.sort_keys = opt.sort_keys)
    (hlib : ∀ x, ∀ b ∈ append_double lib [] x, b ≠ 0x22 ∧ b ≠ 0x3A)
    (f : Frame) (rest : List Frame) (ok : List entry) :
    ((∀ out, iteration lib opt0 f ⟨out, rest, ok⟩ = none) ∧
      (∀ out, iteration lib opt f ⟨out, rest, ok⟩ = none)) ∨
    ∃ p0 p stack2 k, gapped TextMode.outside TextMode.outside p0 p ∧
      (∀ out, iteration lib opt0 f ⟨out, rest, ok⟩ = some ⟨out ++ p0, stack2, k⟩) ∧
      (∀ out, iteration lib opt f ⟨out, rest, ok⟩ = some ⟨out ++ p, stack2, k⟩) := by
  have hb := line_break_negative opt hp
  have hb0 := fun l => line_break_compact opt0 l h0
  have hg := key_gap_negative opt hp
  have hg0 := key_gap_compact opt0 h0
  have hsep := separator_flat opt hb
  have hsep0 := separator_flat opt0 hb0
  cases hk : f.kind with
  | VALUE =>
    right
    have hit : ∀ (o : FastDumpOptions) (out : List Byte),
        iteration lib o f ⟨out, rest, ok⟩ = visit_value lib o f ⟨out, rest, ok⟩ :=
      fun o out => iteration_value lib o f _ hk
    cases hn : f.node with
    | object obj =>
      cases obj with
      | nil =>
        refine ⟨bytes "\x7b\x7d", bytes "\x7b\x7d", rest, ok,
          gapped_outside_bytes _ (by decide), ?_, ?_⟩
        · intro out
          rw [hit, visit_value_object lib opt0 f _ [] hn, push_object_empty]
        · intro out
          rw [hit, visit_value_object lib opt f _ [] hn, push_object_empty]
      | cons e tl =>
        refine ⟨[0x7B], [0x7B], object_frame opt (e :: tl) f.indent_level :: rest,
          if opt.sort_keys then std_sort (e :: tl) else ok,
          gapped_outside_byte 0x7B (by decide) (by decide), ?_, ?_⟩
        · intro out
          rw [hit, visit_value_object lib opt0 f _ _ hn, push_object_cons, hb0,
            object_frame_options opt opt0 hsk, hsk, List.append_nil]
        · intro out
          rw [hit, visit_value_object lib opt f _ _ hn, push_object_cons, hb, List.append_nil]
    | array arr =>
      cases arr with
      | nil =>
        refine ⟨bytes "[]", bytes "[]", rest, ok, gapped_outside_bytes _ (by decide), ?_, ?_⟩
        · intro out
          rw [hit, visit_value_array lib opt0 f _ [] hn, push_array_empty]
        · intro out
          rw [hit, visit_value_array lib opt f _ [] hn, push_array_empty]
      | cons e tl =>
        refine ⟨[0x5B], [0x5B], array_frame (e :: tl) f.indent_level :: rest, ok,
          gapped_outside_byte 0x5B (by decide) (by decide), ?_, ?_⟩
        · intro out
          rw [hit, visit_value_array lib opt0 f _ _ hn, push_array_cons, hb0, List.append_nil]
        · intro out
          rw [hit, visit_value_array lib opt f _ _ hn, push_array_cons, hb, List.append_nil]
    | _ =>
      have ho : ∀ obj, f.node ≠ json.object obj := by simp [hn]
      have ha : ∀ arr, f.node ≠ json.array arr := by simp [hn]
      refine ⟨dump_value lib opt 0 f.node, dump_value lib opt 0 f.node, rest, ok,
        gapped_leaf lib opt 0 f.node hlib ho ha, ?_, ?_⟩
      · intro out
        rw [hit, visit_value_leaf lib opt0 f out rest ok ho ha,
          dump_value_leaf_options lib opt opt0 hea 0 f.node ho ha]
      · intro out
        rw [hit, visit_value_leaf lib opt f out rest ok ho ha]
  | OBJECT =>
    have hit : ∀ (o : FastDumpOptions) (out : List Byte),
        iteration lib o f ⟨out, rest, ok⟩ = visit_object o f ⟨out, rest, ok⟩ :=
      fun o out => iteration_object lib o f _ hk
    cases hrec : next_record f ⟨[], rest, ok⟩ with
    | none =>
      left
      constructor
      · intro out
        rw [hit]
        exact visit_object_fault opt0 f _ ((next_record_out f out [] rest rest ok).trans hrec)
      · intro out
        rw [hit]
        exact visit_object_fault opt f _ ((next_record_out f out [] rest rest ok).trans hrec)
    | some r =>
      right
      cases r with
      | none =>
        refine ⟨[0x7D], [0x7D], rest, ok, gapped_outside_byte 0x7D (by decide) (by decide),
          ?_, ?_⟩
        · intro out
          rw [hit, visit_object_done opt0 f _
            ((next_record_out f out [] rest rest ok).trans hrec), hb0, List.append_nil]
        · intro out
          rw [hit, visit_object_done opt f _
            ((next_record_out f out [] rest rest ok).trans hrec), hb, List.append_nil]
      | some r =>
        obtain ⟨key, val, g⟩ := r
        refine ⟨(if g.first = false then [0x2C] else [])
            ++ append_escaped_string [] key opt.ensure_ascii ++ [0x3A],
          (if g.first = false then [0x2C] else [])
            ++ append_escaped_string [] key opt.ensure_ascii ++ [0x3A, 0x20],
          value_frame val (g.indent_level + 1) :: { g with first := false } :: rest, ok,
          gapped_append (gapped_append (gapped_separator g.first) (gapped_string _ key))
            gapped_colon, ?_, ?_⟩
        · intro out
          rw [hit, visit_object_next opt0 f g _ key val
            ((next_record_out f out [] rest rest ok).trans hrec), hsep0, hg0, hea]
          simp [List.append_assoc]
        · intro out
          rw [hit, visit_object_next opt f g _ key val
            ((next_record_out f out [] rest rest ok).trans hrec), hsep, hg]
          simp [List.append_assoc]
  | ARRAY =>
    have hit : ∀ (o : FastDumpOptions) (out : List Byte),
        iteration lib o f ⟨out, rest, ok⟩ = visit_array o f ⟨out, rest, ok⟩ :=
      fun o out => iteration_array lib o f _ hk
    cases hn : f.node with
    | array arr =>
      by_cases hidx : f.idx = f.size
      · right
        refine ⟨[0x5D], [0x5D], rest, ok, gapped_outside_byte 0x5D (by decide) (by decide),
          ?_, ?_⟩
        · intro out
          rw [hit, visit_array_done opt0 f _ arr hn hidx, hb0, List.append_nil]
        · intro out
          rw [hit, visit_array_done opt f _ arr hn hidx, hb, List.append_nil]
      · cases he : arr[f.idx]? with
        | none =>
          left
          exact ⟨fun out => by rw [hit]; exact visit_array_fault opt0 f _ arr hn hidx he,
            fun out => by rw [hit]; exact visit_array_fault opt f _ arr hn hidx he⟩
        | some elem =>
          right
          refine ⟨if f.first = false then [0x2C] else [],
            if f.first = false then [0x2C] else [],
            value_frame elem (f.indent_level + 1)
              :: { f with first := false, idx := f.idx + 1 } :: rest, ok,
            gapped_separator f.first, ?_, ?_⟩
          · intro out
            rw [hit, visit_array_next opt0 f _ arr elem hn hidx he, hsep0]
          · intro out
            rw [hit, visit_array_next opt f _ arr elem hn hidx he, hsep]
    | _ =>
      left
      exact ⟨fun out => by rw [hit]; exact visit_array_other opt0 f _ (by simp [hn]),
        fun out => by rw [hit]; exact visit_array_other opt f _ (by simp [hn])⟩

/-- The loop with a negative indent width has the outcome of the loop in
compact mode, with a space put after the colon of every key. -/
theorem loop_gap (lib : StdLib) (opt opt0 : FastDumpOptions) (hp : opt.pretty < 0)
    (h0 : opt0.pretty = 0) (hea : opt0.ensure_ascii = opt.ensure_ascii)
    (hsk : opt0.sort_keys = opt.sort_keys)
    (hlib : ∀ x, ∀ b ∈ append_double lib [] x, b ≠ 0x22 ∧ b ≠ 0x3A) :
    ∀ (fuel : Nat) (out0 out : List Byte) (stack : List Frame) (ok : List entry),
      gapped TextMode.outside TextMode.outside out0 out →
      loop lib opt fuel ⟨out, stack, ok⟩
        = space_key_colons (loop lib opt0 fuel ⟨out0, stack, ok⟩) := by
  intro fuel
  induction fuel with
  | zero =>
    intro out0 out stack ok h
    cases stack with
    | nil =>
      rw [loop_nil, loop_nil]
      have := h []
      simp only [List.append_nil, space_colons] at this
      simp only [space_key_colons, this]
    | cons f rest => rw [loop_zero, loop_zero]; rfl
  | succ fuel ih =>
    intro out0 out stack ok h
    cases stack with
    | nil =>
      rw [loop_nil, loop_nil]
      have := h []
      simp only [List.append_nil, space_colons] at this
      simp only [space_key_colons, this]
    | cons f rest =>
      rw [loop_succ, loop_succ]
      rcases iteration_gap lib opt opt0 hp h0 hea hsk hlib f rest ok with
        ⟨h1, h2⟩ | ⟨p0, p, stack2, k, hg, h1, h2⟩
      · rw [h1, h2]; rfl
      · rw [h1, h2]
        exact ih (out0 ++ p0) (out ++ p) stack2 k (gapped_append h hg)

/-- With a negative indent width `fast_dump` has the outcome of the compact run
with a space put after the colon of every key. -/
theorem fast_dump_negative (lib : StdLib) (j : json) (opt : FastDumpOptions) (ok : List entry)
    (hp : opt.pretty < 0) (hlib : ∀ x, ∀ b ∈ append_double lib [] x, b ≠ 0x22 ∧ b ≠ 0x3A) :
    fast_dump lib j opt ok
      = space_key_colons (fast_dump lib j { opt with pretty := 0 } ok) :=
  loop_gap lib opt { opt with pretty := 0 } hp rfl rfl rfl hlib _ [] []
    [value_frame j 0] ok (gapped_nil _)

/-- With a negative indent width the text `fast_dump` returns has no newline. -/
theorem fast_dump_negative_one_line (lib : StdLib) (j : json) (opt : FastDumpOptions)
    (ok : List entry) (text : List Byte) (hp : opt.pretty < 0)
    (hlib : ∀ x, ∀ b ∈ append_double lib [] x, b ≠ 0x0A)
    (hrun : fast_dump lib j opt ok = Outcome.done text) : (0x0A : Byte) ∉ text := by
  have h1 : ∀ b ∈ text, b ≠ 0x0A := by
    refine fast_dump_bytes lib opt (fun b => b ≠ 0x0A) (fun _ => true)
      (fun b hb => ne_of_gt (lt_trans (by decide) hb.1)) ?_ ?_ hlib ?_ j ok text
      (strings_ok_trivial _ j (le_refl _)) hrun
    · intro l b hb
      rw [line_break_negative opt hp l] at hb
      cases hb
    · intro b hb
      rw [key_gap_negative opt hp] at hb
      simp only [List.mem_singleton] at hb
      rw [hb]
      decide
    · intro s _
      refine escaped_bytes (fun b => b ≠ 0x0A) _ s (by decide) ?_
      intro c _ b hb
      exact ne_of_gt (lt_of_lt_of_le (by decide) (escape_one_no_control _ c b hb))
  exact fun h => h1 _ h rfl

theorem fast_dump_single_member (lib : StdLib) (opt : FastDumpOptions) (e : entry)
    (ok : List entry) (he : no_open_object e.2 = true) :
    fast_dump lib (json.object [e]) opt ok
      = Outcome.done (dump_value lib opt 0 (json.object [e])) := by
  cases hs : opt.sort_keys with
  | false => exact fast_dump_unsorted lib _ opt ok hs
  | true =>
    rw [fast_dump_sorted_flat lib opt [e] ok hs (by simpa using he)]
    rfl

/-- C22: a negative indent width is not the compact mode. For every value tree,
all options with `pretty < 0` and any content of the scratch list (the text the
standard library prints for a double having no newline, quote or colon):
`indent_if_needed` writes nothing, since it tests `pretty > 0`; the run has the
outcome of the run with `pretty = 0` on the same tree, with one space put after
the colon of every object key, since the call sites test `pretty != 0`; and a
returned text has no newline. So `{"a": 1}` is written as `{"a": 1}` with width
-1 and as `{"a":1}` with width 0, in either key order and escape mode. -/
theorem negative_width_not_compact :
    (∀ (lib : StdLib) (j : json) (opt : FastDumpOptions) (ok : List entry),
      opt.pretty < 0 →
      (∀ x, ∀ b ∈ append_double lib [] x, b ≠ 0x0A ∧ b ≠ 0x22 ∧ b ≠ 0x3A) →
      (∀ (out : List Byte) (level : Int), indent_if_needed out opt.pretty level = out) ∧
      fast_dump lib j opt ok
        = space_key_colons (fast_dump lib j { opt with pretty := 0 } ok) ∧
      (∀ text, fast_dump lib j opt ok = Outcome.done text → (0x0A : Byte) ∉ text)) ∧
    (∀ (lib : StdLib) (ensure_ascii sort_keys : Bool) (ok : List entry),
      fast_dump lib (json.object [(bytes "a", json.number_integer 1)])
          { pretty := -1, ensure_ascii := ensure_ascii, sort_keys := sort_keys } ok
        = Outcome.done (bytes "\x7b\"a\": 1\x7d") ∧
      fast_dump lib (json.object [(bytes "a", json.number_integer 1)])
          { pretty := 0, ensure_ascii := ensure_ascii, sort_keys := sort_keys } ok
        = Outcome.done (bytes "\x7b\"a\":1\x7d")) := by
  constructor
  · intro lib j opt ok hp hlib
    refine ⟨?_, ?_, ?_⟩
    · intro out level
      have h1 : ¬ opt.pretty > 0 := by omega
      simp [indent_if_needed, h1]
    · exact fast_dump_negative lib j opt ok hp (fun x b hb => (hlib x b hb).2)
    · intro text hrun
      exact fast_dump_negative_one_line lib j opt ok text hp (fun x b hb => (hlib x b hb).1)
        hrun
  · intro lib ensure_ascii sort_keys ok
    constructor
    · rw [fast_dump_single_member lib _ (bytes "a", json.number_integer 1) ok rfl]
      cases ensure_ascii <;> rfl
    · rw [fast_dump_single_member lib _ (bytes "a", json.number_integer 1) ok rfl]
      cases ensure_ascii <;> rfl

set_option maxRecDepth 100000 in
/-- C22 at `{"k:": [1, "a:b"]}` with width -3: the compact text
`{"k:":[1,"a:b"]}` with a space after the colon of the key, the colons inside
the string tokens left alone. -/
theorem negative_width_not_compact_witness :
    (∀ x, ∀ b ∈ append_double lib0 [] x, b ≠ 0x0A ∧ b ≠ 0x22 ∧ b ≠ 0x3A) ∧
    fast_dump lib0 (json.object [(bytes "k:", json.array
        [json.number_integer 1, json.string (bytes "a:b")])]) { pretty := 0 } []
      = Outcome.done (bytes "\x7b\"k:\":[1,\"a:b\"]\x7d") ∧
    fast_dump lib0 (json.object [(bytes "k:", json.array
        [json.number_integer 1, json.string (bytes "a:b")])]) { pretty := -3 } []
      = Outcome.done (bytes "\x7b\"k:\": [1,\"a:b\"]\x7d") ∧
    (0x0A : Byte) ∉ bytes "\x7b\"k:\": [1,\"a:b\"]\x7d" :=
  have hlib : ∀ x, ∀ b ∈ append_double lib0 [] x, b ≠ 0x0A ∧ b ≠ 0x22 ∧ b ≠ 0x3A := by
    intro x b hb
    simp only [append_double, lib0, List.nil_append, List.mem_singleton] at hb
    rw [hb]; decide
  have hcompact : fast_dump lib0 (json.object [(bytes "k:", json.array
        [json.number_integer 1, json.string (bytes "a:b")])]) { pretty := 0 } []
      = Outcome.done (bytes "\x7b\"k:\":[1,\"a:b\"]\x7d") := by decide
  have h := negative_width_not_compact.1 lib0 (json.object [(bytes "k:", json.array
        [json.number_integer 1, json.string (bytes "a:b")])]) { pretty := -3 } []
      (by decide) hlib
  have hrun : fast_dump lib0 (json.object [(bytes "k:", json.array
        [json.number_integer 1, json.string (bytes "a:b")])]) { pretty := -3 } []
      = Outcome.done (bytes "\x7b\"k:\": [1,\"a:b\"]\x7d") := by
    rw [h.2.1, hcompact]
    decide
  ⟨hlib, hcompact, hrun, h.2.2 _ hrun⟩

/-! ### The scratch list at the start of a call -/

theorem next_record_unordered (f : Frame) (st st2 : State) (huo : f.use_ordered = false) :
    next_record f st = next_record f st2 := by
  simp [next_record, huo]

theorem scratch_agree_rest (f : Frame) (rest : List Frame) (ok ok2 : List entry)
    (h : scratch_agree (f :: rest) ok ok2) : scratch_agree rest ok ok2 :=
  fun ⟨g, hg, hk⟩ => h ⟨g, List.mem_cons_of_mem f hg, hk⟩

theorem scratch_agree_push (a : Frame) (rest : List Frame) (ok ok2 : List entry)
    (ha : ¬ (a.kind = Kind.OBJECT ∧ a.use_ordered = true))
    (h : scratch_agree rest ok ok2) : scratch_agree (a :: rest) ok ok2 := by
  rintro ⟨g, hg, hk⟩
  rcases List.mem_cons.mp hg with h1 | h1
  · subst h1; exact absurd hk ha
  · exact h ⟨g, h1, hk⟩

/-- One pass of the loop body on two states that differ in the scratch list
only, where no frame on the stack reads it: both passes fault, or both succeed
with the same text and stack, and again the scratch lists agree if a frame
reads them. -/
theorem iteration_scratch (lib : StdLib) (opt : FastDumpOptions) (f : Frame)
    (out : List Byte) (rest : List Frame) (ok ok2 : List entry)
    (h : scratch_agree (f :: rest) ok ok2) :
    (iteration lib opt f ⟨out, rest, ok⟩ = none ∧
      iteration lib opt f ⟨out, rest, ok2⟩ = none) ∨
    ∃ out2 stack2 k k2, iteration lib opt f ⟨out, rest, ok⟩ = some ⟨out2, stack2, k⟩ ∧
      iteration lib opt f ⟨out, rest, ok2⟩ = some ⟨out2, stack2, k2⟩ ∧
      scratch_agree stack2 k k2 := by
  have hrest := scratch_agree_rest f rest ok ok2 h
  cases hk : f.kind with
  | VALUE =>
    rw [iteration_value lib opt f _ hk, iteration_value lib opt f _ hk]
    right
    cases hn : f.node with
    | object obj =>
      rw [visit_value_object lib opt f _ obj hn, visit_value_object lib opt f _ obj hn]
      cases obj with
      | nil =>
        exact ⟨_, _, _, _, push_object_empty opt _ _, push_object_empty opt _ _, hrest⟩
      | cons e tl =>
        refine ⟨_, _, _, _, push_object_cons opt _ e tl _, push_object_cons opt _ e tl _, ?_⟩
        cases hs : opt.sort_keys with
        | true => exact fun _ => rfl
        | false =>
          simp only [Bool.false_eq_true, if_false]
          refine scratch_agree_push _ rest ok ok2 ?_ hrest
          simp [object_frame, hs]
    | array arr =>
      rw [visit_value_array lib opt f _ arr hn, visit_value_array lib opt f _ arr hn]
      cases arr with
      | nil =>
        exact ⟨_, _, _, _, push_array_empty opt _ _, push_array_empty opt _ _, hrest⟩
      | cons e tl =>
        refine ⟨_, _, _, _, push_array_cons opt _ e tl _, push_array_cons opt _ e tl _, ?_⟩
        exact scratch_agree_push _ rest ok ok2 (by simp [array_frame]) hrest
    | _ =>
      exact ⟨_, _, _, _,
        visit_value_leaf lib opt f out rest ok (by simp [hn]) (by simp [hn]),
        visit_value_leaf lib opt f out rest ok2 (by simp [hn]) (by simp [hn]), hrest⟩
  | OBJECT =>
    rw [iteration_object lib opt f _ hk, iteration_object lib opt f _ hk]
    have hnr : ok = ok2 ∨
        next_record f ⟨out, rest, ok⟩ = next_record f ⟨out, rest, ok2⟩ ∧
          f.use_ordered = false := by
      cases huo : f.use_ordered with
      | true => exact Or.inl (h ⟨f, List.mem_cons_self f rest, hk, huo⟩)
      | false => exact Or.inr ⟨next_record_unordered f _ _ huo, rfl⟩
    rcases hnr with heq | ⟨hnr, huo⟩
    · subst heq
      cases hv : visit_object opt f ⟨out, rest, ok⟩ with
      | none => exact Or.inl ⟨rfl, rfl⟩
      | some st => exact Or.inr ⟨st.out, st.stack, st.ordered_keys, st.ordered_keys, rfl, rfl,
          fun _ => rfl⟩
    · cases hrec : next_record f ⟨out, rest, ok⟩ with
      | none =>
        exact Or.inl ⟨visit_object_fault opt f _ hrec,
          visit_object_fault opt f _ (hnr ▸ hrec)⟩
      | some r =>
        cases r with
        | none =>
          exact Or.inr ⟨_, _, _, _, visit_object_done opt f _ hrec,
            visit_object_done opt f _ (hnr ▸ hrec), hrest⟩
        | some r =>
          obtain ⟨key, val, g⟩ := r
          refine Or.inr ⟨_, _, _, _, visit_object_next opt f g _ key val hrec,
            visit_object_next opt f g _ key val (hnr ▸ hrec), ?_⟩
          have hg : g.use_ordered = false := by
            rcases next_record_spec f g _ key val hrec with ⟨huo2, _⟩ | ⟨_, tl, _, hg⟩
            · rw [huo] at huo2; cases huo2
            · subst hg; exact huo
          refine scratch_agree_push _ _ ok ok2 (by simp [value_frame]) ?_
          exact scratch_agree_push _ rest ok ok2 (by simp [hg]) hrest
  | ARRAY =>
    rw [iteration_array lib opt f _ hk, iteration_array lib opt f _ hk]
    cases hn : f.node with
    | array arr =>
      by_cases hidx : f.idx = f.size
      · exact Or.inr ⟨_, _, _, _, visit_array_done opt f _ arr hn hidx,
          visit_array_done opt f _ arr hn hidx, hrest⟩
      · cases he : arr[f.idx]? with
        | none =>
          exact Or.inl ⟨visit_array_fault opt f _ arr hn hidx he,
            visit_array_fault opt f _ arr hn hidx he⟩
        | some elem =>
          refine Or.inr ⟨_, _, _, _, visit_array_next opt f _ arr elem hn hidx he,
            visit_array_next opt f _ arr elem hn hidx he, ?_⟩
          refine scratch_agree_push _ _ ok ok2 (by simp [value_frame]) ?_
          exact scratch_agree_push _ rest ok ok2 (by simp [hk]) hrest
    | _ =>
      exact Or.inl ⟨visit_array_other opt f _ (by simp [hn]),
        visit_array_other opt f _ (by simp [hn])⟩

/-- The outcome of the loop does not depend on a scratch list no frame reads. -/
theorem loop_scratch (lib : StdLib) (opt : FastDumpOptions) :
    ∀ (fuel : Nat) (out : List Byte) (stack : List Frame) (ok ok2 : List entry),
      scratch_agree stack ok ok2 →
      loop lib opt fuel ⟨out, stack, ok⟩ = loop lib opt fuel ⟨out, stack, ok2⟩ := by
  intro fuel
  induction fuel with
  | zero =>
    intro out stack ok ok2 _
    cases stack with
    | nil => rw [loop_nil, loop_nil]
    | cons f rest => rw [loop_zero, loop_zero]
  | succ fuel ih =>
    intro out stack ok ok2 h
    cases stack with
    | nil => rw [loop_nil, loop_nil]
    | cons f rest =>
      rw [loop_succ, loop_succ]
      rcases iteration_scratch lib opt f out rest ok ok2 h with
        ⟨h1, h2⟩ | ⟨out2, stack2, k, k2, h1, h2, hagree⟩
      · rw [h1, h2]
      · rw [h1, h2]
        exact ih out2 stack2 k k2 hagree

/-- C23: the result of `fast_dump` does not depend on what the thread-local
scratch list `ordered_keys` holds when the call starts. For every value tree,
all options and any two initial contents of the list the two runs have the same
outcome, the same text or the same failure: a frame reads `ordered_keys` only if
it is an `OBJECT` frame with `use_ordered` set, and such a frame is pushed by a
`push_object` that has just refilled the list. -/
theorem scratch_content_irrelevant (lib : StdLib) (j : json) (opt : FastDumpOptions)
    (ok ok2 : List entry) :
    fast_dump lib j opt ok = fast_dump lib j opt ok2 ∧
      ((∃ text, fast_dump lib j opt ok = Outcome.done text ∧
          fast_dump lib j opt ok2 = Outcome.done text) ∨
        (fast_dump lib j opt ok = Outcome.fault ∧ fast_dump lib j opt ok2 = Outcome.fault)) := by
  have heq : fast_dump lib j opt ok = fast_dump lib j opt ok2 := by
    refine loop_scratch lib opt _ [] [value_frame j 0] ok ok2 ?_
    rintro ⟨g, hg, hk, _⟩
    have : g = value_frame j 0 := by simpa using hg
    subst this
    cases hk
  refine ⟨heq, ?_⟩
  rw [← heq]
  cases hr : fast_dump lib j opt ok with
  | done text => exact Or.inl ⟨text, rfl, rfl⟩
  | fault => exact Or.inr ⟨rfl, rfl⟩
  | timeout => exact absurd hr (fast_dump_not_timeout lib j opt ok)

/-! ### Indent widths and the 32-bit product -/

theorem frame_level_bound (h : Nat) : ∀ (stack : List Frame), levels_ok stack →
    depth_ok h stack → ∀ f ∈ stack, 0 ≤ f.indent_level ∧ f.indent_level ≤ (h : Int) := by
  intro stack
  induction stack with
  | nil => intro _ _ f hf; cases hf
  | cons g rest ih =>
    intro hl hd f hf
    rcases List.mem_cons.mp hf with h1 | h1
    · subst h1
      have h2 := hl.1
      have h3 := hd.1
      constructor
      · rw [h2]; exact Int.natCast_nonneg _
      · rw [h2]
        have : rest.length ≤ h := by omega
        exact_mod_cast this
    · exact ih hl.2 hd.2 f h1

/-- For a width `pretty ≥ 0` with `pretty * (height + 1) < 2 ^ 31`, at the start
of every pass of the loop every frame on the stack has a level for which the
products `pretty * indent_level` and `pretty * (indent_level + 1)`, the only
ones a pass can hand to `indent_if_needed`, lie in `[0, 2 ^ 31)`: the product
of the two `int`s in the source is the product taken here. -/
theorem indent_products_fit (lib : StdLib) (j : json) (opt : FastDumpOptions)
    (ok : List entry) (hp : 0 ≤ opt.pretty)
    (hfit : opt.pretty * ((j.height : Int) + 1) < 2 ^ 31)
    (k : Nat) (st : State) (hrun : run_passes lib opt k (initial j ok) = some st) :
    ∀ f ∈ st.stack, 0 ≤ opt.pretty * f.indent_level ∧
      opt.pretty * (f.indent_level + 1) < 2 ^ 31 := by
  have h0 := initial_ok j ok
  have hl0 : levels_ok (initial j ok).stack := ⟨rfl, trivial⟩
  have hd0 : depth_ok j.height (initial j ok).stack :=
    ⟨by simp [initial, push_value_eq, value_frame], trivial⟩
  obtain ⟨_, hl, hd⟩ := run_passes_inv lib opt j.width j.height k _ st h0.1 hl0 hd0 hrun
  intro f hf
  obtain ⟨h1, h2⟩ := frame_level_bound j.height st.stack hl hd f hf
  constructor
  · exact mul_nonneg hp h1
  · have h3 : opt.pretty * (f.indent_level + 1) ≤ opt.pretty * ((j.height : Int) + 1) :=
      mul_le_mul_of_nonneg_left (by omega) hp
    exact lt_of_le_of_lt h3 hfit

/-- C1: for every value tree, every text of the scratch list, every escape mode
and every indent width `w ≥ 0` with `w * (height + 1) < 2 ^ 31`, with
`sort_keys = false` the explicit-stack `fast_dump` returns exactly the text of
the straightforward recursive serializer `recursive_dump`; on
`{"a": 1, "b": [2, 3]}` in compact mode that text is `{"a":1,"b":[2,3]}`. The
bound is the range of the 32-bit product `pretty * level` of
`indent_if_needed`: under it every product the run computes is below `2 ^ 31`,
so the product taken in `Int` is the one the source computes. -/
theorem fast_dump_refines_recursive_dump :
    (∀ (lib : StdLib) (j : json) (w : Nat) (ensure_ascii : Bool) (ok : List entry),
      (w : Int) * ((j.height : Int) + 1) < 2 ^ 31 →
      fast_dump lib j
          { pretty := (w : Int), ensure_ascii := ensure_ascii, sort_keys := false } ok
        = Outcome.done (recursive_dump lib ensure_ascii w 0 j) ∧
      (∀ (k : Nat) (st : State),
        run_passes lib
            { pretty := (w : Int), ensure_ascii := ensure_ascii, sort_keys := false } k
            (initial j ok) = some st →
        ∀ f ∈ st.stack, 0 ≤ (w : Int) * f.indent_level ∧
          (w : Int) * (f.indent_level + 1) < 2 ^ 31)) ∧
    recursive_dump lib0 false 0 0
        (json.object [(bytes "a", json.number_integer 1),
          (bytes "b", json.array [json.number_integer 2, json.number_integer 3])])
      = bytes "\x7b\"a\":1,\"b\":[2,3]\x7d" := by
  constructor
  · intro lib j w ensure_ascii ok hfit
    constructor
    · rw [fast_dump_unsorted lib j _ ok rfl]
      have := dump_value_eq_recursive lib
        { pretty := (w : Int), ensure_ascii := ensure_ascii, sort_keys := false } w rfl
        j.height j (le_refl _) 0
      simpa using this
    · intro k st hrun
      exact indent_products_fit lib j
        { pretty := (w : Int), ensure_ascii := ensure_ascii, sort_keys := false } ok
        (Int.natCast_nonneg w) hfit k st hrun
  · decide

set_option maxRecDepth 100000 in
/-- C1 at `{"a": 1, "b": [2, 3]}` with indent width 2. -/
theorem fast_dump_refines_recursive_dump_witness :
    ((2 : Nat) : Int) * (((json.object [(bytes "a", json.number_integer 1),
        (bytes "b", json.array [json.number_integer 2, json.number_integer 3])]).height : Int)
        + 1) < 2 ^ 31 ∧
    fast_dump lib0 (json.object [(bytes "a", json.number_integer 1),
        (bytes "b", json.array [json.number_integer 2, json.number_integer 3])])
        { pretty := ((2 : Nat) : Int), ensure_ascii := false, sort_keys := false } []
      = Outcome.done (recursive_dump lib0 false 2 0
          (json.object [(bytes "a", json.number_integer 1),
            (bytes "b", json.array [json.number_integer 2, json.number_integer 3])])) ∧
    recursive_dump lib0 false 2 0
        (json.object [(bytes "a", json.number_integer 1),
          (bytes "b", json.array [json.number_integer 2, json.number_integer 3])])
      = bytes "\x7b\n  \"a\": 1,\n  \"b\": [\n    2,\n    3\n  ]\n\x7d" :=
  ⟨by decide, (fast_dump_refines_recursive_dump.1 lib0 _ 2 false [] (by decide)).1, by decide⟩

/-- C10: for every value tree and every indent width `w > 0` with
`w * (height + 1) < 2 ^ 31`, with `sort_keys = false`, `fast_dump` returns a
text in which every newline is followed by exactly `w * d` spaces and then a
byte that is not a space, `d` being the number of composites opened and not yet
closed at that byte, with a closing `]` or `}` counted at the depth of the line
that opened its composite (the text the standard library prints for a double
being non-empty and free of spaces, quotes, braces and brackets). The bound is
the range of the 32-bit product `pretty * level` of `indent_if_needed`: under
it every product the run computes is below `2 ^ 31`, so the number of spaces
counted here is the number the source appends. -/
theorem pretty_lines_are_indented (lib : StdLib) (j : json) (w : Nat) (ensure_ascii : Bool)
    (ok : List entry) (hw : 0 < w)
    (hfit : (w : Int) * ((j.height : Int) + 1) < 2 ^ 31)
    (hlib : ∀ v, append_double lib [] v ≠ [] ∧
      ∀ b ∈ append_double lib [] v, plain_byte b = true) :
    (∃ text,
      fast_dump lib j { pretty := (w : Int), ensure_ascii := ensure_ascii, sort_keys := false }
          ok = Outcome.done text ∧
      lines_indented w text = true) ∧
    (∀ (k : Nat) (st : State),
      run_passes lib { pretty := (w : Int), ensure_ascii := ensure_ascii, sort_keys := false }
          k (initial j ok) = some st →
      ∀ f ∈ st.stack, 0 ≤ (w : Int) * f.indent_level ∧
        (w : Int) * (f.indent_level + 1) < 2 ^ 31) := by
  constructor
  · refine ⟨_, fast_dump_unsorted lib j _ ok rfl, ?_⟩
    have h := indent_ok_value lib
      { pretty := (w : Int), ensure_ascii := ensure_ascii, sort_keys := false } w hw rfl hlib
      j.height j (le_refl _) 0 []
    simp only [List.append_nil] at h
    exact h
  · intro k st hrun
    exact indent_products_fit lib j
      { pretty := (w : Int), ensure_ascii := ensure_ascii, sort_keys := false } ok
      (Int.natCast_nonneg w) hfit k st hrun

set_option maxRecDepth 100000 in
/-- C10 at `{"a": 1, "b": [2, 3]}` with indent width 2. -/
theorem pretty_lines_are_indented_witness :
    0 < 2 ∧
    ((2 : Nat) : Int) * (((json.object [(bytes "a", json.number_integer 1),
        (bytes "b", json.array [json.number_integer 2, json.number_integer 3])]).height : Int)
        + 1) < 2 ^ 31 ∧
    (∀ v, append_double lib0 [] v ≠ [] ∧ ∀ b ∈ append_double lib0 [] v, plain_byte b = true) ∧
    ∃ text,
      fast_dump lib0 (json.object [(bytes "a", json.number_integer 1),
          (bytes "b", json.array [json.number_integer 2, json.number_integer 3])])
          { pretty := ((2 : Nat) : Int), ensure_ascii := false, sort_keys := false } []
        = Outcome.done text ∧
      lines_indented 2 text = true :=
  have hlib : ∀ v, append_double lib0 [] v ≠ [] ∧
      ∀ b ∈ append_double lib0 [] v, plain_byte b = true := by
    intro v
    refine ⟨by simp [append_double, lib0], ?_⟩
    intro b hb
    simp only [append_double, lib0, List.nil_append, List.mem_singleton] at hb
    rw [hb]; decide
  ⟨by decide, by decide,
    hlib, (pretty_lines_are_indented lib0 _ 2 false [] (by decide) (by decide) hlib).1⟩
